import Mathlib

/-!
# GraphAlgos: subgraph search (`src/graph_algos/find_subgraph.cpp`)

A shallow embedding of `UpdatePossibleAssignments`, `DoAssignedEdgesExist`,
`FindSubgraphImpl` and `FindSubgraph`, and the properties proved about them.

## Data model

* `boost::adjacency_list<>` (out-edge lists and vertex list both `vecS`,
  directed) is a vector of vertices, vertex `v` holding the vector of the
  targets of its out-edges in insertion order.  It is embedded as
  `Graph = List (List Nat)`: `g[v]` is the list of targets of vertex `v`, and
  `g.length` is `m_vertices.size()`.  `add_edge` on such a graph grows the
  vertex vector so that both endpoints are vertices; the predicate
  `Graph.WF` records this.
* `std::vector<uint64_t>` (the assignment) is `List Nat`, `push_back c` is
  `· ++ [c]`, `pop_back` is `List.dropLast`.
* `std::vector<std::vector<uint64_t>>` (the table of possible assignments) is
  `Table = List (List Nat)`.
* Every indexed access of the source is checked in the model: an access out
  of range (an exception of `vector::at`, or undefined behaviour of
  `operator[]`, `adjacent_vertices`, `edge` on a descriptor that is not a vertex)
  is the result `none` (for the propagator and validator) or `Outcome.fault`
  (for the search).
* The recursion of `FindSubgraphImpl` and its `while` loop are embedded with
  an explicit bound; running past the bound is the result `Outcome.outOfFuel`,
  which is proved never to be produced by `FindSubgraph`.
* Vertex ids are `uint64_t` or `size_t` and never exceed a vertex count, so they
  are `Nat`.  The one counter of a narrower type is the `unsigned int` of
  `std::iota(..., 0u)` in `FindSubgraph`; it is embedded with its wrap-around
  (`allVerticesInGraph`), taking `unsigned int` to have 32 bits.
* For the properties of the calls and of the candidates of a frame, the search
  is embedded a second time with a record of what it does (`searchLoopTraced`,
  `FindSubgraphImplTraced`): the same code, handing back with its outcome the
  candidates committed by the loop and the arguments of the calls made.  Its
  outcome is proved to be the outcome of `searchLoop` and `FindSubgraphImpl`.
  A third copy of the loop (`searchLoopErased`) hands back the candidates that
  the propagator passes re-run inside the loop remove from domain(next).
-/

namespace GraphAlgos

/-- A `boost::adjacency_list<>`: entry `v` lists the targets of the out-edges of vertex `v`. -/
abbrev Graph := List (List Nat)

/-- The table `possibleAssignments`: entry `x` is the domain of pattern vertex `x`. -/
abbrev Table := List (List Nat)

/-- Every edge endpoint is a vertex of the graph (what `add_edge` guarantees). -/
def Graph.WF (g : Graph) : Prop :=
  ∀ adj ∈ g, ∀ v ∈ adj, v < g.length

instance (g : Graph) : Decidable (Graph.WF g) := by
  unfold Graph.WF; infer_instance

/-- The list of all edges `(source, target)` in the order of `boost::edges`: by source
vertex, then in insertion order. -/
def edgesFrom : Nat → Graph → List (Nat × Nat)
  | _, [] => []
  | u, adj :: rest => adj.map (fun v => (u, v)) ++ edgesFrom (u + 1) rest

/-- The edge list `boost::edges(g)`. -/
def edges (g : Graph) : List (Nat × Nat) := edgesFrom 0 g

/-- The result of `boost::edge(u, v, g).second` for a vertex `u` of `g`. -/
def hasEdge (g : Graph) (u v : Nat) : Bool := (g.getD u []).contains v

/-- The domain of pattern vertex `x` in the table (empty when `x` is not an index). -/
def domain (possibleAssignments : Table) (x : Nat) : List Nat := possibleAssignments.getD x []

/-- The inner `for` loop of `UpdatePossibleAssignments` over the pattern-successors of the
vertex in hand, for one candidate whose host successors are `graphNeighbors`:
`some true` when the candidate is to be erased (some pattern-successor has no possible
assignment among `graphNeighbors`; the loop breaks there), `some false` when every
pattern-successor is valid, `none` when `possibleAssignments.at` is out of range. -/
def removeAssignment (possibleAssignments : Table) (graphNeighbors : List Nat) :
    List Nat → Option Bool
  | [] => some false
  | subgraphNeighbor :: more =>
    match possibleAssignments[subgraphNeighbor]? with
    | none => none
    | some neighborAssignments =>
      if neighborAssignments.any (fun neighborAssignment =>
          graphNeighbors.contains neighborAssignment) then
        removeAssignment possibleAssignments graphNeighbors more
      else some true

/-- The `while` loop of `UpdatePossibleAssignments` over the domain of `subgraphVertex`.
The iterator `assignedVertexIt` splits the live domain into `kept` (the candidates before
the iterator) and the candidates from the iterator on (the list argument); the table always
holds their concatenation at `subgraphVertex`.  `erase` removes the candidate at the
iterator, `assignedVertexIt++` moves it to `kept`.  The Boolean is `isUpdate`. -/
def pruneDomain (graph : Graph) (subgraphVertex : Nat) (subgraphNeighbors : List Nat) :
    List Nat → List Nat → Table → Bool → Option (Table × Bool)
  | _, [], possibleAssignments, isUpdate => some (possibleAssignments, isUpdate)
  | kept, assignedVertex :: rest, possibleAssignments, isUpdate =>
    match graph[assignedVertex]? with
    | none => none
    | some graphNeighbors =>
      match removeAssignment possibleAssignments graphNeighbors subgraphNeighbors with
      | none => none
      | some true =>
        pruneDomain graph subgraphVertex subgraphNeighbors kept rest
          (possibleAssignments.set subgraphVertex (kept ++ rest)) true
      | some false =>
        pruneDomain graph subgraphVertex subgraphNeighbors (kept ++ [assignedVertex]) rest
          possibleAssignments isUpdate

/-- The body of the outer `for` loop of `UpdatePossibleAssignments` for one
`subgraphVertex`. -/
def updateVertex (graph subgraph : Graph) (subgraphVertex : Nat)
    (possibleAssignments : Table) (isUpdate : Bool) : Option (Table × Bool) :=
  match subgraph[subgraphVertex]? with
  | none => none
  | some [] => some (possibleAssignments, isUpdate)
  | some (n :: ns) =>
    match possibleAssignments[subgraphVertex]? with
    | none => none
    | some domain =>
      pruneDomain graph subgraphVertex (n :: ns) [] domain possibleAssignments isUpdate

/-- The outer `for` loop of `UpdatePossibleAssignments`, over the vertices in the list. -/
def updateLoop (graph subgraph : Graph) :
    List Nat → Table → Bool → Option (Table × Bool)
  | [], possibleAssignments, isUpdate => some (possibleAssignments, isUpdate)
  | subgraphVertex :: more, possibleAssignments, isUpdate =>
    match updateVertex graph subgraph subgraphVertex possibleAssignments isUpdate with
    | none => none
    | some (possibleAssignments1, isUpdate1) =>
      updateLoop graph subgraph more possibleAssignments1 isUpdate1

/-- The function `UpdatePossibleAssignments`: one pass over the vertices
`0 .. possibleAssignments.size() - 1`; returns the table after the pass and `isUpdate`. -/
def UpdatePossibleAssignments (graph subgraph : Graph) (possibleAssignments : Table) :
    Option (Table × Bool) :=
  updateLoop graph subgraph (List.range possibleAssignments.length) possibleAssignments false

/-- The loop of `DoAssignedEdgesExist` over the remaining pattern edges: `some false` at
the first committed edge without a host edge, `some true` when the edges are exhausted,
`none` when `boost::edge` is asked about a source that is not a host vertex. -/
def assignedEdgesLoop (graph : Graph) (assignments : List Nat) :
    List (Nat × Nat) → Option Bool
  | [] => some true
  | (source, target) :: more =>
    if source ≥ assignments.length ∨ target ≥ assignments.length then
      assignedEdgesLoop graph assignments more
    else
      match graph[assignments.getD source 0]? with
      | none => none
      | some out =>
        if out.contains (assignments.getD target 0) then
          assignedEdgesLoop graph assignments more
        else some false

/-- The function `DoAssignedEdgesExist`: `some b` when it returns `b`, `none` when
`boost::edge` is asked about a source that is not a host vertex. -/
def DoAssignedEdgesExist (graph subgraph : Graph) (assignments : List Nat) : Option Bool :=
  assignedEdgesLoop graph assignments (edges subgraph)

/-- What a run of the search produces: an out-of-range access, a bound of the model
exhausted, or a returned value. -/
inductive Outcome (α : Type) where
  | fault : Outcome α
  | outOfFuel : Outcome α
  | ret : α → Outcome α
  deriving DecidableEq, Repr

/-- The `while` loop of `FindSubgraphImpl` for `nextVertex`; `recurse` is the recursive call
of `FindSubgraphImpl`, which receives its own copy of the table.  The state is the
assignment (passed by reference in the source) and the frame's table.  The first argument
bounds the number of iterations.  `eraseFirst` is the tail of the loop body:
`possibleAssignmentsForVertex.erase(assignedVertex)` and the call of
`UpdatePossibleAssignments`.  The iterator `assignedVertex` is `begin()`; after a failed
branch the two assignments to the vector have reused its storage, so that the iterator
designates the first element of the restored domain. -/
def searchLoop (recurse : List Nat → Table → Outcome (Bool × List Nat))
    (graph subgraph : Graph) (nextVertex : Nat) :
    Nat → List Nat → Table → Outcome (Bool × List Nat)
  | fuel, assignments, possibleAssignments =>
    match possibleAssignments[nextVertex]? with
    | none => Outcome.fault
    | some [] => Outcome.ret (false, assignments)
    | some (assignedVertex :: rest) =>
      match fuel with
      | 0 => Outcome.outOfFuel
      | fuel + 1 =>
        let eraseFirst (assignments1 : List Nat) (possibleAssignments1 : Table) :
            Outcome (Bool × List Nat) :=
          match UpdatePossibleAssignments graph subgraph
              (possibleAssignments1.set nextVertex
                ((domain possibleAssignments1 nextVertex).eraseIdx 0)) with
          | none => Outcome.fault
          | some (possibleAssignments2, _) =>
            searchLoop recurse graph subgraph nextVertex fuel assignments1 possibleAssignments2
        if assignments.contains assignedVertex then eraseFirst assignments possibleAssignments
        else
          let oldPossibleAssignments := assignedVertex :: rest
          match recurse (assignments ++ [assignedVertex])
              (possibleAssignments.set nextVertex [assignedVertex]) with
          | Outcome.fault => Outcome.fault
          | Outcome.outOfFuel => Outcome.outOfFuel
          | Outcome.ret (true, assignments1) => Outcome.ret (true, assignments1)
          | Outcome.ret (false, assignments1) =>
            eraseFirst assignments1.dropLast
              ((possibleAssignments.set nextVertex [assignedVertex]).set nextVertex
                oldPossibleAssignments)

/-- The function `FindSubgraphImpl`; the first argument bounds the recursion depth.  The
result carries the returned Boolean and the assignment as the call leaves it.  The table is
passed by value: what the call does to it is not seen by the caller. -/
def FindSubgraphImpl (graph subgraph : Graph) :
    Nat → List Nat → Table → Outcome (Bool × List Nat)
  | 0, _, _ => Outcome.outOfFuel
  | depth + 1, assignments, possibleAssignments =>
    match DoAssignedEdgesExist graph subgraph assignments with
    | none => Outcome.fault
    | some false => Outcome.ret (false, assignments)
    | some true =>
      if assignments.length = subgraph.length then Outcome.ret (true, assignments)
      else
        match UpdatePossibleAssignments graph subgraph possibleAssignments with
        | none => Outcome.fault
        | some (possibleAssignments1, _) =>
          searchLoop (FindSubgraphImpl graph subgraph depth) graph subgraph
            assignments.length (domain possibleAssignments1 assignments.length).length
            assignments possibleAssignments1

/-- The width of `unsigned int`, the type of the literal `0u` that `std::iota` counts
with. -/
def UINT_BITS : Nat := 32

/-- The vector `allVerticesInGraph` after `std::iota(begin, end, 0u)`: the counter has type
`unsigned int` and wraps. -/
def allVerticesInGraph (numVertexGraph : Nat) : List Nat :=
  (List.range numVertexGraph).map (fun i => i % 2 ^ UINT_BITS)

/-- The function `FindSubgraph`: `ret (some m)` for a returned assignment, `ret none` for
`std::nullopt`. -/
def FindSubgraph (graph subgraph : Graph) : Outcome (Option (List Nat)) :=
  match FindSubgraphImpl graph subgraph (subgraph.length + 1) []
      (List.replicate subgraph.length (allVerticesInGraph graph.length)) with
  | Outcome.fault => Outcome.fault
  | Outcome.outOfFuel => Outcome.outOfFuel
  | Outcome.ret (true, assignments) => Outcome.ret (some assignments)
  | Outcome.ret (false, _) => Outcome.ret none

/-- A valid embedding of the pattern into the host: `f` sends pattern vertices to host
vertices, is injective on the pattern vertices, and sends every pattern edge to a host
edge. -/
def IsEmbedding (graph subgraph : Graph) (f : Nat → Nat) : Prop :=
  (∀ u < subgraph.length, f u < graph.length) ∧
  (∀ u < subgraph.length, ∀ v < subgraph.length, f u = f v → u = v) ∧
  (∀ u v, (u, v) ∈ edges subgraph → hasEdge graph (f u) (f v) = true)

/-- What a successful call of the search that was entered with the assignment `a` hands back:
the final assignment `m` extends `a`, has one entry per pattern vertex, passes the validator,
has pairwise distinct entries when `a` has, all its entries satisfy `P`, and the successors
of the pattern vertices committed by the call are pattern vertices. -/
def Good (graph subgraph : Graph) (P : Nat → Prop) (a m : List Nat) : Prop :=
  a <+: m ∧ m.length = subgraph.length ∧ DoAssignedEdgesExist graph subgraph m = some true ∧
    (a.Nodup → m.Nodup) ∧ (∀ c ∈ m, P c) ∧
    ∀ i, a.length ≤ i → i < subgraph.length → ∀ y ∈ subgraph.getD i [], y < subgraph.length

/-- A pattern vertex with a successor that is not a pattern vertex has an empty domain (the
state of the table after a pass of the propagator that returned). -/
def Pruned (subgraph : Graph) (pa : Table) : Prop :=
  ∀ x, (∃ y ∈ subgraph.getD x [], subgraph.length ≤ y) → domain pa x = []

/-- The embedding `f` is still within reach of a search state: it agrees with the committed
assignment `a` and the domain of every pattern vertex still holds its image. -/
def Extends (graph subgraph : Graph) (f : Nat → Nat) (a : List Nat) (pa : Table) : Prop :=
  IsEmbedding graph subgraph f ∧ (∀ i < a.length, a.getD i 0 = f i) ∧
    ∀ x < subgraph.length, f x ∈ domain pa x

/-- The table has one domain per pattern vertex and every candidate satisfies `P`. -/
def TableOK (subgraph : Graph) (P : Nat → Prop) (pa : Table) : Prop :=
  pa.length = subgraph.length ∧ ∀ y, ∀ c ∈ domain pa y, P c

/-- The contract of a call of the search entered with assignment `a` and table `pa`: the
bound is not exhausted, a fault needs an ill-formed pattern, a failure leaves the assignment
as it was and means that no embedding is within reach, a success hands back a good
assignment. -/
def CallOK (graph subgraph : Graph) (P : Nat → Prop) (a : List Nat) (pa : Table)
    (r : Outcome (Bool × List Nat)) : Prop :=
  match r with
  | Outcome.fault => ¬ Graph.WF subgraph
  | Outcome.outOfFuel => False
  | Outcome.ret (false, a') => a' = a ∧ ¬ ∃ f, Extends graph subgraph f a pa
  | Outcome.ret (true, m) => Good graph subgraph P a m

/-- Domain(y) as it stands when the candidate `c` of vertex `x` is examined during a pass
of the propagator from the table `before` to the table `after`, the domain of `x` in
`before` being `pre ++ c :: post`: the vertices below `x` have had their turn (their domain
is the final one), the vertices above `x` are untouched, and the domain of `x` itself holds
the candidates of `pre` that were kept, then `c` and the candidates after it. -/
def liveDomain (before after : Table) (x : Nat) (pre : List Nat) (c : Nat) (post : List Nat)
    (y : Nat) : List Nat :=
  if y < x then domain after y
  else if y = x then pre.filter (fun b => decide (b ∈ domain after x)) ++ c :: post
  else domain before y

/-- The host of the test `FindGraph1D`: the line `0 -> 1 -> 2 -> 3 -> 4 -> 5`. -/
def line6 : Graph := [[1], [2], [3], [4], [5], []]

/-- The pattern of the test `FindGraph1D`: the line `0 -> 1 -> 2 -> 3`. -/
def line4 : Graph := [[1], [2], [3], []]

/-- The line `0 -> 1 -> 2`. -/
def line3 : Graph := [[1], [2], []]

/-- The directed triangle `0 -> 1 -> 2 -> 0`. -/
def triangle : Graph := [[1], [2], [0]]

/-- The pattern with one vertex and a loop on it. -/
def loopPattern : Graph := [[0]]

/-- A host with `n + 1` vertices whose only edge is the loop on the last vertex `n`. -/
def loopAtLast (n : Nat) : Graph := List.replicate n [] ++ [[n]]

/-- The arguments of a call of `FindSubgraphImpl`: the assignment and the table. -/
abbrev Call := List Nat × Table

/-- The `while` loop of `FindSubgraphImpl` with a record of what it does: `searchLoop`
where the recursive call hands back, with its outcome, the calls of `FindSubgraphImpl` made
during it, and the loop hands back its outcome, the candidates it has committed
(`assignments.push_back`) in order, and the calls of `FindSubgraphImpl` made during it. -/
def searchLoopTraced (recurse : List Nat → Table → Outcome (Bool × List Nat) × List Call)
    (graph subgraph : Graph) (nextVertex : Nat) :
    Nat → List Nat → Table → Outcome (Bool × List Nat) × List Nat × List Call
  | fuel, assignments, possibleAssignments =>
    match possibleAssignments[nextVertex]? with
    | none => (Outcome.fault, [], [])
    | some [] => (Outcome.ret (false, assignments), [], [])
    | some (assignedVertex :: rest) =>
      match fuel with
      | 0 => (Outcome.outOfFuel, [], [])
      | fuel + 1 =>
        let eraseFirst (assignments1 : List Nat) (possibleAssignments1 : Table) :
            Outcome (Bool × List Nat) × List Nat × List Call :=
          match UpdatePossibleAssignments graph subgraph
              (possibleAssignments1.set nextVertex
                ((domain possibleAssignments1 nextVertex).eraseIdx 0)) with
          | none => (Outcome.fault, [], [])
          | some (possibleAssignments2, _) =>
            searchLoopTraced recurse graph subgraph nextVertex fuel assignments1
              possibleAssignments2
        if assignments.contains assignedVertex then eraseFirst assignments possibleAssignments
        else
          let oldPossibleAssignments := assignedVertex :: rest
          match recurse (assignments ++ [assignedVertex])
              (possibleAssignments.set nextVertex [assignedVertex]) with
          | (Outcome.fault, calls) => (Outcome.fault, [assignedVertex], calls)
          | (Outcome.outOfFuel, calls) => (Outcome.outOfFuel, [assignedVertex], calls)
          | (Outcome.ret (true, assignments1), calls) =>
            (Outcome.ret (true, assignments1), [assignedVertex], calls)
          | (Outcome.ret (false, assignments1), calls) =>
            let later := eraseFirst assignments1.dropLast
              ((possibleAssignments.set nextVertex [assignedVertex]).set nextVertex
                oldPossibleAssignments)
            (later.1, assignedVertex :: later.2.1, calls ++ later.2.2)

/-- The function `FindSubgraphImpl` with a record of the calls: it hands back its outcome
and the arguments of every call of `FindSubgraphImpl` made during the run, itself first. -/
def FindSubgraphImplTraced (graph subgraph : Graph) :
    Nat → List Nat → Table → Outcome (Bool × List Nat) × List Call
  | 0, assignments, possibleAssignments =>
    (Outcome.outOfFuel, [(assignments, possibleAssignments)])
  | depth + 1, assignments, possibleAssignments =>
    match DoAssignedEdgesExist graph subgraph assignments with
    | none => (Outcome.fault, [(assignments, possibleAssignments)])
    | some false => (Outcome.ret (false, assignments), [(assignments, possibleAssignments)])
    | some true =>
      if assignments.length = subgraph.length then
        (Outcome.ret (true, assignments), [(assignments, possibleAssignments)])
      else
        match UpdatePossibleAssignments graph subgraph possibleAssignments with
        | none => (Outcome.fault, [(assignments, possibleAssignments)])
        | some (possibleAssignments1, _) =>
          let loop := searchLoopTraced (FindSubgraphImplTraced graph subgraph depth) graph
            subgraph assignments.length (domain possibleAssignments1 assignments.length).length
            assignments possibleAssignments1
          (loop.1, (assignments, possibleAssignments) :: loop.2.2)

/-- The calls of `FindSubgraphImpl` made during a run of `FindSubgraph`, the initial call
first. -/
def FindSubgraphCalls (graph subgraph : Graph) : List Call :=
  (FindSubgraphImplTraced graph subgraph (subgraph.length + 1) []
    (List.replicate subgraph.length (allVerticesInGraph graph.length))).2

/-- The candidates that the propagator, re-run inside the `while` loop of `FindSubgraphImpl`
after the erasure of the first candidate, removes from domain(next): `searchLoop` handing
back, for every such run of `UpdatePossibleAssignments`, the members of domain(next) before
the run that are missing from domain(next) after it (the difference of the two lists,
counted with multiplicity), in order. -/
def searchLoopErased (recurse : List Nat → Table → Outcome (Bool × List Nat) × List Call)
    (graph subgraph : Graph) (nextVertex : Nat) : Nat → List Nat → Table → List Nat
  | fuel, assignments, possibleAssignments =>
    match possibleAssignments[nextVertex]? with
    | none => []
    | some [] => []
    | some (assignedVertex :: rest) =>
      match fuel with
      | 0 => []
      | fuel + 1 =>
        let eraseFirst (assignments1 : List Nat) (possibleAssignments1 : Table) : List Nat :=
          match UpdatePossibleAssignments graph subgraph
              (possibleAssignments1.set nextVertex
                ((domain possibleAssignments1 nextVertex).eraseIdx 0)) with
          | none => []
          | some (possibleAssignments2, _) =>
            ((domain possibleAssignments1 nextVertex).eraseIdx 0).diff
                (domain possibleAssignments2 nextVertex) ++
              searchLoopErased recurse graph subgraph nextVertex fuel assignments1
                possibleAssignments2
        if assignments.contains assignedVertex then eraseFirst assignments possibleAssignments
        else
          let oldPossibleAssignments := assignedVertex :: rest
          match recurse (assignments ++ [assignedVertex])
              (possibleAssignments.set nextVertex [assignedVertex]) with
          | (Outcome.fault, _) => []
          | (Outcome.outOfFuel, _) => []
          | (Outcome.ret (true, _), _) => []
          | (Outcome.ret (false, assignments1), _) =>
            eraseFirst assignments1.dropLast
              ((possibleAssignments.set nextVertex [assignedVertex]).set nextVertex
                oldPossibleAssignments)

/-- The sequence `m` is lexicographically less than or equal to the sequence
`(f 0, ..., f (m.length - 1))`: they agree everywhere, or `m` is smaller at the first index
where they differ. -/
def LexLe (m : List Nat) (f : Nat → Nat) : Prop :=
  (∀ i < m.length, m.getD i 0 = f i) ∨
    ∃ i < m.length, (∀ j < i, m.getD j 0 = f j) ∧ m.getD i 0 < f i

/-- Every domain of the table is in strictly ascending order. -/
def Ascending (pa : Table) : Prop := ∀ y, (domain pa y).Pairwise (· < ·)

/-- The pattern with two vertices and the single edge `0 -> 1`. -/
def edgePattern : Graph := [[1], []]

/-- A host with `n + 1` vertices (for `n` at least `1`) and the two edges `0 -> n` and
`1 -> 2`. -/
def edgeToLast (n : Nat) : Graph := [[n], [2]] ++ List.replicate (n - 1) []

/-! ## Graphs -/


theorem mem_edgesFrom (g : Graph) : ∀ (k u v : Nat),
    (u, v) ∈ edgesFrom k g ↔ ∃ i adj, u = k + i ∧ g[i]? = some adj ∧ v ∈ adj := by
  induction g with
  | nil => intro k u v; simp [edgesFrom]
  | cons a rest ih =>
    intro k u v
    simp only [edgesFrom, List.mem_append, List.mem_map, Prod.mk.injEq, ih]
    constructor
    · rintro (⟨w, hw, rfl, rfl⟩ | ⟨i, adj, rfl, hi, hv⟩)
      · exact ⟨0, a, by simp, by simp, hw⟩
      · exact ⟨i + 1, adj, by omega, by simpa using hi, hv⟩
    · rintro ⟨i, adj, rfl, hi, hv⟩
      cases i with
      | zero =>
        simp at hi; subst hi
        exact Or.inl ⟨v, hv, by simp, rfl⟩
      | succ j =>
        exact Or.inr ⟨j, adj, by omega, by simpa using hi, hv⟩

theorem mem_edges {g : Graph} {u v : Nat} :
    (u, v) ∈ edges g ↔ ∃ adj, g[u]? = some adj ∧ v ∈ adj := by
  unfold edges
  rw [mem_edgesFrom]
  constructor
  · rintro ⟨i, adj, rfl, hi, hv⟩; exact ⟨adj, by simpa using hi, hv⟩
  · rintro ⟨adj, hi, hv⟩; exact ⟨u, adj, by simp, hi, hv⟩

theorem hasEdge_iff {g : Graph} {u v : Nat} :
    hasEdge g u v = true ↔ ∃ adj, g[u]? = some adj ∧ v ∈ adj := by
  unfold hasEdge
  cases h : g[u]? with
  | none => simp [List.getD_eq_getElem?_getD, h]
  | some adj => simp [List.getD_eq_getElem?_getD, h]

theorem hasEdge_iff_mem_edges {g : Graph} {u v : Nat} :
    hasEdge g u v = true ↔ (u, v) ∈ edges g := by
  rw [hasEdge_iff, mem_edges]

theorem WF_iff {g : Graph} :
    Graph.WF g ↔ ∀ u v, (u, v) ∈ edges g → u < g.length ∧ v < g.length := by
  unfold Graph.WF
  constructor
  · intro h u v huv
    obtain ⟨adj, hu, hv⟩ := mem_edges.1 huv
    have hlt : u < g.length := by
      by_contra hc
      rw [List.getElem?_eq_none (by omega)] at hu
      cases hu
    exact ⟨hlt, h adj (List.getElem?_mem hu) v hv⟩
  · intro h adj hadj v hv
    obtain ⟨u, hu, rfl⟩ := List.getElem_of_mem hadj
    exact (h u v (mem_edges.2 ⟨g[u], by simp [hu], hv⟩)).2


theorem removeAssignment_cons (pa : Table) (gn : List Nat) (y : Nat) (ys : List Nat) :
    removeAssignment pa gn (y :: ys) =
      match pa[y]? with
      | none => none
      | some d =>
        if d.any (fun a => gn.contains a) then removeAssignment pa gn ys else some true := by
  rw [removeAssignment]

theorem any_contains_iff (d gn : List Nat) :
    d.any (fun a => gn.contains a) = true ↔ ∃ a ∈ d, a ∈ gn := by
  simp

theorem removeAssignment_eq_false_iff (pa : Table) (gn : List Nat) : ∀ succs : List Nat,
    removeAssignment pa gn succs = some false ↔
      ∀ y ∈ succs, ∃ d, pa[y]? = some d ∧ ∃ a ∈ d, a ∈ gn := by
  intro succs
  induction succs with
  | nil => simp [removeAssignment]
  | cons y ys ih =>
    rw [removeAssignment_cons]
    rcases hy : pa[y]? with _ | d
    · simp [hy]
    · by_cases hany : d.any (fun a => gn.contains a) = true
      · have hex : ∃ a ∈ d, a ∈ gn := (any_contains_iff d gn).1 hany
        simp only [hany, if_true, ih]
        constructor
        · intro h z hz
          rcases List.mem_cons.1 hz with rfl | hz
          · exact ⟨d, hy, hex⟩
          · exact h z hz
        · intro h z hz
          exact h z (List.mem_cons_of_mem _ hz)
      · have hex : ¬ ∃ a ∈ d, a ∈ gn := fun h => hany ((any_contains_iff d gn).2 h)
        simp only [hany]
        constructor
        · intro h; simp at h
        · intro h
          obtain ⟨d', hd', hex'⟩ := h y (List.mem_cons_self _ _)
          rw [hy] at hd'
          cases hd'
          exact absurd hex' hex

theorem removeAssignment_eq_true (pa : Table) (gn : List Nat) : ∀ succs : List Nat,
    removeAssignment pa gn succs = some true →
      ∃ y ∈ succs, ∃ d, pa[y]? = some d ∧ ∀ a ∈ d, a ∉ gn := by
  intro succs
  induction succs with
  | nil => simp [removeAssignment]
  | cons y ys ih =>
    rw [removeAssignment_cons]
    rcases hy : pa[y]? with _ | d
    · simp
    · by_cases hany : d.any (fun a => gn.contains a) = true
      · simp only [hany, if_true]
        intro h
        obtain ⟨z, hz, hd⟩ := ih h
        exact ⟨z, List.mem_cons_of_mem _ hz, hd⟩
      · simp only [hany]
        intro _
        refine ⟨y, List.mem_cons_self _ _, d, hy, ?_⟩
        intro a ha hgn
        exact hany ((any_contains_iff d gn).2 ⟨a, ha, hgn⟩)

theorem removeAssignment_isSome (pa : Table) (gn : List Nat) : ∀ succs : List Nat,
    (∀ y ∈ succs, y < pa.length) → ∃ b, removeAssignment pa gn succs = some b := by
  intro succs
  induction succs with
  | nil => intro _; exact ⟨false, rfl⟩
  | cons y ys ih =>
    intro h
    rw [removeAssignment_cons]
    have hy : y < pa.length := h y (List.mem_cons_self _ _)
    rw [List.getElem?_eq_getElem hy]
    by_cases hany : (pa[y]).any (fun a => gn.contains a) = true
    · simp only [hany, if_true]
      exact ih (fun z hz => h z (List.mem_cons_of_mem _ hz))
    · simp only [hany]
      exact ⟨true, by simp⟩


theorem mem_domain_iff {pa : Table} {x a : Nat} :
    a ∈ domain pa x ↔ ∃ d, pa[x]? = some d ∧ a ∈ d := by
  unfold domain
  rcases h : pa[x]? with _ | d <;> simp [List.getD_eq_getElem?_getD, h]

theorem domain_of_getElem? {pa : Table} {x : Nat} {d : List Nat} (h : pa[x]? = some d) :
    domain pa x = d := by
  simp [domain, List.getD_eq_getElem?_getD, h]

theorem lt_length_of_getElem? {α : Type} {l : List α} {i : Nat} {a : α} (h : l[i]? = some a) :
    i < l.length := by
  obtain ⟨hlt, _⟩ := List.getElem?_eq_some.1 h
  exact hlt

theorem set_eq_self {α : Type} {l : List α} {i : Nat} {a : α} (h : l[i]? = some a) :
    l.set i a = l := by
  apply List.ext_getElem?
  intro j
  by_cases hij : i = j
  · subst hij
    rw [List.getElem?_set_self (lt_length_of_getElem? h), h]
  · rw [List.getElem?_set_ne hij]

theorem domain_set_self {pa : Table} {x : Nat} {d : List Nat} (hx : x < pa.length) :
    domain (pa.set x d) x = d :=
  domain_of_getElem? (List.getElem?_set_self hx)

theorem domain_set_ne {pa : Table} {x y : Nat} {d : List Nat} (hxy : x ≠ y) :
    domain (pa.set x d) y = domain pa y := by
  simp [domain, List.getD_eq_getElem?_getD, List.getElem?_set_ne hxy]

theorem pruneDomain_cons (g : Graph) (x : Nat) (succs kept : List Nat) (c : Nat)
    (rest : List Nat) (pa : Table) (upd : Bool) :
    pruneDomain g x succs kept (c :: rest) pa upd =
      match g[c]? with
      | none => none
      | some gn =>
        match removeAssignment pa gn succs with
        | none => none
        | some true => pruneDomain g x succs kept rest (pa.set x (kept ++ rest)) true
        | some false => pruneDomain g x succs (kept ++ [c]) rest pa upd := by
  rw [pruneDomain]

/-- The shape of the result of the candidate loop: only the domain of the vertex in hand
changes, to `kept` followed by a sublist of the candidates still to examine, and `isUpdate`
is raised exactly when a candidate was erased. -/
theorem pruneDomain_shape (g : Graph) (x : Nat) (succs : List Nat) :
    ∀ (rest kept : List Nat) (pa : Table) (upd : Bool) (pa' : Table) (upd' : Bool),
      pa[x]? = some (kept ++ rest) →
      pruneDomain g x succs kept rest pa upd = some (pa', upd') →
      ∃ rest', rest'.Sublist rest ∧ pa' = pa.set x (kept ++ rest') ∧
        upd' = (upd || decide (rest' ≠ rest)) := by
  intro rest
  induction rest with
  | nil =>
    intro kept pa upd pa' upd' hinv h
    rw [pruneDomain] at h
    simp only [Option.some.injEq, Prod.mk.injEq] at h
    obtain ⟨rfl, rfl⟩ := h
    exact ⟨[], List.Sublist.refl _, (set_eq_self hinv).symm, by simp⟩
  | cons c rest ih =>
    intro kept pa upd pa' upd' hinv h
    rw [pruneDomain_cons] at h
    have hx : x < pa.length := lt_length_of_getElem? hinv
    rcases hg : g[c]? with _ | gn
    · simp [hg] at h
    · simp only [hg] at h
      rcases hr : removeAssignment pa gn succs with _ | b
      · simp [hr] at h
      · cases b with
        | true =>
          simp only [hr] at h
          obtain ⟨rest', hsub, hpa, hu⟩ :=
            ih kept (pa.set x (kept ++ rest)) true pa' upd' (List.getElem?_set_self hx) h
          refine ⟨rest', hsub.trans (List.sublist_cons_self _ _), ?_, ?_⟩
          · rw [hpa, List.set_set]
          · have hne : rest' ≠ c :: rest := by
              intro he
              have := hsub.length_le
              rw [he] at this
              simp at this
            rw [Bool.true_or] at hu
            simp [hu, hne]
        | false =>
          simp only [hr] at h
          have hinv' : pa[x]? = some ((kept ++ [c]) ++ rest) := by simpa using hinv
          obtain ⟨rest', hsub, hpa, hupd⟩ := ih (kept ++ [c]) pa upd pa' upd' hinv' h
          refine ⟨c :: rest', hsub.cons₂ c, ?_, ?_⟩
          · rw [hpa]; simp
          · rw [hupd]; simp

theorem pruneDomain_isSome (g : Graph) (x : Nat) (succs : List Nat) :
    ∀ (rest kept : List Nat) (pa : Table) (upd : Bool),
      (∀ c ∈ rest, c < g.length) → (∀ y ∈ succs, y < pa.length) →
      ∃ r, pruneDomain g x succs kept rest pa upd = some r := by
  intro rest
  induction rest with
  | nil => intro kept pa upd _ _; exact ⟨_, by rw [pruneDomain]⟩
  | cons c rest ih =>
    intro kept pa upd hc hy
    rw [pruneDomain_cons]
    have hcl : c < g.length := hc c (List.mem_cons_self _ _)
    have hrest : ∀ c' ∈ rest, c' < g.length := fun c' h' => hc c' (List.mem_cons_of_mem _ h')
    rw [List.getElem?_eq_getElem hcl]
    obtain ⟨b, hb⟩ := removeAssignment_isSome pa g[c] succs hy
    simp only [hb]
    cases b with
    | true => exact ih kept _ true hrest (by simpa using hy)
    | false => exact ih _ pa upd hrest hy


theorem pruneDomain_conservative (g : Graph) (x : Nat) (succs : List Nat) (f : Nat → Nat)
    (hedge : ∀ y ∈ succs, hasEdge g (f x) (f y) = true) :
    ∀ (rest kept : List Nat) (pa : Table) (upd : Bool) (pa' : Table) (upd' : Bool),
      pa[x]? = some (kept ++ rest) →
      (∀ y < pa.length, f y ∈ domain pa y) →
      pruneDomain g x succs kept rest pa upd = some (pa', upd') →
      ∀ y < pa.length, f y ∈ domain pa' y := by
  intro rest
  induction rest with
  | nil =>
    intro kept pa upd pa' upd' _ hG h
    rw [pruneDomain] at h
    simp only [Option.some.injEq, Prod.mk.injEq] at h
    obtain ⟨rfl, _⟩ := h
    exact hG
  | cons c rest ih =>
    intro kept pa upd pa' upd' hinv hG h
    rw [pruneDomain_cons] at h
    have hx : x < pa.length := lt_length_of_getElem? hinv
    rcases hg : g[c]? with _ | gn
    · simp [hg] at h
    · simp only [hg] at h
      rcases hr : removeAssignment pa gn succs with _ | b
      · simp [hr] at h
      · cases b with
        | true =>
          simp only [hr] at h
          have hne : f x ≠ c := by
            intro he
            obtain ⟨y, hy, d, hd, hnone⟩ := removeAssignment_eq_true pa gn succs hr
            have hfy : f y ∈ d := by
              have := hG y (lt_length_of_getElem? hd)
              rwa [domain_of_getElem? hd] at this
            obtain ⟨adj, hadj, hmem⟩ := hasEdge_iff.1 (hedge y hy)
            rw [he, hg] at hadj
            cases hadj
            exact hnone _ hfy hmem
          have hG2 : ∀ y < (pa.set x (kept ++ rest)).length,
              f y ∈ domain (pa.set x (kept ++ rest)) y := by
            intro y hy
            rw [List.length_set] at hy
            by_cases hxy : x = y
            · subst hxy
              rw [domain_set_self hx]
              have := hG x hx
              rw [domain_of_getElem? hinv] at this
              simp only [List.mem_append, List.mem_cons] at this ⊢
              rcases this with h1 | h1 | h1
              · exact Or.inl h1
              · exact absurd h1 hne
              · exact Or.inr h1
            · rw [domain_set_ne hxy]; exact hG y hy
          have := ih kept (pa.set x (kept ++ rest)) true pa' upd'
            (List.getElem?_set_self hx) hG2 h
          simpa using this
        | false =>
          simp only [hr] at h
          exact ih (kept ++ [c]) pa upd pa' upd' (by simpa using hinv) hG h

theorem pruneDomain_mem_iff (g : Graph) (x : Nat) (succs : List Nat) :
    ∀ (rest kept : List Nat) (pa : Table) (upd : Bool) (pa' : Table) (upd' : Bool)
      (pre : List Nat) (c : Nat) (post : List Nat),
      pa[x]? = some (kept ++ rest) → (kept ++ rest).Nodup →
      pruneDomain g x succs kept rest pa upd = some (pa', upd') →
      rest = pre ++ c :: post →
      (c ∈ domain pa' x ↔
        ∀ y ∈ succs, ∃ a ∈ (if y = x then
            (kept ++ pre).filter (fun b => decide (b ∈ domain pa' x)) ++ c :: post
          else domain pa y), hasEdge g c a = true) := by
  intro rest
  induction rest with
  | nil =>
    intro kept pa upd pa' upd' pre c post _ _ _ hsplit
    simp at hsplit
  | cons c0 rest ih =>
    intro kept pa upd pa' upd' pre c post hinv hnd h hsplit
    have hx : x < pa.length := lt_length_of_getElem? hinv
    have h0 := h
    rw [pruneDomain_cons] at h
    rcases hg : g[c0]? with _ | gn
    · simp [hg] at h
    · simp only [hg] at h
      rcases hr : removeAssignment pa gn succs with _ | b
      · simp [hr] at h
      · cases pre with
        | nil =>
          simp only [List.nil_append, List.cons.injEq] at hsplit
          obtain ⟨rfl, rfl⟩ := hsplit
          obtain ⟨rest', hsub, hpa, _⟩ := pruneDomain_shape g x succs _ _ _ _ _ _ hinv h0
          have hout : domain pa' x = kept ++ rest' := by rw [hpa, domain_set_self hx]
          have hfilter : (kept ++ []).filter (fun b => decide (b ∈ domain pa' x)) = kept := by
            rw [List.append_nil, List.filter_eq_self]
            intro a ha
            simp [hout, ha]
          have hlive : ∀ y, (if y = x then
              (kept ++ []).filter (fun b => decide (b ∈ domain pa' x)) ++ c0 :: rest
              else domain pa y) = domain pa y := by
            intro y
            by_cases hyx : y = x
            · subst hyx; rw [if_pos rfl, hfilter, domain_of_getElem? hinv]
            · rw [if_neg hyx]
          have hrhs : (∀ y ∈ succs, ∃ a ∈ (if y = x then
              (kept ++ []).filter (fun b => decide (b ∈ domain pa' x)) ++ c0 :: rest
              else domain pa y), hasEdge g c0 a = true) ↔
              removeAssignment pa gn succs = some false := by
            rw [removeAssignment_eq_false_iff]
            constructor
            · intro hall y hy
              obtain ⟨a, ha, he⟩ := hall y hy
              rw [hlive] at ha
              obtain ⟨d, hd, had⟩ := mem_domain_iff.1 ha
              obtain ⟨adj, hadj, hmem⟩ := hasEdge_iff.1 he
              rw [hg] at hadj; cases hadj
              exact ⟨d, hd, a, had, hmem⟩
            · intro hall y hy
              obtain ⟨d, hd, a, had, hmem⟩ := hall y hy
              refine ⟨a, ?_, hasEdge_iff.2 ⟨gn, hg, hmem⟩⟩
              rw [hlive]
              exact mem_domain_iff.2 ⟨d, hd, had⟩
          rw [hrhs, hr]
          cases b with
          | true =>
            simp only [hr] at h
            obtain ⟨r2, hsub2, hpa2, _⟩ := pruneDomain_shape g x succs _ _ _ _ _ _
              (List.getElem?_set_self hx) h
            have hout2 : domain pa' x = kept ++ r2 := by
              rw [hpa2, List.set_set, domain_set_self hx]
            have hc0 : c0 ∉ kept ++ r2 := by
              intro hmem
              have hnd' := hnd
              rw [List.nodup_append] at hnd'
              obtain ⟨_, hndr, hdisj⟩ := hnd'
              rcases List.mem_append.1 hmem with hk | hk
              · exact hdisj hk (List.mem_cons_self _ _)
              · exact (List.nodup_cons.1 hndr).1 (hsub2.subset hk)
            rw [hout2]
            simp [hc0]
          | false =>
            simp only [hr] at h
            obtain ⟨r2, hsub2, hpa2, _⟩ := pruneDomain_shape g x succs _ _ _ _ _ _
              (by simpa using hinv : pa[x]? = some ((kept ++ [c0]) ++ rest)) h
            have hout2 : domain pa' x = (kept ++ [c0]) ++ r2 := by
              rw [hpa2, domain_set_self hx]
            rw [hout2]
            simp
        | cons p pre0 =>
          simp only [List.cons_append, List.cons.injEq] at hsplit
          obtain ⟨rfl, hsplit⟩ := hsplit
          cases b with
          | true =>
            simp only [hr] at h
            have hnd2 : (kept ++ rest).Nodup := by
              have : (kept ++ rest).Sublist (kept ++ c0 :: rest) :=
                List.Sublist.append_left (List.sublist_cons_self _ _) _
              exact hnd.sublist this
            obtain ⟨r2, hsub2, hpa2, _⟩ := pruneDomain_shape g x succs _ _ _ _ _ _
              (List.getElem?_set_self hx) h
            have hout2 : domain pa' x = kept ++ r2 := by
              rw [hpa2, List.set_set, domain_set_self hx]
            have hp : c0 ∉ domain pa' x := by
              rw [hout2]
              intro hmem
              have hnd' := hnd
              rw [List.nodup_append] at hnd'
              obtain ⟨_, hndr, hdisj⟩ := hnd'
              rcases List.mem_append.1 hmem with hk | hk
              · exact hdisj hk (List.mem_cons_self _ _)
              · exact (List.nodup_cons.1 hndr).1 (hsub2.subset hk)
            have hf : (kept ++ c0 :: pre0).filter (fun b => decide (b ∈ domain pa' x)) =
                (kept ++ pre0).filter (fun b => decide (b ∈ domain pa' x)) := by
              simp [List.filter_append, List.filter_cons, hp]
            rw [ih kept (pa.set x (kept ++ rest)) true pa' upd' pre0 c post
              (List.getElem?_set_self hx) hnd2 h hsplit, hf]
            constructor
            · intro hall y hy
              obtain ⟨a, ha, he⟩ := hall y hy
              refine ⟨a, ?_, he⟩
              by_cases hyx : y = x
              · simpa [hyx] using ha
              · rw [if_neg hyx] at ha ⊢
                rwa [domain_set_ne (fun hh => hyx hh.symm)] at ha
            · intro hall y hy
              obtain ⟨a, ha, he⟩ := hall y hy
              refine ⟨a, ?_, he⟩
              by_cases hyx : y = x
              · simpa [hyx] using ha
              · rw [if_neg hyx] at ha ⊢
                rwa [domain_set_ne (fun hh => hyx hh.symm)]
          | false =>
            simp only [hr] at h
            have hnd2 : ((kept ++ [c0]) ++ rest).Nodup := by simpa using hnd
            have := ih (kept ++ [c0]) pa upd pa' upd' pre0 c post
              (by simpa using hinv) hnd2 h hsplit
            simpa using this


theorem set_domain_self (pa : Table) (x : Nat) : pa.set x (domain pa x) = pa := by
  by_cases hx : x < pa.length
  · exact set_eq_self (by rw [List.getElem?_eq_getElem hx]; simp [domain, hx])
  · exact List.set_eq_of_length_le (by omega)

theorem updateVertex_shape {g sg : Graph} {x : Nat} {pa : Table} {upd : Bool} {pa' : Table}
    {upd' : Bool} (h : updateVertex g sg x pa upd = some (pa', upd')) :
    ∃ d', d'.Sublist (domain pa x) ∧ pa' = pa.set x d' ∧
      upd' = (upd || decide (d' ≠ domain pa x)) ∧ (sg[x]? = some [] → d' = domain pa x) := by
  unfold updateVertex at h
  rcases hs : sg[x]? with _ | succs
  · simp [hs] at h
  · cases succs with
    | nil =>
      simp only [hs, Option.some.injEq, Prod.mk.injEq] at h
      obtain ⟨rfl, rfl⟩ := h
      exact ⟨domain pa x, List.Sublist.refl _, (set_domain_self pa x).symm, by simp,
        fun _ => rfl⟩
    | cons n ns =>
      simp only [hs] at h
      rcases hd : pa[x]? with _ | d
      · simp [hd] at h
      · simp only [hd] at h
        obtain ⟨rest', hsub, hpa, hupd⟩ := pruneDomain_shape g x (n :: ns) d [] pa upd pa' upd'
          (by simpa using hd) h
        refine ⟨rest', ?_, by simpa using hpa, ?_, ?_⟩
        · rwa [domain_of_getElem? hd]
        · rwa [domain_of_getElem? hd]
        · intro hh; cases hh

theorem updateVertex_conservative {g sg : Graph} {x : Nat} {pa : Table} {upd : Bool}
    {pa' : Table} {upd' : Bool} (f : Nat → Nat)
    (hedge : ∀ u v, (u, v) ∈ edges sg → hasEdge g (f u) (f v) = true)
    (hG : ∀ y < pa.length, f y ∈ domain pa y)
    (h : updateVertex g sg x pa upd = some (pa', upd')) :
    ∀ y < pa.length, f y ∈ domain pa' y := by
  unfold updateVertex at h
  rcases hs : sg[x]? with _ | succs
  · simp [hs] at h
  · cases succs with
    | nil =>
      simp only [hs, Option.some.injEq, Prod.mk.injEq] at h
      obtain ⟨rfl, rfl⟩ := h
      exact hG
    | cons n ns =>
      simp only [hs] at h
      rcases hd : pa[x]? with _ | d
      · simp [hd] at h
      · simp only [hd] at h
        exact pruneDomain_conservative g x (n :: ns) f
          (fun y hy => hedge x y (mem_edges.2 ⟨_, hs, hy⟩)) d [] pa upd pa' upd'
          (by simpa using hd) hG h

theorem updateVertex_isSome {g sg : Graph} {x : Nat} {pa : Table} (upd : Bool)
    (hxs : x < sg.length) (hxp : x < pa.length)
    (hsucc : ∀ y ∈ sg.getD x [], y < pa.length)
    (hdom : ∀ c ∈ domain pa x, c < g.length) :
    ∃ r, updateVertex g sg x pa upd = some r := by
  unfold updateVertex
  have hs : sg[x]? = some sg[x] := List.getElem?_eq_getElem hxs
  have hd : pa[x]? = some pa[x] := List.getElem?_eq_getElem hxp
  rw [hs]
  rcases hsx : sg[x] with _ | ⟨n, ns⟩
  · exact ⟨_, rfl⟩
  · simp only [hd]
    apply pruneDomain_isSome
    · rw [domain_of_getElem? hd] at hdom; exact hdom
    · intro y hy
      apply hsucc
      simp [List.getD_eq_getElem?_getD, hs, hsx]
      simpa using hy

theorem updateVertex_mem_iff {g sg : Graph} {x : Nat} {pa : Table} {upd : Bool}
    {pa' : Table} {upd' : Bool} {succs pre post : List Nat} {c : Nat}
    (h : updateVertex g sg x pa upd = some (pa', upd'))
    (hs : sg[x]? = some succs) (hne : succs ≠ [])
    (hnd : (domain pa x).Nodup) (hsplit : domain pa x = pre ++ c :: post) :
    (c ∈ domain pa' x ↔
      ∀ y ∈ succs, ∃ a ∈ (if y = x then
          pre.filter (fun b => decide (b ∈ domain pa' x)) ++ c :: post
        else domain pa y), hasEdge g c a = true) := by
  unfold updateVertex at h
  cases succs with
  | nil => exact absurd rfl hne
  | cons n ns =>
    simp only [hs] at h
    rcases hd : pa[x]? with _ | d
    · simp [hd] at h
    · simp only [hd] at h
      rw [domain_of_getElem? hd] at hnd hsplit
      have := pruneDomain_mem_iff g x (n :: ns) d [] pa upd pa' upd' pre c post
        (by simpa using hd) (by simpa using hnd) h hsplit
      simpa using this


theorem updateLoop_cons (g sg : Graph) (x : Nat) (more : List Nat) (pa : Table) (upd : Bool) :
    updateLoop g sg (x :: more) pa upd =
      match updateVertex g sg x pa upd with
      | none => none
      | some (pa1, upd1) => updateLoop g sg more pa1 upd1 := by
  rw [updateLoop]

theorem domain_set (pa : Table) (x y : Nat) (d : List Nat) :
    domain (pa.set x d) y = if x = y ∧ x < pa.length then d else domain pa y := by
  by_cases hxy : x = y
  · subst hxy
    by_cases hx : x < pa.length
    · simp [hx, domain_set_self hx]
    · simp [hx, List.set_eq_of_length_le (Nat.le_of_not_lt hx)]
  · simp [hxy, domain_set_ne hxy]

/-- The loop over the vertices only shrinks domains, keeps the number of domains, and leaves
alone the domain of every vertex that is not in the list. -/
theorem updateLoop_shape (g sg : Graph) : ∀ (xs : List Nat) (pa : Table) (upd : Bool)
    (pa' : Table) (upd' : Bool), updateLoop g sg xs pa upd = some (pa', upd') →
      pa'.length = pa.length ∧ (∀ y, (domain pa' y).Sublist (domain pa y)) ∧
      (∀ y, y ∉ xs → domain pa' y = domain pa y) ∧
      (∀ y, sg[y]? = some [] → domain pa' y = domain pa y) := by
  intro xs
  induction xs with
  | nil =>
    intro pa upd pa' upd' h
    rw [updateLoop] at h
    simp only [Option.some.injEq, Prod.mk.injEq] at h
    obtain ⟨rfl, _⟩ := h
    exact ⟨rfl, fun _ => List.Sublist.refl _, fun _ _ => rfl, fun _ _ => rfl⟩
  | cons x more ih =>
    intro pa upd pa' upd' h
    rw [updateLoop_cons] at h
    rcases hv : updateVertex g sg x pa upd with _ | ⟨pa1, upd1⟩
    · simp [hv] at h
    · simp only [hv] at h
      obtain ⟨d', hsub, hpa1, _, hnil⟩ := updateVertex_shape hv
      obtain ⟨hlen, hsh, hout, hleaf⟩ := ih pa1 upd1 pa' upd' h
      have hstep : ∀ y, (domain pa1 y).Sublist (domain pa y) := by
        intro y
        rw [hpa1, domain_set]
        split
        · next hc => rw [← hc.1]; exact hsub
        · exact List.Sublist.refl _
      refine ⟨by rw [hlen, hpa1, List.length_set], fun y => (hsh y).trans (hstep y), ?_, ?_⟩
      · intro y hy
        rw [hout y (fun hm => hy (List.mem_cons_of_mem _ hm)), hpa1,
          domain_set_ne (fun hxy : x = y => hy (by rw [← hxy]; exact List.mem_cons_self _ _))]
      · intro y hy
        rw [hleaf y hy, hpa1, domain_set]
        split
        · next hc =>
          obtain ⟨rfl, _⟩ := hc
          exact hnil hy
        · rfl

theorem updateLoop_conservative (g sg : Graph) (f : Nat → Nat)
    (hedge : ∀ u v, (u, v) ∈ edges sg → hasEdge g (f u) (f v) = true) :
    ∀ (xs : List Nat) (pa : Table) (upd : Bool) (pa' : Table) (upd' : Bool),
      (∀ y < pa.length, f y ∈ domain pa y) →
      updateLoop g sg xs pa upd = some (pa', upd') →
      ∀ y < pa.length, f y ∈ domain pa' y := by
  intro xs
  induction xs with
  | nil =>
    intro pa upd pa' upd' hG h
    rw [updateLoop] at h
    simp only [Option.some.injEq, Prod.mk.injEq] at h
    obtain ⟨rfl, _⟩ := h
    exact hG
  | cons x more ih =>
    intro pa upd pa' upd' hG h
    rw [updateLoop_cons] at h
    rcases hv : updateVertex g sg x pa upd with _ | ⟨pa1, upd1⟩
    · simp [hv] at h
    · simp only [hv] at h
      have hG1 := updateVertex_conservative f hedge hG hv
      obtain ⟨d', _, hpa1, _⟩ := updateVertex_shape hv
      have hlen : pa1.length = pa.length := by rw [hpa1, List.length_set]
      have := ih pa1 upd1 pa' upd' (by rw [hlen]; exact hG1) h
      rw [hlen] at this
      exact this

theorem updateLoop_isSome (g sg : Graph) (hwf : Graph.WF sg) :
    ∀ (xs : List Nat) (pa : Table) (upd : Bool),
      pa.length = sg.length → (∀ x ∈ xs, x < sg.length) →
      (∀ y, ∀ c ∈ domain pa y, c < g.length) →
      ∃ r, updateLoop g sg xs pa upd = some r := by
  intro xs
  induction xs with
  | nil => intro pa upd _ _ _; exact ⟨_, by rw [updateLoop]⟩
  | cons x more ih =>
    intro pa upd hlen hxs hdom
    rw [updateLoop_cons]
    have hx : x < sg.length := hxs x (List.mem_cons_self _ _)
    have hsucc : ∀ y ∈ sg.getD x [], y < pa.length := by
      intro y hy
      rw [hlen]
      have hmem : sg.getD x [] ∈ sg := by
        simp [List.getD_eq_getElem?_getD, List.getElem?_eq_getElem hx]
      exact hwf _ hmem y hy
    obtain ⟨⟨pa1, upd1⟩, hv⟩ := updateVertex_isSome upd hx (by omega) hsucc (hdom x)
    simp only [hv]
    obtain ⟨d', hsub, hpa1, _⟩ := updateVertex_shape hv
    apply ih pa1 upd1 (by rw [hpa1, List.length_set, hlen])
      (fun z hz => hxs z (List.mem_cons_of_mem _ hz))
    intro y c hc
    rw [hpa1, domain_set] at hc
    split at hc
    · exact hdom x c (hsub.subset hc)
    · exact hdom y c hc

theorem updateLoop_mem_iff (g sg : Graph) : ∀ (xs : List Nat) (pa : Table) (upd : Bool)
    (pa' : Table) (upd' : Bool) (x : Nat) (succs pre post : List Nat) (c : Nat),
      xs.Pairwise (· < ·) → x ∈ xs →
      updateLoop g sg xs pa upd = some (pa', upd') →
      sg[x]? = some succs → succs ≠ [] →
      (domain pa x).Nodup → domain pa x = pre ++ c :: post →
      (c ∈ domain pa' x ↔
        ∀ y ∈ succs, ∃ a ∈ (if y < x then domain pa' y
          else if y = x then pre.filter (fun b => decide (b ∈ domain pa' x)) ++ c :: post
          else domain pa y), hasEdge g c a = true) := by
  intro xs
  induction xs with
  | nil => intro pa upd pa' upd' x succs pre post c _ hx; simp at hx
  | cons x0 more ih =>
    intro pa upd pa' upd' x succs pre post c hpw hx h hs hne hnd hsplit
    rw [updateLoop_cons] at h
    rcases hv : updateVertex g sg x0 pa upd with _ | ⟨pa1, upd1⟩
    · simp [hv] at h
    · simp only [hv] at h
      obtain ⟨hlt, hpw'⟩ := List.pairwise_cons.1 hpw
      obtain ⟨d', _, hpa1, _⟩ := updateVertex_shape hv
      obtain ⟨_, _, hout, _⟩ := updateLoop_shape g sg more pa1 upd1 pa' upd' h
      rcases List.mem_cons.1 hx with rfl | hxm
      · -- the vertex in hand is processed now
        have hxm : x ∉ more := fun hm => Nat.lt_irrefl _ (hlt x hm)
        have hfin : domain pa' x = domain pa1 x := hout x hxm
        rw [hfin, updateVertex_mem_iff hv hs hne hnd hsplit]
        have hlive : ∀ y, (if y < x then domain pa' y
            else if y = x then pre.filter (fun b => decide (b ∈ domain pa1 x)) ++ c :: post
            else domain pa y) =
            (if y = x then pre.filter (fun b => decide (b ∈ domain pa1 x)) ++ c :: post
            else domain pa y) := by
          intro y
          by_cases hyx : y < x
          · have hym : y ∉ more := fun hm => Nat.lt_asymm hyx (hlt y hm)
            rw [if_pos hyx, if_neg (Nat.ne_of_lt hyx), hout y hym, hpa1,
              domain_set_ne (Nat.ne_of_gt hyx)]
          · rw [if_neg hyx]
        simp only [hlive]
      · have hx0 : x0 < x := hlt x hxm
        have hdx : domain pa1 x = domain pa x := by
          rw [hpa1, domain_set_ne (Nat.ne_of_lt hx0)]
        rw [ih pa1 upd1 pa' upd' x succs pre post c hpw' hxm h hs hne (by rwa [hdx])
          (by rwa [hdx])]
        have hlive : ∀ y, (if y < x then domain pa' y
            else if y = x then pre.filter (fun b => decide (b ∈ domain pa' x)) ++ c :: post
            else domain pa1 y) =
            (if y < x then domain pa' y
            else if y = x then pre.filter (fun b => decide (b ∈ domain pa' x)) ++ c :: post
            else domain pa y) := by
          intro y
          by_cases hyx : y < x
          · rw [if_pos hyx, if_pos hyx]
          · rw [if_neg hyx, if_neg hyx]
            by_cases hyx2 : y = x
            · rw [if_pos hyx2, if_pos hyx2]
            · rw [if_neg hyx2, if_neg hyx2, hpa1, domain_set_ne (by omega)]
        simp only [hlive]


theorem range_pairwise_lt (n : Nat) : (List.range n).Pairwise (· < ·) := by
  simpa using List.pairwise_lt_range n

theorem Update_shape {g sg : Graph} {pa pa' : Table} {b : Bool}
    (h : UpdatePossibleAssignments g sg pa = some (pa', b)) :
    pa'.length = pa.length ∧ (∀ y, (domain pa' y).Sublist (domain pa y)) ∧
      (∀ y, sg[y]? = some [] → domain pa' y = domain pa y) := by
  obtain ⟨h1, h2, _, h4⟩ := updateLoop_shape g sg _ pa false pa' b h
  exact ⟨h1, h2, h4⟩

theorem Update_conservative {g sg : Graph} {pa pa' : Table} {b : Bool} (f : Nat → Nat)
    (hedge : ∀ u v, (u, v) ∈ edges sg → hasEdge g (f u) (f v) = true)
    (hG : ∀ y < pa.length, f y ∈ domain pa y)
    (h : UpdatePossibleAssignments g sg pa = some (pa', b)) :
    ∀ y < pa.length, f y ∈ domain pa' y :=
  updateLoop_conservative g sg f hedge _ pa false pa' b hG h

theorem Update_isSome {g sg : Graph} {pa : Table} (hwf : Graph.WF sg)
    (hlen : pa.length = sg.length) (hdom : ∀ y, ∀ c ∈ domain pa y, c < g.length) :
    ∃ r, UpdatePossibleAssignments g sg pa = some r :=
  updateLoop_isSome g sg hwf _ pa false hlen
    (fun x hx => by rw [← hlen]; exact List.mem_range.1 hx) hdom

theorem Update_mem_iff {g sg : Graph} {pa pa' : Table} {b : Bool} {x : Nat}
    {succs pre post : List Nat} {c : Nat}
    (h : UpdatePossibleAssignments g sg pa = some (pa', b)) (hx : x < pa.length)
    (hs : sg[x]? = some succs) (hne : succs ≠ [])
    (hnd : (domain pa x).Nodup) (hsplit : domain pa x = pre ++ c :: post) :
    (c ∈ domain pa' x ↔
      ∀ y ∈ succs, ∃ a ∈ (if y < x then domain pa' y
        else if y = x then pre.filter (fun b => decide (b ∈ domain pa' x)) ++ c :: post
        else domain pa y), hasEdge g c a = true) :=
  updateLoop_mem_iff g sg _ pa false pa' b x succs pre post c (range_pairwise_lt _)
    (List.mem_range.2 hx) h hs hne hnd hsplit

theorem assignedEdgesLoop_cons (g : Graph) (a : List Nat) (u v : Nat)
    (more : List (Nat × Nat)) :
    assignedEdgesLoop g a ((u, v) :: more) =
      if u ≥ a.length ∨ v ≥ a.length then assignedEdgesLoop g a more
      else
        match g[a.getD u 0]? with
        | none => none
        | some out =>
          if out.contains (a.getD v 0) then assignedEdgesLoop g a more else some false := by
  rw [assignedEdgesLoop]

theorem assignedEdgesLoop_eq_true_iff (g : Graph) (a : List Nat) :
    ∀ es : List (Nat × Nat), assignedEdgesLoop g a es = some true ↔
      ∀ e ∈ es, e.1 < a.length → e.2 < a.length →
        hasEdge g (a.getD e.1 0) (a.getD e.2 0) = true := by
  intro es
  induction es with
  | nil => simp [assignedEdgesLoop]
  | cons e more ih =>
    obtain ⟨u, v⟩ := e
    rw [assignedEdgesLoop_cons]
    simp only [List.mem_cons, forall_eq_or_imp]
    by_cases hskip : u ≥ a.length ∨ v ≥ a.length
    · rw [if_pos hskip, ih]
      constructor
      · intro h
        refine ⟨fun h1 h2 => ?_, h⟩
        rcases hskip with h3 | h3 <;> omega
      · intro h; exact h.2
    · rw [if_neg hskip]
      have hu : u < a.length := by omega
      have hv : v < a.length := by omega
      rcases hg : g[a.getD u 0]? with _ | out
      · simp only []
        constructor
        · intro h; cases h
        · intro h
          obtain ⟨adj, hadj, _⟩ := hasEdge_iff.1 (h.1 hu hv)
          rw [hg] at hadj; cases hadj
      · simp only []
        by_cases hc : out.contains (a.getD v 0) = true
        · rw [if_pos hc, ih]
          constructor
          · intro h
            exact ⟨fun _ _ => hasEdge_iff.2 ⟨out, hg, by simpa using hc⟩, h⟩
          · intro h; exact h.2
        · rw [if_neg hc]
          constructor
          · intro h; simp at h
          · intro h
            obtain ⟨adj, hadj, hmem⟩ := hasEdge_iff.1 (h.1 hu hv)
            rw [hg] at hadj; cases hadj
            exact absurd (by simpa using hmem) hc

theorem getD_lt_of_forall {a : List Nat} {n u : Nat} (h : ∀ c ∈ a, c < n) (hu : u < a.length) :
    a.getD u 0 < n := by
  apply h
  simp [List.getD_eq_getElem?_getD, List.getElem?_eq_getElem hu]

theorem assignedEdgesLoop_isSome (g : Graph) (a : List Nat) (ha : ∀ c ∈ a, c < g.length) :
    ∀ es : List (Nat × Nat), ∃ b, assignedEdgesLoop g a es = some b := by
  intro es
  induction es with
  | nil => exact ⟨true, by rw [assignedEdgesLoop]⟩
  | cons e more ih =>
    obtain ⟨u, v⟩ := e
    rw [assignedEdgesLoop_cons]
    by_cases hskip : u ≥ a.length ∨ v ≥ a.length
    · rw [if_pos hskip]; exact ih
    · rw [if_neg hskip]
      have hu : u < a.length := by omega
      rw [List.getElem?_eq_getElem (getD_lt_of_forall ha hu)]
      simp only []
      split
      · exact ih
      · exact ⟨false, rfl⟩



theorem searchLoop_none {recurse : List Nat → Table → Outcome (Bool × List Nat)}
    {g sg : Graph} {next fuel : Nat} {a : List Nat} {pa : Table} (h : pa[next]? = none) :
    searchLoop recurse g sg next fuel a pa = Outcome.fault := by
  cases fuel <;> simp [searchLoop, h]

theorem searchLoop_nil {recurse : List Nat → Table → Outcome (Bool × List Nat)}
    {g sg : Graph} {next fuel : Nat} {a : List Nat} {pa : Table} (h : pa[next]? = some []) :
    searchLoop recurse g sg next fuel a pa = Outcome.ret (false, a) := by
  cases fuel <;> simp [searchLoop, h]

theorem searchLoop_zero {recurse : List Nat → Table → Outcome (Bool × List Nat)}
    {g sg : Graph} {next : Nat} {a : List Nat} {pa : Table} {c : Nat} {rest : List Nat}
    (h : pa[next]? = some (c :: rest)) :
    searchLoop recurse g sg next 0 a pa = Outcome.outOfFuel := by
  simp [searchLoop, h]

theorem searchLoop_succ (recurse : List Nat → Table → Outcome (Bool × List Nat))
    {g sg : Graph} {next fuel : Nat} {a : List Nat} {pa : Table} {c : Nat} {rest : List Nat}
    (h : pa[next]? = some (c :: rest)) :
    searchLoop recurse g sg next (fuel + 1) a pa =
      if a.contains c then
        match UpdatePossibleAssignments g sg (pa.set next ((domain pa next).eraseIdx 0)) with
        | none => Outcome.fault
        | some (pa2, _) => searchLoop recurse g sg next fuel a pa2
      else
        match recurse (a ++ [c]) (pa.set next [c]) with
        | Outcome.fault => Outcome.fault
        | Outcome.outOfFuel => Outcome.outOfFuel
        | Outcome.ret (true, a1) => Outcome.ret (true, a1)
        | Outcome.ret (false, a1) =>
          match UpdatePossibleAssignments g sg
              (((pa.set next [c]).set next (c :: rest)).set next
                ((domain ((pa.set next [c]).set next (c :: rest)) next).eraseIdx 0)) with
          | none => Outcome.fault
          | some (pa2, _) => searchLoop recurse g sg next fuel a1.dropLast pa2 := by
  rw [searchLoop]
  simp only [h]

theorem FindSubgraphImpl_succ (g sg : Graph) (depth : Nat) (a : List Nat) (pa : Table) :
    FindSubgraphImpl g sg (depth + 1) a pa =
      match DoAssignedEdgesExist g sg a with
      | none => Outcome.fault
      | some false => Outcome.ret (false, a)
      | some true =>
        if a.length = sg.length then Outcome.ret (true, a)
        else
          match UpdatePossibleAssignments g sg pa with
          | none => Outcome.fault
          | some (pa1, _) =>
            searchLoop (FindSubgraphImpl g sg depth) g sg a.length
              (domain pa1 a.length).length a pa1 := by
  rw [FindSubgraphImpl]


theorem removeAssignment_ne_false_of_bad {pa : Table} {gn succs : List Nat}
    (hbad : ∃ y ∈ succs, pa.length ≤ y) : removeAssignment pa gn succs ≠ some false := by
  intro h
  obtain ⟨y, hy, hle⟩ := hbad
  obtain ⟨d, hd, _⟩ := (removeAssignment_eq_false_iff pa gn succs).1 h y hy
  have := lt_length_of_getElem? hd
  omega

theorem pruneDomain_bad (g : Graph) (x : Nat) (succs : List Nat) :
    ∀ (rest kept : List Nat) (pa : Table) (upd : Bool) (pa' : Table) (upd' : Bool),
      (∃ y ∈ succs, pa.length ≤ y) → pa[x]? = some (kept ++ rest) →
      pruneDomain g x succs kept rest pa upd = some (pa', upd') → domain pa' x = kept := by
  intro rest
  induction rest with
  | nil =>
    intro kept pa upd pa' upd' _ hinv h
    rw [pruneDomain] at h
    simp only [Option.some.injEq, Prod.mk.injEq] at h
    obtain ⟨rfl, _⟩ := h
    rw [domain_of_getElem? hinv, List.append_nil]
  | cons c rest ih =>
    intro kept pa upd pa' upd' hbad hinv h
    rw [pruneDomain_cons] at h
    have hx : x < pa.length := lt_length_of_getElem? hinv
    rcases hg : g[c]? with _ | gn
    · simp [hg] at h
    · simp only [hg] at h
      rcases hr : removeAssignment pa gn succs with _ | b
      · simp [hr] at h
      · cases b with
        | true =>
          simp only [hr] at h
          exact ih kept (pa.set x (kept ++ rest)) true pa' upd'
            (by rw [List.length_set]; exact hbad) (List.getElem?_set_self hx) h
        | false => exact absurd hr (removeAssignment_ne_false_of_bad hbad)

theorem updateVertex_bad {g sg : Graph} {x : Nat} {pa : Table} {upd : Bool} {pa' : Table}
    {upd' : Bool} (hbad : ∃ y ∈ sg.getD x [], pa.length ≤ y)
    (h : updateVertex g sg x pa upd = some (pa', upd')) : domain pa' x = [] := by
  unfold updateVertex at h
  rcases hs : sg[x]? with _ | succs
  · simp [hs] at h
  · have hsx : sg.getD x [] = succs := by simp [List.getD_eq_getElem?_getD, hs]
    rw [hsx] at hbad
    cases succs with
    | nil =>
      obtain ⟨y, hy, _⟩ := hbad
      cases hy
    | cons n ns =>
      simp only [hs] at h
      rcases hd : pa[x]? with _ | d
      · simp [hd] at h
      · simp only [hd] at h
        exact pruneDomain_bad g x (n :: ns) d [] pa upd pa' upd' hbad (by simpa using hd) h

theorem updateLoop_bad (g sg : Graph) : ∀ (xs : List Nat) (pa : Table) (upd : Bool)
    (pa' : Table) (upd' : Bool) (x : Nat), x ∈ xs → (∃ y ∈ sg.getD x [], pa.length ≤ y) →
      updateLoop g sg xs pa upd = some (pa', upd') → domain pa' x = [] := by
  intro xs
  induction xs with
  | nil => intro pa upd pa' upd' x hx; cases hx
  | cons x0 more ih =>
    intro pa upd pa' upd' x hx hbad h
    rw [updateLoop_cons] at h
    rcases hv : updateVertex g sg x0 pa upd with _ | ⟨pa1, upd1⟩
    · simp [hv] at h
    · simp only [hv] at h
      obtain ⟨d', _, hpa1, _⟩ := updateVertex_shape hv
      have hlen : pa1.length = pa.length := by rw [hpa1, List.length_set]
      by_cases hxm : x ∈ more
      · exact ih pa1 upd1 pa' upd' x hxm (by rw [hlen]; exact hbad) h
      · have hx0 : x = x0 := by
          rcases List.mem_cons.1 hx with h1 | h1
          · exact h1
          · exact absurd h1 hxm
        subst hx0
        obtain ⟨_, hsub, _⟩ := updateLoop_shape g sg more pa1 upd1 pa' upd' h
        have h1 := hsub x
        rw [updateVertex_bad hbad hv] at h1
        exact List.eq_nil_of_sublist_nil h1

/-- A pass of the propagator that returns empties the domain of every pattern vertex that
has a successor outside the pattern. -/
theorem Update_pruned {g sg : Graph} {pa pa' : Table} {b : Bool}
    (hlen : pa.length = sg.length)
    (h : UpdatePossibleAssignments g sg pa = some (pa', b)) : Pruned sg pa' := by
  intro x hbad
  by_cases hx : x < pa.length
  · exact updateLoop_bad g sg _ pa false pa' b x (List.mem_range.2 hx)
      (by rw [hlen]; exact hbad) h
  · obtain ⟨hl, _⟩ := Update_shape h
    simp [domain, List.getD_eq_getElem?_getD, List.getElem?_eq_none (by omega : pa'.length ≤ x)]

theorem TableOK_set {sg : Graph} {P : Nat → Prop} {pa : Table} (h : TableOK sg P pa)
    (x : Nat) {d : List Nat} (hd : ∀ c ∈ d, P c) : TableOK sg P (pa.set x d) := by
  refine ⟨by rw [List.length_set]; exact h.1, ?_⟩
  intro y c hc
  rw [domain_set] at hc
  split at hc
  · exact hd c hc
  · exact h.2 y c hc

theorem TableOK_update {g sg : Graph} {P : Nat → Prop} {pa pa' : Table} {b : Bool}
    (h : TableOK sg P pa) (hu : UpdatePossibleAssignments g sg pa = some (pa', b)) :
    TableOK sg P pa' := by
  obtain ⟨hlen, hsub, _⟩ := Update_shape hu
  exact ⟨by rw [hlen]; exact h.1, fun y c hc => h.2 y c ((hsub y).subset hc)⟩

theorem TableOK_getElem {sg : Graph} {P : Nat → Prop} {pa : Table} (h : TableOK sg P pa)
    {x : Nat} (hx : x < sg.length) : pa[x]? = some (domain pa x) := by
  have hx' : x < pa.length := by rw [h.1]; exact hx
  rw [List.getElem?_eq_getElem hx']
  simp [domain, hx']

theorem Extends_update {g sg : Graph} {f : Nat → Nat} {a : List Nat} {pa pa' : Table}
    {b : Bool} (hlen : pa.length = sg.length) (h : Extends g sg f a pa)
    (hu : UpdatePossibleAssignments g sg pa = some (pa', b)) : Extends g sg f a pa' := by
  obtain ⟨hemb, hpre, hdom⟩ := h
  refine ⟨hemb, hpre, ?_⟩
  have := Update_conservative f hemb.2.2 (by rw [hlen]; exact hdom) hu
  rw [hlen] at this
  exact this

theorem CallOK_mono {g sg : Graph} {P : Nat → Prop} {a : List Nat} {pa pa1 : Table}
    {r : Outcome (Bool × List Nat)} (h : CallOK g sg P a pa1 r)
    (hext : ∀ f, Extends g sg f a pa → Extends g sg f a pa1) : CallOK g sg P a pa r := by
  unfold CallOK at h ⊢
  match r, h with
  | Outcome.fault, h => exact h
  | Outcome.outOfFuel, h => exact h
  | Outcome.ret (false, a'), h =>
    exact ⟨h.1, fun ⟨f, hf⟩ => h.2 ⟨f, hext f hf⟩⟩
  | Outcome.ret (true, m), h => exact h

theorem Good_of_snoc {g sg : Graph} {P : Nat → Prop} {a m : List Nat} {c : Nat}
    (hc : c ∉ a) (hok : ∀ y ∈ sg.getD a.length [], y < sg.length)
    (h : Good g sg P (a ++ [c]) m) : Good g sg P a m := by
  obtain ⟨hpre, hlen, hval, hnd, hP, hsucc⟩ := h
  refine ⟨(List.prefix_append a [c]).trans hpre, hlen, hval, ?_, hP, ?_⟩
  · intro ha
    apply hnd
    rw [List.nodup_append]
    refine ⟨ha, List.nodup_singleton c, ?_⟩
    intro x hx hx'
    rw [List.mem_singleton] at hx'
    subst hx'
    exact hc hx
  · intro i hi hin
    by_cases hia : i = a.length
    · rw [hia]; exact hok
    · exact hsucc i (by rw [List.length_append, List.length_singleton]; omega) hin

theorem getD_append_left {a : List Nat} {i : Nat} (c : Nat) (hi : i < a.length) :
    (a ++ [c]).getD i 0 = a.getD i 0 := by
  simp [List.getD_eq_getElem?_getD, List.getElem?_append_left hi]

theorem getD_append_length (a : List Nat) (c : Nat) : (a ++ [c]).getD a.length 0 = c := by
  simp [List.getD_eq_getElem?_getD]

/-- The validator accepts every assignment that agrees with an embedding. -/
theorem validator_of_extends {g sg : Graph} {f : Nat → Nat} {a : List Nat} {pa : Table}
    (h : Extends g sg f a pa) : DoAssignedEdgesExist g sg a = some true := by
  unfold DoAssignedEdgesExist
  rw [assignedEdgesLoop_eq_true_iff]
  intro e he hu hv
  rw [h.2.1 _ hu, h.2.1 _ hv]
  exact h.1.2.2 e.1 e.2 he

/-- The tail of the body of the `while` loop: the first candidate `c` is erased and the
propagator is run; no embedding within reach has `c` at the vertex in hand. -/
theorem eraseFirst_ok {g sg : Graph} {P : Nat → Prop} (hP : ∀ c, P c → c < g.length)
    {a : List Nat} {pa : Table} {c : Nat} {rest : List Nat} {fuel : Nat}
    {k : Table → Outcome (Bool × List Nat)}
    (hlt : a.length < sg.length) (hT : TableOK sg P pa)
    (hd : domain pa a.length = c :: rest) (hfuel : (c :: rest).length ≤ fuel + 1)
    (hne : ∀ f, Extends g sg f a pa → f a.length ≠ c)
    (ih : ∀ pa2, TableOK sg P pa2 → Pruned sg pa2 → (domain pa2 a.length).length ≤ fuel →
      CallOK g sg P a pa2 (k pa2)) :
    CallOK g sg P a pa
      (match UpdatePossibleAssignments g sg
          (pa.set a.length ((domain pa a.length).eraseIdx 0)) with
        | none => Outcome.fault
        | some (pa2, _) => k pa2) := by
  have hx : a.length < pa.length := by rw [hT.1]; exact hlt
  have he : (domain pa a.length).eraseIdx 0 = rest := by rw [hd]; rfl
  rw [he]
  have hrestP : ∀ c' ∈ rest, P c' := fun c' hc' =>
    hT.2 a.length c' (by rw [hd]; exact List.mem_cons_of_mem _ hc')
  have hT1 : TableOK sg P (pa.set a.length rest) := TableOK_set hT _ hrestP
  have hext1 : ∀ f, Extends g sg f a pa → Extends g sg f a (pa.set a.length rest) := by
    intro f hf
    refine ⟨hf.1, hf.2.1, ?_⟩
    intro x hxn
    rw [domain_set]
    split
    · next hc =>
      have := hf.2.2 a.length hlt
      rw [hd] at this
      rcases List.mem_cons.1 this with h1 | h1
      · exact absurd h1 (hne f hf)
      · rw [← hc.1]; exact h1
    · exact hf.2.2 x hxn
  rcases hu : UpdatePossibleAssignments g sg (pa.set a.length rest) with _ | ⟨pa2, b⟩
  · simp only []
    unfold CallOK
    simp only []
    intro hwf
    obtain ⟨r, hr⟩ := Update_isSome hwf hT1.1 (fun y c' hc' => hP _ (hT1.2 y c' hc'))
    rw [hu] at hr
    cases hr
  · simp only []
    have hT2 : TableOK sg P pa2 := TableOK_update hT1 hu
    have hlen2 : (domain pa2 a.length).length ≤ fuel := by
      obtain ⟨_, hsub, _⟩ := Update_shape hu
      have h1 := (hsub a.length).length_le
      rw [domain_set_self hx] at h1
      simp only [List.length_cons] at hfuel
      omega
    apply CallOK_mono (ih pa2 hT2 (Update_pruned hT1.1 hu) hlen2)
    intro f hf
    exact Extends_update hT1.1 (hext1 f hf) hu


theorem searchLoop_ok {g sg : Graph} {P : Nat → Prop} (hP : ∀ c, P c → c < g.length)
    {recurse : List Nat → Table → Outcome (Bool × List Nat)} {a : List Nat}
    (hlt : a.length < sg.length)
    (hrec : ∀ c pa2, P c → c ∉ a → TableOK sg P pa2 →
      CallOK g sg P (a ++ [c]) pa2 (recurse (a ++ [c]) pa2)) :
    ∀ (fuel : Nat) (pa : Table), TableOK sg P pa → Pruned sg pa →
      (domain pa a.length).length ≤ fuel →
      CallOK g sg P a pa (searchLoop recurse g sg a.length fuel a pa) := by
  intro fuel
  induction fuel with
  | zero =>
    intro pa hT _ hfuel
    have hget := TableOK_getElem hT hlt
    have hnil : domain pa a.length = [] := List.length_eq_zero.1 (Nat.le_zero.1 hfuel)
    rw [hnil] at hget
    rw [searchLoop_nil hget]
    refine ⟨rfl, ?_⟩
    rintro ⟨f, hf⟩
    have := hf.2.2 a.length hlt
    rw [hnil] at this
    cases this
  | succ fuel ih =>
    intro pa hT hpr hfuel
    have hget := TableOK_getElem hT hlt
    have hx : a.length < pa.length := by rw [hT.1]; exact hlt
    rcases hd : domain pa a.length with _ | ⟨c, rest⟩
    · rw [hd] at hget
      rw [searchLoop_nil hget]
      refine ⟨rfl, ?_⟩
      rintro ⟨f, hf⟩
      have := hf.2.2 a.length hlt
      rw [hd] at this
      cases this
    · rw [hd] at hget hfuel
      rw [searchLoop_succ _ hget]
      have hcP : P c := hT.2 a.length c (by rw [hd]; exact List.mem_cons_self _ _)
      by_cases hca : a.contains c = true
      · rw [if_pos hca]
        have hmem : c ∈ a := by simpa using hca
        apply eraseFirst_ok hP hlt hT hd hfuel _ ih
        intro f hf heq
        obtain ⟨j, hj, hjc⟩ := List.getElem_of_mem hmem
        have h1 : a.getD j 0 = f j := hf.2.1 j hj
        have h2 : a.getD j 0 = c := by
          simp [List.getD_eq_getElem?_getD, List.getElem?_eq_getElem hj, hjc]
        have h3 : f j = f a.length := by rw [← h1, h2, heq]
        have := hf.1.2.1 j (by omega) a.length hlt h3
        omega
      · rw [if_neg hca]
        have hnmem : c ∉ a := by simpa using hca
        have hT1 : TableOK sg P (pa.set a.length [c]) :=
          TableOK_set hT _ (fun c' hc' => by rw [List.mem_singleton.1 hc']; exact hcP)
        have hr := hrec c (pa.set a.length [c]) hcP hnmem hT1
        unfold CallOK at hr
        match hrc : recurse (a ++ [c]) (pa.set a.length [c]), hr with
        | Outcome.fault, hr => exact hr
        | Outcome.outOfFuel, hr => exact hr
        | Outcome.ret (true, m), hr =>
          refine Good_of_snoc hnmem (fun y hy => ?_) hr
          by_contra hbad
          have := hpr a.length ⟨y, hy, by omega⟩
          rw [hd] at this
          cases this
        | Outcome.ret (false, a1), hr =>
          simp only []
          obtain ⟨ha1, hno⟩ := hr
          have hrestore : (pa.set a.length [c]).set a.length (c :: rest) = pa := by
            rw [List.set_set]; exact set_eq_self hget
          rw [hrestore, ha1, List.dropLast_concat]
          apply eraseFirst_ok hP hlt hT hd hfuel _ ih
          intro f hf heq
          apply hno
          refine ⟨f, hf.1, ?_, ?_⟩
          · intro i hi
            rw [List.length_append, List.length_singleton] at hi
            by_cases hia : i < a.length
            · rw [getD_append_left c hia]; exact hf.2.1 i hia
            · have : i = a.length := by omega
              subst this
              rw [getD_append_length, heq]
          · intro x hxn
            rw [domain_set]
            split
            · next hc' => rw [← hc'.1, heq]; exact List.mem_singleton_self _
            · exact hf.2.2 x hxn

theorem FindSubgraphImpl_ok {g sg : Graph} {P : Nat → Prop} (hP : ∀ c, P c → c < g.length) :
    ∀ (depth : Nat) (a : List Nat) (pa : Table), a.length ≤ sg.length →
      sg.length < depth + a.length → (∀ c ∈ a, P c) → TableOK sg P pa →
      CallOK g sg P a pa (FindSubgraphImpl g sg depth a pa) := by
  intro depth
  induction depth with
  | zero => intro a pa h1 h2; omega
  | succ depth ih =>
    intro a pa hle hdepth haP hT
    rw [FindSubgraphImpl_succ]
    obtain ⟨b, hb⟩ := assignedEdgesLoop_isSome g a (fun c hc => hP c (haP c hc)) (edges sg)
    have hb' : DoAssignedEdgesExist g sg a = some b := hb
    rw [hb']
    cases b with
    | false =>
      simp only []
      refine ⟨rfl, ?_⟩
      rintro ⟨f, hf⟩
      have := validator_of_extends hf
      rw [hb'] at this
      cases this
    | true =>
      simp only []
      by_cases hfull : a.length = sg.length
      · rw [if_pos hfull]
        exact ⟨List.prefix_refl a, hfull, hb', fun h => h, haP, fun i h1 h2 => by omega⟩
      · rw [if_neg hfull]
        have hlt : a.length < sg.length := by omega
        rcases hu : UpdatePossibleAssignments g sg pa with _ | ⟨pa1, b1⟩
        · simp only []
          unfold CallOK
          simp only []
          intro hwf
          obtain ⟨r, hr⟩ := Update_isSome hwf hT.1 (fun y c hc => hP _ (hT.2 y c hc))
          rw [hu] at hr
          cases hr
        · simp only []
          have hT1 : TableOK sg P pa1 := TableOK_update hT hu
          have hloop := @searchLoop_ok g sg P hP (FindSubgraphImpl g sg depth) a hlt
            (fun c pa2 hcP _ hT2 => ih (a ++ [c]) pa2
              (by rw [List.length_append, List.length_singleton]; omega)
              (by rw [List.length_append, List.length_singleton]; omega)
              (by
                intro c' hc'
                rcases List.mem_append.1 hc' with h1 | h1
                · exact haP c' h1
                · rw [List.mem_singleton.1 h1]; exact hcP)
              hT2)
            (domain pa1 a.length).length pa1 hT1 (Update_pruned hT.1 hu) (Nat.le_refl _)
          exact CallOK_mono hloop (fun f hf => Extends_update hT.1 hf hu)



theorem mem_allVerticesInGraph {n c : Nat} (h : c ∈ allVerticesInGraph n) :
    c < n ∧ c < 2 ^ UINT_BITS := by
  unfold allVerticesInGraph at h
  obtain ⟨i, hi, rfl⟩ := List.mem_map.1 h
  have hin : i < n := List.mem_range.1 hi
  have hpos : 0 < 2 ^ UINT_BITS := Nat.pow_pos (by decide)
  exact ⟨Nat.lt_of_le_of_lt (Nat.mod_le _ _) hin, Nat.mod_lt _ hpos⟩

theorem mem_allVerticesInGraph_of_lt {n c : Nat} (hc : c < n) (hn : n ≤ 2 ^ UINT_BITS) :
    c ∈ allVerticesInGraph n := by
  unfold allVerticesInGraph
  exact List.mem_map.2 ⟨c, List.mem_range.2 hc, Nat.mod_eq_of_lt (by omega)⟩

theorem domain_replicate {n x : Nat} {d : List Nat} (hx : x < n) :
    domain (List.replicate n d) x = d := by
  apply domain_of_getElem?
  rw [List.getElem?_eq_getElem (by simpa using hx)]
  simp

theorem TableOK_initial (g sg : Graph) :
    TableOK sg (fun c => c ∈ allVerticesInGraph g.length)
      (List.replicate sg.length (allVerticesInGraph g.length)) := by
  refine ⟨List.length_replicate _ _, ?_⟩
  intro y c hc
  obtain ⟨d, hd, hcd⟩ := mem_domain_iff.1 hc
  have := List.getElem?_mem hd
  rw [List.eq_of_mem_replicate this] at hcd
  exact hcd

/-- The contract of the search holds for the call that `FindSubgraph` makes. -/
theorem FindSubgraph_callOK (g sg : Graph) :
    CallOK g sg (fun c => c ∈ allVerticesInGraph g.length) []
      (List.replicate sg.length (allVerticesInGraph g.length))
      (FindSubgraphImpl g sg (sg.length + 1) []
        (List.replicate sg.length (allVerticesInGraph g.length))) :=
  FindSubgraphImpl_ok (fun _ hc => (mem_allVerticesInGraph hc).1) (sg.length + 1) [] _
    (Nat.zero_le _) (by simp) (by simp) (TableOK_initial g sg)

theorem FindSubgraph_eq_some_iff {g sg : Graph} {m : List Nat} :
    FindSubgraph g sg = Outcome.ret (some m) ↔
      FindSubgraphImpl g sg (sg.length + 1) []
        (List.replicate sg.length (allVerticesInGraph g.length)) = Outcome.ret (true, m) := by
  unfold FindSubgraph
  split <;> simp_all

theorem FindSubgraph_eq_none_iff {g sg : Graph} :
    FindSubgraph g sg = Outcome.ret none ↔
      ∃ a, FindSubgraphImpl g sg (sg.length + 1) []
        (List.replicate sg.length (allVerticesInGraph g.length)) = Outcome.ret (false, a) := by
  unfold FindSubgraph
  split <;> simp_all

theorem FindSubgraph_eq_fault_iff {g sg : Graph} :
    FindSubgraph g sg = Outcome.fault ↔
      FindSubgraphImpl g sg (sg.length + 1) []
        (List.replicate sg.length (allVerticesInGraph g.length)) = Outcome.fault := by
  unfold FindSubgraph
  split <;> simp_all

theorem FindSubgraph_eq_outOfFuel_iff {g sg : Graph} :
    FindSubgraph g sg = Outcome.outOfFuel ↔
      FindSubgraphImpl g sg (sg.length + 1) []
        (List.replicate sg.length (allVerticesInGraph g.length)) = Outcome.outOfFuel := by
  unfold FindSubgraph
  split <;> simp_all

/-- A returned assignment is good: one entry per pattern vertex, pairwise distinct entries
taken from `allVerticesInGraph`, accepted by the validator. -/
theorem FindSubgraph_good {g sg : Graph} {m : List Nat}
    (h : FindSubgraph g sg = Outcome.ret (some m)) :
    Good g sg (fun c => c ∈ allVerticesInGraph g.length) [] m := by
  have := FindSubgraph_callOK g sg
  rw [FindSubgraph_eq_some_iff.1 h] at this
  exact this

/-- The run of `FindSubgraph` on a well-formed pattern returns: a mapping, or `nullopt` when
no embedding takes all its values in `allVerticesInGraph`. -/
theorem FindSubgraph_cases (g sg : Graph) (hwf : Graph.WF sg) :
    (∃ m, FindSubgraph g sg = Outcome.ret (some m)) ∨
      (FindSubgraph g sg = Outcome.ret none ∧
        ¬ ∃ f, Extends g sg f [] (List.replicate sg.length (allVerticesInGraph g.length))) := by
  have h := FindSubgraph_callOK g sg
  unfold CallOK at h
  match hr : FindSubgraphImpl g sg (sg.length + 1) []
      (List.replicate sg.length (allVerticesInGraph g.length)), h with
  | Outcome.fault, h => exact absurd hwf h
  | Outcome.outOfFuel, h => exact absurd h id
  | Outcome.ret (true, m), _ => exact Or.inl ⟨m, FindSubgraph_eq_some_iff.2 hr⟩
  | Outcome.ret (false, a), h => exact Or.inr ⟨FindSubgraph_eq_none_iff.2 ⟨a, hr⟩, h.2⟩

theorem validator_edges {g sg : Graph} {m : List Nat} (hwf : Graph.WF sg)
    (hlen : m.length = sg.length) (hval : DoAssignedEdgesExist g sg m = some true) :
    ∀ u v, (u, v) ∈ edges sg → hasEdge g (m.getD u 0) (m.getD v 0) = true := by
  intro u v huv
  obtain ⟨hu, hv⟩ := WF_iff.1 hwf u v huv
  exact (assignedEdgesLoop_eq_true_iff g m (edges sg)).1 hval (u, v) huv
    (by rw [hlen]; exact hu) (by rw [hlen]; exact hv)

theorem nodup_getD_ne {m : List Nat} (hnd : m.Nodup) {i j : Nat} (hij : i < j)
    (hj : j < m.length) : m.getD i 0 ≠ m.getD j 0 := by
  have hi : i < m.length := by omega
  simp only [List.getD_eq_getElem?_getD, List.getElem?_eq_getElem hi,
    List.getElem?_eq_getElem hj, Option.getD_some]
  intro heq
  have := (List.Nodup.getElem_inj_iff hnd).1 heq
  omega

/-- A returned assignment is an embedding. -/
theorem FindSubgraph_isEmbedding {g sg : Graph} {m : List Nat} (hwf : Graph.WF sg)
    (h : FindSubgraph g sg = Outcome.ret (some m)) :
    IsEmbedding g sg (fun u => m.getD u 0) := by
  obtain ⟨_, hlen, hval, hnd, hP, _⟩ := FindSubgraph_good h
  refine ⟨?_, ?_, validator_edges hwf hlen hval⟩
  · intro u hu
    exact (mem_allVerticesInGraph (hP _ (by
      simp [List.getD_eq_getElem?_getD, List.getElem?_eq_getElem (hlen ▸ hu)]))).1
  · intro u hu v hv heq
    rcases Nat.lt_trichotomy u v with h1 | h1 | h1
    · exact absurd heq (nodup_getD_ne (hnd List.nodup_nil) h1 (by rw [hlen]; exact hv))
    · exact h1
    · exact absurd heq.symm (nodup_getD_ne (hnd List.nodup_nil) h1 (by rw [hlen]; exact hu))

/-- On a host whose vertex count does not exceed the range of `unsigned int`, an embedding
makes the search succeed. -/
theorem FindSubgraph_complete {g sg : Graph} (hwf : Graph.WF sg)
    (hsmall : g.length ≤ 2 ^ UINT_BITS) {f : Nat → Nat} (hf : IsEmbedding g sg f) :
    ∃ m, FindSubgraph g sg = Outcome.ret (some m) := by
  rcases FindSubgraph_cases g sg hwf with h | ⟨_, hno⟩
  · exact h
  · exfalso
    apply hno
    refine ⟨f, hf, by simp, ?_⟩
    intro x hx
    rw [domain_replicate hx]
    exact mem_allVerticesInGraph_of_lt (hf.1 x hx) hsmall


/-- The loop does not depend on what the recursive call does once its bound is exhausted. -/
theorem searchLoop_congr {g sg : Graph} {next : Nat}
    {rec1 rec2 : List Nat → Table → Outcome (Bool × List Nat)}
    (hrec : ∀ a pa, rec1 a pa ≠ Outcome.outOfFuel → rec2 a pa = rec1 a pa) :
    ∀ (fuel : Nat) (a : List Nat) (pa : Table),
      searchLoop rec1 g sg next fuel a pa ≠ Outcome.outOfFuel →
      searchLoop rec2 g sg next fuel a pa = searchLoop rec1 g sg next fuel a pa := by
  intro fuel
  induction fuel with
  | zero =>
    intro a pa h
    rcases hd : pa[next]? with _ | d
    · rw [searchLoop_none hd, searchLoop_none hd]
    · cases d with
      | nil => rw [searchLoop_nil hd, searchLoop_nil hd]
      | cons c rest => rw [searchLoop_zero hd] at h; exact absurd rfl h
  | succ fuel ih =>
    intro a pa h
    rcases hd : pa[next]? with _ | d
    · rw [searchLoop_none hd, searchLoop_none hd]
    · cases d with
      | nil => rw [searchLoop_nil hd, searchLoop_nil hd]
      | cons c rest =>
        rw [searchLoop_succ rec2 hd, searchLoop_succ rec1 hd]
        rw [searchLoop_succ rec1 hd] at h
        by_cases hca : a.contains c = true
        · simp only [if_pos hca] at h ⊢
          rcases hu : UpdatePossibleAssignments g sg
              (pa.set next ((domain pa next).eraseIdx 0)) with _ | ⟨pa2, b⟩
          · rfl
          · rw [hu] at h
            exact ih a pa2 h
        · simp only [if_neg hca] at h ⊢
          have hne1 : rec1 (a ++ [c]) (pa.set next [c]) ≠ Outcome.outOfFuel := by
            intro hh
            rw [hh] at h
            exact h rfl
          rw [hrec _ _ hne1]
          match hr1 : rec1 (a ++ [c]) (pa.set next [c]) with
          | Outcome.outOfFuel => exact absurd hr1 hne1
          | Outcome.fault => rfl
          | Outcome.ret (true, a1) => rfl
          | Outcome.ret (false, a1) =>
            rw [hr1] at h
            simp only [] at h ⊢
            rcases hu : UpdatePossibleAssignments g sg
                (((pa.set next [c]).set next (c :: rest)).set next
                  ((domain ((pa.set next [c]).set next (c :: rest)) next).eraseIdx 0))
              with _ | ⟨pa2, b⟩
            · rfl
            · rw [hu] at h
              exact ih a1.dropLast pa2 h

/-- A larger bound on the recursion depth does not change a result that was reached. -/
theorem FindSubgraphImpl_succ_depth (g sg : Graph) : ∀ (depth : Nat) (a : List Nat)
    (pa : Table), FindSubgraphImpl g sg depth a pa ≠ Outcome.outOfFuel →
      FindSubgraphImpl g sg (depth + 1) a pa = FindSubgraphImpl g sg depth a pa := by
  intro depth
  induction depth with
  | zero => intro a pa h; rw [FindSubgraphImpl] at h; exact absurd rfl h
  | succ depth ih =>
    intro a pa h
    rw [FindSubgraphImpl_succ] at h
    rw [FindSubgraphImpl_succ g sg (depth + 1), FindSubgraphImpl_succ g sg depth]
    rcases hv : DoAssignedEdgesExist g sg a with _ | b
    · rfl
    · cases b with
      | false => rfl
      | true =>
        rw [hv] at h
        simp only [] at h ⊢
        by_cases hfull : a.length = sg.length
        · rw [if_pos hfull, if_pos hfull]
        · rw [if_neg hfull] at h ⊢
          rw [if_neg hfull]
          rcases hu : UpdatePossibleAssignments g sg pa with _ | ⟨pa1, b1⟩
          · rfl
          · rw [hu] at h
            exact searchLoop_congr ih _ a pa1 h

theorem FindSubgraphImpl_add_depth (g sg : Graph) (depth : Nat) (a : List Nat) (pa : Table)
    (h : FindSubgraphImpl g sg depth a pa ≠ Outcome.outOfFuel) :
    ∀ extra, FindSubgraphImpl g sg (depth + extra) a pa = FindSubgraphImpl g sg depth a pa := by
  intro extra
  induction extra with
  | zero => rfl
  | succ extra ih =>
    rw [← Nat.add_assoc, FindSubgraphImpl_succ_depth g sg (depth + extra) a pa (by rw [ih]; exact h),
      ih]

/-- Erasing the first candidate and running the propagator leaves a strictly shorter
domain. -/
theorem eraseFirst_shrinks {g sg : Graph} {pa pa2 : Table} {b : Bool} {next : Nat}
    (hx : next < pa.length) (hne : domain pa next ≠ [])
    (hu : UpdatePossibleAssignments g sg
      (pa.set next ((domain pa next).eraseIdx 0)) = some (pa2, b)) :
    (domain pa2 next).length < (domain pa next).length := by
  obtain ⟨_, hsub, _⟩ := Update_shape hu
  have h1 := (hsub next).length_le
  rw [domain_set_self hx] at h1
  rcases hd : domain pa next with _ | ⟨c, rest⟩
  · exact absurd hd hne
  · rw [hd] at h1
    simp only [List.eraseIdx_cons_zero] at h1
    simp only [List.length_cons]
    omega

/-- A duplicate-free list of numbers below `n` has at most `n` entries. -/
theorem length_le_of_nodup_lt {m : List Nat} {n : Nat} (hnd : m.Nodup)
    (hlt : ∀ c ∈ m, c < n) : m.length ≤ n := by
  have hsub : m ⊆ List.range n := fun c hc => List.mem_range.2 (hlt c hc)
  have := (List.subperm_of_subset hnd hsub).length_le
  simpa using this



theorem length_loopAtLast (n : Nat) : (loopAtLast n).length = n + 1 := by
  simp [loopAtLast]

theorem hasEdge_loopAtLast_of_lt {n c v : Nat} (hc : c < n) :
    hasEdge (loopAtLast n) c v = false := by
  have hget : (loopAtLast n)[c]? = some [] := by
    unfold loopAtLast
    rw [List.getElem?_append_left (by simpa using hc)]
    rw [List.getElem?_eq_getElem (by simpa using hc)]
    simp
  cases hh : hasEdge (loopAtLast n) c v with
  | false => rfl
  | true =>
    obtain ⟨adj, hadj, hmem⟩ := hasEdge_iff.1 hh
    rw [hget] at hadj
    cases hadj
    cases hmem

theorem hasEdge_loopAtLast_self (n : Nat) : hasEdge (loopAtLast n) n n = true := by
  apply hasEdge_iff.2
  refine ⟨[n], ?_, List.mem_singleton_self n⟩
  unfold loopAtLast
  rw [List.getElem?_append_right (by simp)]
  simp

/-- On a well-formed pattern and a host with at most `2 ^ 32` vertices, `FindSubgraph`
returns a mapping exactly when an embedding exists, and `nullopt` when none exists. -/
theorem FindSubgraph_iff_embedding_small_host (graph subgraph : Graph)
    (hwf : Graph.WF subgraph) (hsmall : graph.length ≤ 2 ^ UINT_BITS) :
    ((∃ m, FindSubgraph graph subgraph = Outcome.ret (some m)) ↔
        ∃ f, IsEmbedding graph subgraph f) ∧
      ((¬ ∃ f, IsEmbedding graph subgraph f) → FindSubgraph graph subgraph = Outcome.ret none) := by
  have hiff : (∃ m, FindSubgraph graph subgraph = Outcome.ret (some m)) ↔
      ∃ f, IsEmbedding graph subgraph f :=
    ⟨fun ⟨m, hm⟩ => ⟨_, FindSubgraph_isEmbedding hwf hm⟩,
      fun ⟨_, hf⟩ => FindSubgraph_complete hwf hsmall hf⟩
  refine ⟨hiff, fun hno => ?_⟩
  rcases FindSubgraph_cases graph subgraph hwf with h | h
  · exact absurd (hiff.1 h) hno
  · exact h.1


/-- A pattern on which `FindSubgraph` returns a mapping is well formed: a pattern vertex with
a successor outside the pattern is never committed. -/
theorem FindSubgraph_pattern_wf {g sg : Graph} {m : List Nat}
    (h : FindSubgraph g sg = Outcome.ret (some m)) : Graph.WF sg := by
  obtain ⟨_, _, _, _, _, hsucc⟩ := FindSubgraph_good h
  intro adj hadj v hv
  obtain ⟨i, hi, rfl⟩ := List.getElem_of_mem hadj
  apply hsucc i (Nat.zero_le _) hi v
  simpa [List.getD_eq_getElem?_getD, List.getElem?_eq_getElem hi] using hv

/-! ## The claims -/

/-- C1: if `FindSubgraph` returns a mapping `m`, then for every pattern edge `(u, v)` the
directed host edge `(m[u], m[v])` exists in the host graph. -/
theorem FindSubgraph_maps_pattern_edges (graph subgraph : Graph) (m : List Nat)
    (h : FindSubgraph graph subgraph = Outcome.ret (some m)) :
    ∀ u v, (u, v) ∈ edges subgraph → hasEdge graph (m.getD u 0) (m.getD v 0) = true := by
  obtain ⟨_, hlen, hval, _⟩ := FindSubgraph_good h
  exact validator_edges (FindSubgraph_pattern_wf h) hlen hval

/-- Witness of C1 on the test `FindGraph1D`: the pattern edge `(1, 2)` is sent to the host
edge `(1, 2)`. -/
theorem FindSubgraph_maps_pattern_edges_witness :
    FindSubgraph line6 line4 = Outcome.ret (some [0, 1, 2, 3]) ∧ (1, 2) ∈ edges line4 ∧
      hasEdge line6 ([0, 1, 2, 3].getD 1 0) ([0, 1, 2, 3].getD 2 0) = true :=
  ⟨by decide, by decide,
    FindSubgraph_maps_pattern_edges line6 line4 [0, 1, 2, 3] (by decide) 1 2 (by decide)⟩

/-- C2: if `FindSubgraph` returns a mapping `m`, then `m` has exactly one entry per pattern
vertex and its entries are pairwise distinct. -/
theorem FindSubgraph_mapping_injective (graph subgraph : Graph) (m : List Nat)
    (h : FindSubgraph graph subgraph = Outcome.ret (some m)) :
    m.length = subgraph.length ∧ m.Nodup ∧
      ∀ i j, i < j → j < m.length → m.getD i 0 ≠ m.getD j 0 := by
  obtain ⟨_, hlen, _, hnd, _⟩ := FindSubgraph_good h
  exact ⟨hlen, hnd List.nodup_nil, fun i j hij hj => nodup_getD_ne (hnd List.nodup_nil) hij hj⟩

/-- Witness of C2 on the test `FindGraph1D`. -/
theorem FindSubgraph_mapping_injective_witness :
    FindSubgraph line6 line4 = Outcome.ret (some [0, 1, 2, 3]) ∧
      [0, 1, 2, 3].length = line4.length ∧ [0, 1, 2, 3].Nodup :=
  ⟨by decide, (FindSubgraph_mapping_injective line6 line4 [0, 1, 2, 3] (by decide)).1,
    (FindSubgraph_mapping_injective line6 line4 [0, 1, 2, 3] (by decide)).2.1⟩

/-- C3, at a failing input: the host has `2 ^ 32 + 1` vertices and its only edge is the loop
on the last vertex, the pattern is one vertex with a loop.  Sending the pattern vertex to
the host vertex `2 ^ 32` is an embedding, and `FindSubgraph` returns `nullopt`: the counter
of `std::iota` is an `unsigned int`, so no domain ever holds the vertex `2 ^ 32`. -/
theorem FindSubgraph_misses_embedding_beyond_uint :
    IsEmbedding (loopAtLast (2 ^ UINT_BITS)) loopPattern (fun _ => 2 ^ UINT_BITS) ∧
      FindSubgraph (loopAtLast (2 ^ UINT_BITS)) loopPattern = Outcome.ret none := by
  constructor
  · refine ⟨fun u _ => ?_, fun u hu v hv _ => ?_, fun u v _ => hasEdge_loopAtLast_self _⟩
    · rw [length_loopAtLast]; exact Nat.lt_succ_self _
    · have h1 : u < 1 := hu
      have h2 : v < 1 := hv
      omega
  · rcases FindSubgraph_cases (loopAtLast (2 ^ UINT_BITS)) loopPattern (by decide) with h | h
    · exfalso
      obtain ⟨m, hm⟩ := h
      obtain ⟨_, hlen, hval, _, hP, _⟩ := FindSubgraph_good hm
      have hedge := @validator_edges _ loopPattern m (by decide) hlen hval 0 0 (by decide)
      have hmem : m.getD 0 0 ∈ m := by
        have h0 : 0 < m.length := by rw [hlen]; decide
        simp [List.getD_eq_getElem?_getD, List.getElem?_eq_getElem h0]
      rw [hasEdge_loopAtLast_of_lt (mem_allVerticesInGraph (hP _ hmem)).2] at hedge
      cases hedge
    · exact h.1

/-- C4: for every host graph, the empty one included, `FindSubgraph` on the pattern with
zero vertices succeeds and returns the empty mapping. -/
theorem FindSubgraph_empty_pattern (graph : Graph) :
    FindSubgraph graph [] = Outcome.ret (some []) := by
  rfl

/-- C5: when the pattern has strictly more vertices than the host, `FindSubgraph` returns
`nullopt` (the pattern being well formed, as every `boost::adjacency_list` is). -/
theorem FindSubgraph_pattern_larger_than_host (graph subgraph : Graph)
    (hwf : Graph.WF subgraph) (hlt : graph.length < subgraph.length) :
    FindSubgraph graph subgraph = Outcome.ret none := by
  rcases FindSubgraph_cases graph subgraph hwf with h | h
  · exfalso
    obtain ⟨m, hm⟩ := h
    obtain ⟨_, hlen, _, hnd, hP, _⟩ := FindSubgraph_good hm
    have := length_le_of_nodup_lt (hnd List.nodup_nil)
      (fun c hc => (mem_allVerticesInGraph (hP c hc)).1)
    omega
  · exact h.1

/-- Witness of C5: the line on four vertices is not found in the line on three. -/
theorem FindSubgraph_pattern_larger_than_host_witness :
    Graph.WF line4 ∧ line3.length < line4.length ∧
      FindSubgraph line3 line4 = Outcome.ret none :=
  ⟨by decide, by decide, FindSubgraph_pattern_larger_than_host line3 line4 (by decide) (by decide)⟩

/-- C6: `FindSubgraph` terminates on every host and pattern.  The recursion of the search,
bounded by the pattern vertex count plus one, and the candidate loop, bounded by the length of
domain(next) at loop entry, never exhaust their bound; a larger depth bound gives the same
result; and each iteration of the candidate loop (erase the first candidate, run the
propagator) strictly shrinks domain(next). -/
theorem FindSubgraph_terminates (graph subgraph : Graph) :
    FindSubgraph graph subgraph ≠ Outcome.outOfFuel ∧
      (∀ extra, FindSubgraphImpl graph subgraph (subgraph.length + 1 + extra) []
          (List.replicate subgraph.length (allVerticesInGraph graph.length)) =
        FindSubgraphImpl graph subgraph (subgraph.length + 1) []
          (List.replicate subgraph.length (allVerticesInGraph graph.length))) ∧
      ∀ (pa pa2 : Table) (b : Bool) (next : Nat), next < pa.length → domain pa next ≠ [] →
        UpdatePossibleAssignments graph subgraph
          (pa.set next ((domain pa next).eraseIdx 0)) = some (pa2, b) →
        (domain pa2 next).length < (domain pa next).length := by
  have hne : FindSubgraphImpl graph subgraph (subgraph.length + 1) []
      (List.replicate subgraph.length (allVerticesInGraph graph.length)) ≠
      Outcome.outOfFuel := by
    intro hh
    have := FindSubgraph_callOK graph subgraph
    rw [hh] at this
    exact this
  exact ⟨fun hh => hne (FindSubgraph_eq_outOfFuel_iff.1 hh),
    FindSubgraphImpl_add_depth graph subgraph _ _ _ hne,
    fun pa pa2 b next hx hd hu => eraseFirst_shrinks hx hd hu⟩

/-- Witness of C6: the search of the triangle in the line on three vertices runs to its end
and fails. -/
theorem FindSubgraph_terminates_witness :
    FindSubgraph line3 triangle = Outcome.ret none ∧
      FindSubgraph line3 triangle ≠ Outcome.outOfFuel :=
  ⟨by decide, (FindSubgraph_terminates line3 triangle).1⟩

/-- C7: on a well-formed pattern no indexed access of a run of `FindSubgraph` is out of
range: the run returns either a mapping or `nullopt` (whatever the host). -/
theorem FindSubgraph_no_fault (graph subgraph : Graph) (hwf : Graph.WF subgraph) :
    (∃ m, FindSubgraph graph subgraph = Outcome.ret (some m)) ∨
      FindSubgraph graph subgraph = Outcome.ret none := by
  rcases FindSubgraph_cases graph subgraph hwf with h | h
  · exact Or.inl h
  · exact Or.inr h.1

/-- Witness of C7 on the test `FindGraph1D`. -/
theorem FindSubgraph_no_fault_witness :
    Graph.WF line4 ∧ ((∃ m, FindSubgraph line6 line4 = Outcome.ret (some m)) ∨
      FindSubgraph line6 line4 = Outcome.ret none) :=
  ⟨by decide, FindSubgraph_no_fault line6 line4 (by decide)⟩


/-- C8: one pass of the propagator is conservative.  If `f` sends every pattern edge to a
host edge and `f x` is in domain(x) for every pattern vertex `x` before the pass, then
`f x` is still in domain(x) for every `x` after the pass.  The pass does return a table
when the pattern is well formed, the table has one domain per pattern vertex and the
candidates are host vertices. -/
theorem UpdatePossibleAssignments_conservative (graph subgraph : Graph)
    (possibleAssignments : Table) (f : Nat → Nat)
    (hedge : ∀ u v, (u, v) ∈ edges subgraph → hasEdge graph (f u) (f v) = true)
    (hdom : ∀ x < possibleAssignments.length, f x ∈ domain possibleAssignments x) :
    (Graph.WF subgraph → possibleAssignments.length = subgraph.length →
        (∀ y, ∀ c ∈ domain possibleAssignments y, c < graph.length) →
        ∃ r, UpdatePossibleAssignments graph subgraph possibleAssignments = some r) ∧
      ∀ pa' b, UpdatePossibleAssignments graph subgraph possibleAssignments = some (pa', b) →
        ∀ x < possibleAssignments.length, f x ∈ domain pa' x :=
  ⟨fun hwf hlen hc => Update_isSome hwf hlen hc,
    fun _ _ hu => Update_conservative f hedge hdom hu⟩

/-- Witness of C8: the identity embeds the line on four vertices in the line on six, and the
pass on the full table keeps `0` in the domain of the pattern vertex `0`. -/
theorem UpdatePossibleAssignments_conservative_witness :
    UpdatePossibleAssignments line6 line4 (List.replicate 4 [0, 1, 2, 3, 4, 5]) =
        some ([[0, 1, 2, 3, 4], [0, 1, 2, 3, 4], [0, 1, 2, 3, 4], [0, 1, 2, 3, 4, 5]], true) ∧
      0 ∈ domain [[0, 1, 2, 3, 4], [0, 1, 2, 3, 4], [0, 1, 2, 3, 4], [0, 1, 2, 3, 4, 5]] 0 :=
  ⟨by decide,
    (UpdatePossibleAssignments_conservative line6 line4 (List.replicate 4 [0, 1, 2, 3, 4, 5])
      (fun u => u)
      (fun u v h => (by decide : ∀ e ∈ edges line4, hasEdge line6 e.1 e.2 = true) (u, v) h)
      (by decide)).2 _ true (by decide) 0 (by decide)⟩

/-- C9: the validator returns true if and only if, for every pattern edge `(u, v)` with both
`u` and `v` less than the assignment length, the host edge `(assignment[u], assignment[v])`
exists; an edge with an endpoint that is not less than the assignment length plays no part.
When the assigned values are host vertices the validator returns true or false. -/
theorem DoAssignedEdgesExist_iff (graph subgraph : Graph) (assignments : List Nat) :
    (DoAssignedEdgesExist graph subgraph assignments = some true ↔
        ∀ u v, (u, v) ∈ edges subgraph → u < assignments.length → v < assignments.length →
          hasEdge graph (assignments.getD u 0) (assignments.getD v 0) = true) ∧
      ((∀ c ∈ assignments, c < graph.length) →
        DoAssignedEdgesExist graph subgraph assignments = some true ∨
        DoAssignedEdgesExist graph subgraph assignments = some false) := by
  constructor
  · unfold DoAssignedEdgesExist
    rw [assignedEdgesLoop_eq_true_iff]
    exact ⟨fun h u v huv => h (u, v) huv, fun h e he => h e.1 e.2 he⟩
  · intro hc
    obtain ⟨b, hb⟩ := assignedEdgesLoop_isSome graph assignments hc (edges subgraph)
    cases b with
    | true => exact Or.inl hb
    | false => exact Or.inr hb

/-- Witness of C9: with pattern vertices `0, 1, 2` of the line committed to `0, 1, 3`, the
pattern edge `(1, 2)` has no host edge `(1, 3)` and the validator returns false. -/
theorem DoAssignedEdgesExist_iff_witness :
    (∀ c ∈ [0, 1, 3], c < line6.length) ∧
      DoAssignedEdgesExist line6 line4 [0, 1, 3] = some false ∧
      (DoAssignedEdgesExist line6 line4 [0, 1, 3] = some true ∨
        DoAssignedEdgesExist line6 line4 [0, 1, 3] = some false) :=
  ⟨by decide, by decide, (DoAssignedEdgesExist_iff line6 line4 [0, 1, 3]).2 (by decide)⟩

/-- C10: after one pass of the propagator, for a pattern vertex `x` with at least one
pattern-successor and a candidate `c` of the input domain(x) (a duplicate-free list
`pre ++ c :: post`), `c` is in the output domain(x) if and only if, for every
pattern-successor `y` of `x`, domain(y) as it stands when `c` is examined holds a host vertex
that is a direct successor of `c` in the host.  The pass does return a table when the
pattern is well formed, the table has one domain per pattern vertex and the candidates are
host vertices. -/
theorem UpdatePossibleAssignments_keeps_iff (graph subgraph : Graph)
    (possibleAssignments pa' : Table) (b : Bool) (x : Nat) (succs pre post : List Nat) (c : Nat)
    (h : UpdatePossibleAssignments graph subgraph possibleAssignments = some (pa', b))
    (hx : x < possibleAssignments.length) (hs : subgraph[x]? = some succs) (hne : succs ≠ [])
    (hnd : (domain possibleAssignments x).Nodup)
    (hsplit : domain possibleAssignments x = pre ++ c :: post) :
    (Graph.WF subgraph → possibleAssignments.length = subgraph.length →
        (∀ y, ∀ c ∈ domain possibleAssignments y, c < graph.length) →
        ∃ r, UpdatePossibleAssignments graph subgraph possibleAssignments = some r) ∧
      (c ∈ domain pa' x ↔
        ∀ y ∈ succs, ∃ a ∈ liveDomain possibleAssignments pa' x pre c post y,
          hasEdge graph c a = true) :=
  ⟨fun hwf hlen hc => Update_isSome hwf hlen hc,
    by unfold liveDomain; exact Update_mem_iff h hx hs hne hnd hsplit⟩

/-- Witness of C10: host line `0 -> 1 -> 2`, pattern line `0 -> 1 -> 2 -> 3`, full domains.
The candidate `2` of the pattern vertex `0` is removed: the host vertex `2` has no
successor. -/
theorem UpdatePossibleAssignments_keeps_iff_witness :
    UpdatePossibleAssignments line3 line4 (List.replicate 4 [0, 1, 2]) =
        some ([[0, 1], [0, 1], [0, 1], [0, 1, 2]], true) ∧
      (2 ∈ domain [[0, 1], [0, 1], [0, 1], [0, 1, 2]] 0 ↔
        ∀ y ∈ [1], ∃ a ∈ liveDomain (List.replicate 4 [0, 1, 2])
          [[0, 1], [0, 1], [0, 1], [0, 1, 2]] 0 [0, 1] 2 [] y, hasEdge line3 2 a = true) :=
  ⟨by decide,
    (UpdatePossibleAssignments_keeps_iff line3 line4 (List.replicate 4 [0, 1, 2])
      [[0, 1], [0, 1], [0, 1], [0, 1, 2]] true 0 [1] [0, 1] [] 2 (by decide) (by decide)
      (by decide) (by decide) (by decide) (by decide)).2⟩

/-! ## The least embedding (C11) -/

theorem Ascending_set {pa : Table} (h : Ascending pa) (x : Nat) {d : List Nat}
    (hd : d.Pairwise (· < ·)) : Ascending (pa.set x d) := by
  intro y
  rw [domain_set]
  split
  · exact hd
  · exact h y

theorem Ascending_update {g sg : Graph} {pa pa' : Table} {b : Bool} (h : Ascending pa)
    (hu : UpdatePossibleAssignments g sg pa = some (pa', b)) : Ascending pa' := by
  obtain ⟨_, hsub, _⟩ := Update_shape hu
  exact fun y => (h y).sublist (hsub y)

theorem prefix_getD {l m : List Nat} (h : l <+: m) {j : Nat} (hj : j < l.length) :
    m.getD j 0 = l.getD j 0 := by
  obtain ⟨t, rfl⟩ := h
  simp [List.getD_eq_getElem?_getD, List.getElem?_append_left hj]

/-- A good assignment that extends `a ++ [c]`, where `a` agrees with `f` and `c` is below the
image of the next vertex under `f`, is lexicographically below `f`. -/
theorem LexLe_of_lt {g sg : Graph} {P : Nat → Prop} {a m : List Nat} {c : Nat}
    {f : Nat → Nat} (hlt : a.length < sg.length) (hgood : Good g sg P (a ++ [c]) m)
    (hpre : ∀ i < a.length, a.getD i 0 = f i) (hc : c < f a.length) : LexLe m f := by
  obtain ⟨hpre0, hlen, _⟩ := hgood
  refine Or.inr ⟨a.length, by rw [hlen]; exact hlt, ?_, ?_⟩
  · intro j hj
    rw [prefix_getD hpre0 (by rw [List.length_append, List.length_singleton]; omega),
      getD_append_left c hj]
    exact hpre j hj
  · rw [prefix_getD hpre0 (by rw [List.length_append, List.length_singleton]; omega),
      getD_append_length]
    exact hc

/-- The tail of the body of the `while` loop, for the least embedding: the first candidate
`c` is erased and the propagator is run; an embedding within reach that does not send the
vertex in hand to `c` stays within reach. -/
theorem eraseFirst_least {g sg : Graph} {P : Nat → Prop} {a : List Nat} {pa : Table}
    {c : Nat} {rest : List Nat} {m : List Nat} {k : Table → Outcome (Bool × List Nat)}
    (hlt : a.length < sg.length) (hT : TableOK sg P pa) (hA : Ascending pa)
    (hd : domain pa a.length = c :: rest)
    (ih : ∀ pa2, TableOK sg P pa2 → Ascending pa2 → k pa2 = Outcome.ret (true, m) →
      ∀ f, Extends g sg f a pa2 → LexLe m f)
    (hres : (match UpdatePossibleAssignments g sg
          (pa.set a.length ((domain pa a.length).eraseIdx 0)) with
        | none => Outcome.fault
        | some (pa2, _) => k pa2) = Outcome.ret (true, m)) :
    ∀ f, Extends g sg f a pa → f a.length ≠ c → LexLe m f := by
  intro f hf hne
  have he : (domain pa a.length).eraseIdx 0 = rest := by rw [hd]; rfl
  rw [he] at hres
  have hrestP : ∀ c' ∈ rest, P c' := fun c' hc' =>
    hT.2 a.length c' (by rw [hd]; exact List.mem_cons_of_mem _ hc')
  have hT1 : TableOK sg P (pa.set a.length rest) := TableOK_set hT _ hrestP
  have hA1 : Ascending (pa.set a.length rest) := by
    apply Ascending_set hA
    have := hA a.length
    rw [hd] at this
    exact (List.pairwise_cons.1 this).2
  have hext1 : Extends g sg f a (pa.set a.length rest) := by
    refine ⟨hf.1, hf.2.1, ?_⟩
    intro x hxn
    rw [domain_set]
    split
    · next hc =>
      have := hf.2.2 a.length hlt
      rw [hd] at this
      rcases List.mem_cons.1 this with h1 | h1
      · exact absurd h1 hne
      · rw [← hc.1]; exact h1
    · exact hf.2.2 x hxn
  rcases hu : UpdatePossibleAssignments g sg (pa.set a.length rest) with _ | ⟨pa2, b⟩
  · rw [hu] at hres; cases hres
  · rw [hu] at hres
    exact ih pa2 (TableOK_update hT1 hu) (Ascending_update hA1 hu) hres f
      (Extends_update hT1.1 hext1 hu)

theorem searchLoop_least {g sg : Graph} {P : Nat → Prop}
    {recurse : List Nat → Table → Outcome (Bool × List Nat)} {a : List Nat}
    (hlt : a.length < sg.length)
    (hrec : ∀ c pa2, P c → c ∉ a → TableOK sg P pa2 →
      CallOK g sg P (a ++ [c]) pa2 (recurse (a ++ [c]) pa2))
    (hleast : ∀ c pa2 m, P c → c ∉ a → TableOK sg P pa2 → Ascending pa2 →
      recurse (a ++ [c]) pa2 = Outcome.ret (true, m) →
      ∀ f, Extends g sg f (a ++ [c]) pa2 → LexLe m f) :
    ∀ (fuel : Nat) (pa : Table) (m : List Nat), TableOK sg P pa → Ascending pa →
      searchLoop recurse g sg a.length fuel a pa = Outcome.ret (true, m) →
      ∀ f, Extends g sg f a pa → LexLe m f := by
  intro fuel
  induction fuel with
  | zero =>
    intro pa m hT _ h
    have hget := TableOK_getElem hT hlt
    rcases hd : domain pa a.length with _ | ⟨c, rest⟩
    · rw [hd] at hget; rw [searchLoop_nil hget] at h; cases h
    · rw [hd] at hget; rw [searchLoop_zero hget] at h; cases h
  | succ fuel ih =>
    intro pa m hT hA h f hf
    have hget := TableOK_getElem hT hlt
    rcases hd : domain pa a.length with _ | ⟨c, rest⟩
    · rw [hd] at hget; rw [searchLoop_nil hget] at h; cases h
    · rw [hd] at hget
      rw [searchLoop_succ _ hget] at h
      have hcP : P c := hT.2 a.length c (by rw [hd]; exact List.mem_cons_self _ _)
      have hih : ∀ pa2, TableOK sg P pa2 → Ascending pa2 →
          searchLoop recurse g sg a.length fuel a pa2 = Outcome.ret (true, m) →
          ∀ f, Extends g sg f a pa2 → LexLe m f := fun pa2 h1 h2 h3 => ih pa2 m h1 h2 h3
      by_cases hca : a.contains c = true
      · rw [if_pos hca] at h
        have hmem : c ∈ a := by simpa using hca
        apply eraseFirst_least hlt hT hA hd hih h f hf
        intro heq
        obtain ⟨j, hj, hjc⟩ := List.getElem_of_mem hmem
        have h1 : a.getD j 0 = f j := hf.2.1 j hj
        have h2 : a.getD j 0 = c := by
          simp [List.getD_eq_getElem?_getD, List.getElem?_eq_getElem hj, hjc]
        have h3 : f j = f a.length := by rw [← h1, h2, heq]
        have := hf.1.2.1 j (by omega) a.length hlt h3
        omega
      · rw [if_neg hca] at h
        have hnmem : c ∉ a := by simpa using hca
        have hT1 : TableOK sg P (pa.set a.length [c]) :=
          TableOK_set hT _ (fun c' hc' => by rw [List.mem_singleton.1 hc']; exact hcP)
        have hA1 : Ascending (pa.set a.length [c]) :=
          Ascending_set hA _ (List.pairwise_singleton _ _)
        have hr := hrec c (pa.set a.length [c]) hcP hnmem hT1
        have hl := hleast c (pa.set a.length [c])
        -- an embedding within reach that sends the vertex in hand to `c`
        have hext : f a.length = c → Extends g sg f (a ++ [c]) (pa.set a.length [c]) := by
          intro heq
          refine ⟨hf.1, ?_, ?_⟩
          · intro i hi
            rw [List.length_append, List.length_singleton] at hi
            by_cases hia : i < a.length
            · rw [getD_append_left c hia]; exact hf.2.1 i hia
            · have : i = a.length := by omega
              subst this
              rw [getD_append_length, heq]
          · intro x hxn
            rw [domain_set]
            split
            · next hc' => rw [← hc'.1, heq]; exact List.mem_singleton_self _
            · exact hf.2.2 x hxn
        unfold CallOK at hr
        match hrc : recurse (a ++ [c]) (pa.set a.length [c]) with
        | Outcome.fault => rw [hrc] at h; cases h
        | Outcome.outOfFuel => rw [hrc] at h; cases h
        | Outcome.ret (true, m0) =>
          rw [hrc] at h hr
          simp only [] at h hr
          have hm : m0 = m := by cases h; rfl
          subst hm
          by_cases heq : f a.length = c
          · exact hl m0 hcP hnmem hT1 hA1 hrc f (hext heq)
          · have hmemf := hf.2.2 a.length hlt
            rw [hd] at hmemf
            have hasc := hA a.length
            rw [hd] at hasc
            rcases List.mem_cons.1 hmemf with h1 | h1
            · exact absurd h1 heq
            · exact LexLe_of_lt hlt hr hf.2.1 ((List.pairwise_cons.1 hasc).1 _ h1)
        | Outcome.ret (false, a1) =>
          rw [hrc] at h hr
          simp only [] at h hr
          obtain ⟨ha1, hno⟩ := hr
          have hrestore : (pa.set a.length [c]).set a.length (c :: rest) = pa := by
            rw [List.set_set]; exact set_eq_self hget
          rw [hrestore, ha1, List.dropLast_concat] at h
          apply eraseFirst_least hlt hT hA hd hih h f hf
          intro heq
          exact hno ⟨f, hext heq⟩

theorem FindSubgraphImpl_least {g sg : Graph} {P : Nat → Prop}
    (hP : ∀ c, P c → c < g.length) :
    ∀ (depth : Nat) (a : List Nat) (pa : Table) (m : List Nat), a.length ≤ sg.length →
      sg.length < depth + a.length → (∀ c ∈ a, P c) → TableOK sg P pa → Ascending pa →
      FindSubgraphImpl g sg depth a pa = Outcome.ret (true, m) →
      ∀ f, Extends g sg f a pa → LexLe m f := by
  intro depth
  induction depth with
  | zero => intro a pa m h1 h2; omega
  | succ depth ih =>
    intro a pa m hle hdepth haP hT hA h f hf
    rw [FindSubgraphImpl_succ] at h
    rcases hv : DoAssignedEdgesExist g sg a with _ | b
    · rw [hv] at h; cases h
    · cases b with
      | false => rw [hv] at h; cases h
      | true =>
        rw [hv] at h
        simp only [] at h
        by_cases hfull : a.length = sg.length
        · rw [if_pos hfull] at h
          have hm : a = m := by cases h; rfl
          subst hm
          exact Or.inl hf.2.1
        · rw [if_neg hfull] at h
          have hlt : a.length < sg.length := by omega
          rcases hu : UpdatePossibleAssignments g sg pa with _ | ⟨pa1, b1⟩
          · rw [hu] at h; cases h
          · rw [hu] at h
            simp only [] at h
            have hlenc : ∀ c : Nat, (a ++ [c]).length = a.length + 1 := by
              intro c; rw [List.length_append, List.length_singleton]
            have haPc : ∀ c, P c → ∀ c' ∈ a ++ [c], P c' := by
              intro c hcP c' hc'
              rcases List.mem_append.1 hc' with h1 | h1
              · exact haP c' h1
              · rw [List.mem_singleton.1 h1]; exact hcP
            exact @searchLoop_least g sg P (FindSubgraphImpl g sg depth) a hlt
              (fun c pa2 hcP _ hT2 => FindSubgraphImpl_ok hP depth (a ++ [c]) pa2
                (by rw [hlenc]; omega) (by rw [hlenc]; omega) (haPc c hcP) hT2)
              (fun c pa2 m' hcP _ hT2 hA2 hres => ih (a ++ [c]) pa2 m'
                (by rw [hlenc]; omega) (by rw [hlenc]; omega) (haPc c hcP) hT2 hA2 hres)
              _ pa1 m (TableOK_update hT hu) (Ascending_update hA hu) h f
              (Extends_update hT.1 hf hu)

theorem allVerticesInGraph_of_le {n : Nat} (hn : n ≤ 2 ^ UINT_BITS) :
    allVerticesInGraph n = List.range n := by
  unfold allVerticesInGraph
  conv_rhs => rw [← List.map_id (List.range n)]
  apply List.map_congr_left
  intro i hi
  have := List.mem_range.1 hi
  exact Nat.mod_eq_of_lt (by omega)

theorem mem_allVerticesInGraph_of_lt_lt {n c : Nat} (hc : c < n) (hu : c < 2 ^ UINT_BITS) :
    c ∈ allVerticesInGraph n := by
  unfold allVerticesInGraph
  exact List.mem_map.2 ⟨c, List.mem_range.2 hc, Nat.mod_eq_of_lt hu⟩

theorem Ascending_initial {g sg : Graph} (hsmall : g.length ≤ 2 ^ UINT_BITS) :
    Ascending (List.replicate sg.length (allVerticesInGraph g.length)) := by
  intro y
  by_cases hy : y < sg.length
  · rw [domain_replicate hy, allVerticesInGraph_of_le hsmall]
    exact range_pairwise_lt _
  · have : domain (List.replicate sg.length (allVerticesInGraph g.length)) y = [] := by
      simp [domain, List.getD_eq_getElem?_getD,
        List.getElem?_eq_none (by simpa using Nat.le_of_not_lt hy :
          (List.replicate sg.length (allVerticesInGraph g.length)).length ≤ y)]
    rw [this]
    exact List.Pairwise.nil

/-- On a host with at most `2 ^ 32` vertices the mapping that `FindSubgraph` returns is
lexicographically less than or equal to every embedding. -/
theorem FindSubgraph_least_small_host (graph subgraph : Graph) (m : List Nat)
    (h : FindSubgraph graph subgraph = Outcome.ret (some m))
    (hsmall : graph.length ≤ 2 ^ UINT_BITS) :
    ∀ f, IsEmbedding graph subgraph f → LexLe m f := by
  intro f hf
  refine FindSubgraphImpl_least (P := fun c => c ∈ allVerticesInGraph graph.length)
    (fun _ hc => (mem_allVerticesInGraph hc).1) (subgraph.length + 1) [] _ m
    (Nat.zero_le _) (by simp) (by simp) (TableOK_initial graph subgraph)
    (Ascending_initial hsmall) (FindSubgraph_eq_some_iff.1 h) f ⟨hf, by simp, ?_⟩
  intro x hx
  rw [domain_replicate hx]
  exact mem_allVerticesInGraph_of_lt (hf.1 x hx) hsmall

theorem length_edgeToLast {n : Nat} (hn : 1 ≤ n) : (edgeToLast n).length = n + 1 := by
  simp [edgeToLast]
  omega

theorem hasEdge_edgeToLast {n u v : Nat} :
    hasEdge (edgeToLast n) u v = true ↔ (u = 0 ∧ v = n) ∨ (u = 1 ∧ v = 2) := by
  rw [hasEdge_iff]
  unfold edgeToLast
  match u with
  | 0 => simp
  | 1 => simp
  | k + 2 =>
    simp only [List.cons_append, List.nil_append, List.getElem?_cons_succ]
    constructor
    · rintro ⟨adj, hadj, hv⟩
      have := List.getElem?_mem hadj
      rw [List.eq_of_mem_replicate this] at hv
      cases hv
    · rintro (⟨h, _⟩ | ⟨h, _⟩) <;> omega

theorem mem_edges_edgePattern {u v : Nat} (h : (u, v) ∈ edges edgePattern) :
    u = 0 ∧ v = 1 := by
  have h1 : edges edgePattern = [(0, 1)] := by decide
  rw [h1] at h
  have := List.mem_singleton.1 h
  exact ⟨congrArg Prod.fst this, congrArg Prod.snd this⟩

/-- A function that sends the two pattern vertices `0`, `1` to the ends `x`, `y` of a host
edge, `x` and `y` distinct host vertices, embeds the pattern `0 -> 1`. -/
theorem isEmbedding_edgePattern {g : Graph} {x y : Nat} (hx : x < g.length)
    (hy : y < g.length) (hxy : x ≠ y) (he : hasEdge g x y = true) :
    IsEmbedding g edgePattern (fun u => if u = 0 then x else y) := by
  refine ⟨?_, ?_, ?_⟩
  · intro u _
    by_cases hu : u = 0
    · simp only [hu, if_true]; exact hx
    · simp only [hu, if_false]; exact hy
  · intro u hu v hv heq
    have h1 : u < 2 := hu
    have h2 : v < 2 := hv
    by_cases hu0 : u = 0
    · by_cases hv0 : v = 0
      · omega
      · simp only [hu0, hv0, if_true, if_false] at heq
        exact absurd heq hxy
    · by_cases hv0 : v = 0
      · simp only [hu0, hv0, if_true, if_false] at heq
        exact absurd heq.symm hxy
      · omega
  · intro u v huv
    obtain ⟨rfl, rfl⟩ := mem_edges_edgePattern huv
    simpa using he

theorem not_lexLe_of_first_gt {x y : Nat} {f : Nat → Nat} (h : f 0 < x) :
    ¬ LexLe [x, y] f := by
  rintro (hall | ⟨i, hi, hpre, hlt⟩)
  · have h0 := hall 0 (by simp)
    simp only [List.getD_cons_zero] at h0
    omega
  · have hi2 : i < 2 := by simpa using hi
    match i, hi2, hpre, hlt with
    | 0, _, _, hlt =>
      simp only [List.getD_cons_zero] at hlt
      omega
    | 1, _, hpre, _ =>
      have h0 := hpre 0 (by omega)
      simp only [List.getD_cons_zero] at h0
      omega

/-- The search on the host `edgeToLast n` with `n = 2 ^ 32` and the pattern `0 -> 1`. -/
theorem FindSubgraph_edgeToLast (n : Nat) (hn : n = 2 ^ UINT_BITS) :
    FindSubgraph (edgeToLast n) edgePattern = Outcome.ret (some [1, 2]) := by
  have hbig : 2 < n := by rw [hn]; decide
  have hlen : (edgeToLast n).length = n + 1 := length_edgeToLast (by omega)
  rcases FindSubgraph_cases (edgeToLast n) edgePattern (by decide) with h | h
  · obtain ⟨m, hm⟩ := h
    obtain ⟨_, hmlen, hval, _, hP, _⟩ := FindSubgraph_good hm
    have hedge := @validator_edges _ edgePattern m (by decide) hmlen hval 0 1 (by decide)
    match m, hmlen, hP, hedge, hm with
    | [x, y], _, hP, hedge, hm =>
      have hy : y < n := by
        rw [hn]; exact (mem_allVerticesInGraph (hP y (by simp))).2
      simp only [List.getD_cons_zero, List.getD_cons_succ] at hedge
      rcases hasEdge_edgeToLast.1 hedge with ⟨_, h2⟩ | ⟨h1, h2⟩
      · omega
      · rw [hm, h1, h2]
  · exfalso
    apply h.2
    refine ⟨fun u => if u = 0 then 1 else 2,
      isEmbedding_edgePattern (by omega) (by omega) (by omega)
        (hasEdge_edgeToLast.2 (Or.inr ⟨rfl, rfl⟩)), by simp, ?_⟩
    intro x hx
    rw [domain_replicate hx]
    apply mem_allVerticesInGraph_of_lt_lt
    · rw [hlen]
      by_cases hx0 : x = 0
      · simp only [hx0, if_true]; omega
      · simp only [hx0, if_false]; omega
    · rw [← hn]
      by_cases hx0 : x = 0
      · simp only [hx0, if_true]; omega
      · simp only [hx0, if_false]; omega

/-- C11, at a failing input: the host has `2 ^ 32 + 1` vertices and the two edges
`0 -> 2 ^ 32` and `1 -> 2`, the pattern is the single edge `0 -> 1`.  The valid embeddings
are `(0, 2 ^ 32)` and `(1, 2)`; `FindSubgraph` returns `[1, 2]`, which is not
lexicographically less than or equal to `(0, 2 ^ 32)`: the counter of `std::iota` is an
`unsigned int`, so no domain ever holds the host vertex `2 ^ 32`, and the propagator removes
the candidate `0` from the domain of the pattern vertex `0`. -/
theorem FindSubgraph_not_least_beyond_uint :
    IsEmbedding (edgeToLast (2 ^ UINT_BITS)) edgePattern
        (fun u => if u = 0 then 0 else 2 ^ UINT_BITS) ∧
      FindSubgraph (edgeToLast (2 ^ UINT_BITS)) edgePattern = Outcome.ret (some [1, 2]) ∧
      ¬ LexLe [1, 2] (fun u => if u = 0 then 0 else 2 ^ UINT_BITS) := by
  have hpos : 0 < 2 ^ UINT_BITS := Nat.pow_pos (by decide)
  have hlen : (edgeToLast (2 ^ UINT_BITS)).length = 2 ^ UINT_BITS + 1 :=
    length_edgeToLast hpos
  refine ⟨isEmbedding_edgePattern (by rw [hlen]; omega) (by rw [hlen]; omega) (by omega)
    (hasEdge_edgeToLast.2 (Or.inl ⟨rfl, rfl⟩)), FindSubgraph_edgeToLast _ rfl, ?_⟩
  exact not_lexLe_of_first_gt (by simp)

/-! ## Failed branches (C12) -/

/-- A failing run of the loop hands back the assignment it was entered with, when the
recursive call does. -/
theorem searchLoop_fail_restores {g sg : Graph} {next : Nat}
    {recurse : List Nat → Table → Outcome (Bool × List Nat)}
    (hrec : ∀ a2 pa2 a1, recurse a2 pa2 = Outcome.ret (false, a1) → a1 = a2) :
    ∀ (fuel : Nat) (a : List Nat) (pa : Table) (a' : List Nat),
      searchLoop recurse g sg next fuel a pa = Outcome.ret (false, a') → a' = a := by
  intro fuel
  induction fuel with
  | zero =>
    intro a pa a' h
    rcases hd : pa[next]? with _ | d
    · rw [searchLoop_none hd] at h; cases h
    · cases d with
      | nil => rw [searchLoop_nil hd] at h; cases h; rfl
      | cons c rest => rw [searchLoop_zero hd] at h; cases h
  | succ fuel ih =>
    intro a pa a' h
    rcases hd : pa[next]? with _ | d
    · rw [searchLoop_none hd] at h; cases h
    · cases d with
      | nil => rw [searchLoop_nil hd] at h; cases h; rfl
      | cons c rest =>
        rw [searchLoop_succ recurse hd] at h
        by_cases hca : a.contains c = true
        · simp only [if_pos hca] at h
          rcases hu : UpdatePossibleAssignments g sg
              (pa.set next ((domain pa next).eraseIdx 0)) with _ | ⟨pa2, b⟩
          · rw [hu] at h; cases h
          · rw [hu] at h; exact ih a pa2 a' h
        · simp only [if_neg hca] at h
          match hr : recurse (a ++ [c]) (pa.set next [c]) with
          | Outcome.fault => rw [hr] at h; cases h
          | Outcome.outOfFuel => rw [hr] at h; cases h
          | Outcome.ret (true, a1) => rw [hr] at h; cases h
          | Outcome.ret (false, a1) =>
            rw [hr] at h
            simp only [] at h
            have ha1 := hrec _ _ _ hr
            rcases hu : UpdatePossibleAssignments g sg
                (((pa.set next [c]).set next (c :: rest)).set next
                  ((domain ((pa.set next [c]).set next (c :: rest)) next).eraseIdx 0))
              with _ | ⟨pa2, b⟩
            · rw [hu] at h; cases h
            · rw [hu] at h
              have := ih a1.dropLast pa2 a' h
              rw [this, ha1, List.dropLast_concat]

/-- A call of the search that returns failure hands back the assignment it was given. -/
theorem FindSubgraphImpl_fail_restores (g sg : Graph) : ∀ (depth : Nat) (a : List Nat)
    (pa : Table) (a' : List Nat),
      FindSubgraphImpl g sg depth a pa = Outcome.ret (false, a') → a' = a := by
  intro depth
  induction depth with
  | zero => intro a pa a' h; rw [FindSubgraphImpl] at h; cases h
  | succ depth ih =>
    intro a pa a' h
    rw [FindSubgraphImpl_succ] at h
    rcases hv : DoAssignedEdgesExist g sg a with _ | b
    · rw [hv] at h; cases h
    · cases b with
      | false => rw [hv] at h; cases h; rfl
      | true =>
        rw [hv] at h
        simp only [] at h
        by_cases hfull : a.length = sg.length
        · rw [if_pos hfull] at h; cases h
        · rw [if_neg hfull] at h
          rcases hu : UpdatePossibleAssignments g sg pa with _ | ⟨pa1, b1⟩
          · rw [hu] at h; cases h
          · rw [hu] at h
            exact searchLoop_fail_restores ih _ a pa1 a' h

/-- The iteration of the loop after a failed branch: the loop goes on with the assignment
as it was before the commit and with the table as it was before the commit, the failed
candidate erased. -/
theorem searchLoop_after_failure {g sg : Graph} {next fuel : Nat}
    (recurse : List Nat → Table → Outcome (Bool × List Nat)) {a : List Nat} {pa : Table}
    {c : Nat} {rest : List Nat} (hd : pa[next]? = some (c :: rest)) (hc : c ∉ a)
    (hr : recurse (a ++ [c]) (pa.set next [c]) = Outcome.ret (false, a ++ [c])) :
    (pa.set next [c]).set next (c :: rest) = pa ∧
      searchLoop recurse g sg next (fuel + 1) a pa =
        match UpdatePossibleAssignments g sg (pa.set next rest) with
        | none => Outcome.fault
        | some (pa2, _) => searchLoop recurse g sg next fuel a pa2 := by
  have hrestore : (pa.set next [c]).set next (c :: rest) = pa := by
    rw [List.set_set]; exact set_eq_self hd
  refine ⟨hrestore, ?_⟩
  have hca : ¬ a.contains c = true := by simpa using hc
  rw [searchLoop_succ recurse hd, if_neg hca, hr]
  simp only []
  rw [hrestore, List.dropLast_concat, domain_of_getElem? hd, List.eraseIdx_cons_zero]

/-- C12: a failed branch is exactly reversed.  Every call of the search that returns
failure hands back the assignment it was given.  The table is passed by value, so the frame
still holds its own table after the call: it restores domain(next) from the saved copy,
which gives back the table of before the commit, and when the recursive call on the
candidate `c` has failed the loop goes on from the assignment and the table of before the
commit, with `c` erased from domain(next). -/
theorem FindSubgraphImpl_failure_reversed (graph subgraph : Graph) :
    (∀ depth a pa a', FindSubgraphImpl graph subgraph depth a pa = Outcome.ret (false, a') →
        a' = a) ∧
      ∀ (depth fuel : Nat) (a : List Nat) (pa : Table) (c : Nat) (rest : List Nat) (a' : List Nat),
        pa[a.length]? = some (c :: rest) → c ∉ a →
        FindSubgraphImpl graph subgraph depth (a ++ [c]) (pa.set a.length [c]) =
          Outcome.ret (false, a') →
        a'.dropLast = a ∧ (pa.set a.length [c]).set a.length (c :: rest) = pa ∧
          searchLoop (FindSubgraphImpl graph subgraph depth) graph subgraph a.length
              (fuel + 1) a pa =
            match UpdatePossibleAssignments graph subgraph (pa.set a.length rest) with
            | none => Outcome.fault
            | some (pa2, _) =>
              searchLoop (FindSubgraphImpl graph subgraph depth) graph subgraph a.length
                fuel a pa2 := by
  refine ⟨FindSubgraphImpl_fail_restores graph subgraph, ?_⟩
  intro depth fuel a pa c rest a' hd hc hr
  have ha' := FindSubgraphImpl_fail_restores graph subgraph _ _ _ _ hr
  subst ha'
  exact ⟨List.dropLast_concat, searchLoop_after_failure _ hd hc hr⟩

/-- Witness of C12: on the host line `0 -> 1 -> 2` and the pattern line `0 -> 1 -> 2 -> 3`,
the call with the pattern vertex `0` committed to the host vertex `0` fails and hands back
the assignment `[0]`. -/
theorem FindSubgraphImpl_failure_reversed_witness :
    FindSubgraphImpl line3 line4 4 [0] [[0], [0, 1], [0, 1], [0, 1, 2]] =
        Outcome.ret (false, [0]) ∧
      [0].dropLast = ([] : List Nat) ∧
      ([[0, 1], [0, 1], [0, 1], [0, 1, 2]].set 0 [0]).set 0 (0 :: [1]) =
        [[0, 1], [0, 1], [0, 1], [0, 1, 2]] :=
  ⟨by decide,
    ((FindSubgraphImpl_failure_reversed line3 line4).2 4 1 []
      [[0, 1], [0, 1], [0, 1], [0, 1, 2]] 0 [1] [0] (by decide) (by decide) (by decide)).1,
    ((FindSubgraphImpl_failure_reversed line3 line4).2 4 1 []
      [[0, 1], [0, 1], [0, 1], [0, 1, 2]] 0 [1] [0] (by decide) (by decide) (by decide)).2.1⟩

/-! ## The search with a record of its commits and calls (C13, C18) -/

theorem searchLoopTraced_none
    {recurse : List Nat → Table → Outcome (Bool × List Nat) × List Call}
    {g sg : Graph} {next fuel : Nat} {a : List Nat} {pa : Table} (h : pa[next]? = none) :
    searchLoopTraced recurse g sg next fuel a pa = (Outcome.fault, [], []) := by
  cases fuel <;> simp [searchLoopTraced, h]

theorem searchLoopTraced_nil
    {recurse : List Nat → Table → Outcome (Bool × List Nat) × List Call}
    {g sg : Graph} {next fuel : Nat} {a : List Nat} {pa : Table} (h : pa[next]? = some []) :
    searchLoopTraced recurse g sg next fuel a pa = (Outcome.ret (false, a), [], []) := by
  cases fuel <;> simp [searchLoopTraced, h]

theorem searchLoopTraced_zero
    {recurse : List Nat → Table → Outcome (Bool × List Nat) × List Call}
    {g sg : Graph} {next : Nat} {a : List Nat} {pa : Table} {c : Nat} {rest : List Nat}
    (h : pa[next]? = some (c :: rest)) :
    searchLoopTraced recurse g sg next 0 a pa = (Outcome.outOfFuel, [], []) := by
  simp [searchLoopTraced, h]

theorem searchLoopTraced_succ
    (recurse : List Nat → Table → Outcome (Bool × List Nat) × List Call)
    {g sg : Graph} {next fuel : Nat} {a : List Nat} {pa : Table} {c : Nat} {rest : List Nat}
    (h : pa[next]? = some (c :: rest)) :
    searchLoopTraced recurse g sg next (fuel + 1) a pa =
      if a.contains c then
        match UpdatePossibleAssignments g sg (pa.set next ((domain pa next).eraseIdx 0)) with
        | none => (Outcome.fault, [], [])
        | some (pa2, _) => searchLoopTraced recurse g sg next fuel a pa2
      else
        match recurse (a ++ [c]) (pa.set next [c]) with
        | (Outcome.fault, calls) => (Outcome.fault, [c], calls)
        | (Outcome.outOfFuel, calls) => (Outcome.outOfFuel, [c], calls)
        | (Outcome.ret (true, a1), calls) => (Outcome.ret (true, a1), [c], calls)
        | (Outcome.ret (false, a1), calls) =>
          ((match UpdatePossibleAssignments g sg
              (((pa.set next [c]).set next (c :: rest)).set next
                ((domain ((pa.set next [c]).set next (c :: rest)) next).eraseIdx 0)) with
            | none => (Outcome.fault, [], [])
            | some (pa2, _) => searchLoopTraced recurse g sg next fuel a1.dropLast pa2).1,
           c :: (match UpdatePossibleAssignments g sg
              (((pa.set next [c]).set next (c :: rest)).set next
                ((domain ((pa.set next [c]).set next (c :: rest)) next).eraseIdx 0)) with
            | none => (Outcome.fault, [], [])
            | some (pa2, _) => searchLoopTraced recurse g sg next fuel a1.dropLast pa2).2.1,
           calls ++ (match UpdatePossibleAssignments g sg
              (((pa.set next [c]).set next (c :: rest)).set next
                ((domain ((pa.set next [c]).set next (c :: rest)) next).eraseIdx 0)) with
            | none => (Outcome.fault, [], [])
            | some (pa2, _) => searchLoopTraced recurse g sg next fuel a1.dropLast pa2).2.2) := by
  rw [searchLoopTraced]
  simp only [h]

theorem FindSubgraphImplTraced_succ (g sg : Graph) (depth : Nat) (a : List Nat) (pa : Table) :
    FindSubgraphImplTraced g sg (depth + 1) a pa =
      match DoAssignedEdgesExist g sg a with
      | none => (Outcome.fault, [(a, pa)])
      | some false => (Outcome.ret (false, a), [(a, pa)])
      | some true =>
        if a.length = sg.length then (Outcome.ret (true, a), [(a, pa)])
        else
          match UpdatePossibleAssignments g sg pa with
          | none => (Outcome.fault, [(a, pa)])
          | some (pa1, _) =>
            ((searchLoopTraced (FindSubgraphImplTraced g sg depth) g sg a.length
                (domain pa1 a.length).length a pa1).1,
              (a, pa) :: (searchLoopTraced (FindSubgraphImplTraced g sg depth) g sg a.length
                (domain pa1 a.length).length a pa1).2.2) := by
  rw [FindSubgraphImplTraced]

/-- The outcome of the loop with a record is the outcome of the loop. -/
theorem searchLoopTraced_fst {g sg : Graph} {next : Nat}
    (recurse : List Nat → Table → Outcome (Bool × List Nat) × List Call) :
    ∀ (fuel : Nat) (a : List Nat) (pa : Table),
      (searchLoopTraced recurse g sg next fuel a pa).1 =
        searchLoop (fun a2 pa2 => (recurse a2 pa2).1) g sg next fuel a pa := by
  intro fuel
  induction fuel with
  | zero =>
    intro a pa
    rcases hd : pa[next]? with _ | d
    · rw [searchLoopTraced_none hd, searchLoop_none hd]
    · cases d with
      | nil => rw [searchLoopTraced_nil hd, searchLoop_nil hd]
      | cons c rest => rw [searchLoopTraced_zero hd, searchLoop_zero hd]
  | succ fuel ih =>
    intro a pa
    rcases hd : pa[next]? with _ | d
    · rw [searchLoopTraced_none hd, searchLoop_none hd]
    · cases d with
      | nil => rw [searchLoopTraced_nil hd, searchLoop_nil hd]
      | cons c rest =>
        rw [searchLoopTraced_succ recurse hd, searchLoop_succ _ hd]
        by_cases hca : a.contains c = true
        · simp only [if_pos hca]
          rcases hu : UpdatePossibleAssignments g sg
              (pa.set next ((domain pa next).eraseIdx 0)) with _ | ⟨pa2, b⟩
          · rfl
          · exact ih a pa2
        · simp only [if_neg hca]
          match hr : recurse (a ++ [c]) (pa.set next [c]) with
          | (Outcome.fault, calls) => rfl
          | (Outcome.outOfFuel, calls) => rfl
          | (Outcome.ret (true, a1), calls) => rfl
          | (Outcome.ret (false, a1), calls) =>
            simp only []
            rcases hu : UpdatePossibleAssignments g sg
                (((pa.set next [c]).set next (c :: rest)).set next
                  ((domain ((pa.set next [c]).set next (c :: rest)) next).eraseIdx 0))
              with _ | ⟨pa2, b⟩
            · rfl
            · exact ih a1.dropLast pa2

/-- The outcome of the search with a record is the outcome of the search. -/
theorem FindSubgraphImplTraced_fst (g sg : Graph) : ∀ (depth : Nat) (a : List Nat)
    (pa : Table), (FindSubgraphImplTraced g sg depth a pa).1 = FindSubgraphImpl g sg depth a pa := by
  intro depth
  induction depth with
  | zero => intro a pa; rw [FindSubgraphImplTraced, FindSubgraphImpl]
  | succ depth ih =>
    intro a pa
    rw [FindSubgraphImplTraced_succ, FindSubgraphImpl_succ]
    rcases hv : DoAssignedEdgesExist g sg a with _ | b
    · rfl
    · cases b with
      | false => rfl
      | true =>
        simp only []
        by_cases hfull : a.length = sg.length
        · rw [if_pos hfull, if_pos hfull]
        · rw [if_neg hfull, if_neg hfull]
          rcases hu : UpdatePossibleAssignments g sg pa with _ | ⟨pa1, b1⟩
          · rfl
          · simp only []
            rw [searchLoopTraced_fst]
            have hfun : (fun a2 pa2 => (FindSubgraphImplTraced g sg depth a2 pa2).1) =
                FindSubgraphImpl g sg depth := by
              funext a2 pa2
              exact ih a2 pa2
            rw [hfun]

theorem FindSubgraphImplTraced_fail_restores (g sg : Graph) (depth : Nat) (a : List Nat)
    (pa : Table) (a' : List Nat)
    (h : (FindSubgraphImplTraced g sg depth a pa).1 = Outcome.ret (false, a')) : a' = a := by
  rw [FindSubgraphImplTraced_fst] at h
  exact FindSubgraphImpl_fail_restores g sg depth a pa a' h

/-- Every call made during the loop satisfies `Q`, when the calls made during the recursive
calls do. -/
theorem searchLoopTraced_calls {g sg : Graph} {next : Nat}
    {recurse : List Nat → Table → Outcome (Bool × List Nat) × List Call} {Q : Call → Prop}
    {a : List Nat}
    (hrecR : ∀ a2 pa2 a1, (recurse a2 pa2).1 = Outcome.ret (false, a1) → a1 = a2)
    (hrecC : ∀ c pa2, c ∉ a → ∀ call ∈ (recurse (a ++ [c]) pa2).2, Q call) :
    ∀ (fuel : Nat) (pa : Table),
      ∀ call ∈ (searchLoopTraced recurse g sg next fuel a pa).2.2, Q call := by
  intro fuel
  induction fuel with
  | zero =>
    intro pa call hcall
    rcases hd : pa[next]? with _ | d
    · rw [searchLoopTraced_none hd] at hcall; cases hcall
    · cases d with
      | nil => rw [searchLoopTraced_nil hd] at hcall; cases hcall
      | cons c rest => rw [searchLoopTraced_zero hd] at hcall; cases hcall
  | succ fuel ih =>
    intro pa call hcall
    rcases hd : pa[next]? with _ | d
    · rw [searchLoopTraced_none hd] at hcall; cases hcall
    · cases d with
      | nil => rw [searchLoopTraced_nil hd] at hcall; cases hcall
      | cons c rest =>
        rw [searchLoopTraced_succ recurse hd] at hcall
        by_cases hca : a.contains c = true
        · simp only [if_pos hca] at hcall
          rcases hu : UpdatePossibleAssignments g sg
              (pa.set next ((domain pa next).eraseIdx 0)) with _ | ⟨pa2, b⟩
          · rw [hu] at hcall; cases hcall
          · rw [hu] at hcall; exact ih pa2 call hcall
        · simp only [if_neg hca] at hcall
          have hnmem : c ∉ a := by simpa using hca
          have hC := hrecC c (pa.set next [c]) hnmem
          match hr : recurse (a ++ [c]) (pa.set next [c]) with
          | (Outcome.fault, calls) =>
            rw [hr] at hcall hC; exact hC call hcall
          | (Outcome.outOfFuel, calls) =>
            rw [hr] at hcall hC; exact hC call hcall
          | (Outcome.ret (true, a1), calls) =>
            rw [hr] at hcall hC; exact hC call hcall
          | (Outcome.ret (false, a1), calls) =>
            rw [hr] at hcall hC
            simp only [] at hcall
            have ha1 : a1 = a ++ [c] := hrecR _ _ a1 (by rw [hr])
            rcases List.mem_append.1 hcall with h1 | h1
            · exact hC call h1
            · rcases hu : UpdatePossibleAssignments g sg
                  (((pa.set next [c]).set next (c :: rest)).set next
                    ((domain ((pa.set next [c]).set next (c :: rest)) next).eraseIdx 0))
                with _ | ⟨pa2, b⟩
              · rw [hu] at h1; cases h1
              · rw [hu, ha1, List.dropLast_concat] at h1
                exact ih pa2 call h1

/-- Every call made during a run of the search that is entered with a duplicate-free
assignment no longer than the pattern vertex count is made with such an assignment. -/
theorem FindSubgraphImplTraced_calls (g sg : Graph) : ∀ (depth : Nat) (a : List Nat)
    (pa : Table), a.Nodup → a.length ≤ sg.length →
      ∀ call ∈ (FindSubgraphImplTraced g sg depth a pa).2,
        call.1.Nodup ∧ call.1.length ≤ sg.length := by
  intro depth
  induction depth with
  | zero =>
    intro a pa hnd hlen call hcall
    rw [FindSubgraphImplTraced] at hcall
    rw [List.mem_singleton.1 hcall]
    exact ⟨hnd, hlen⟩
  | succ depth ih =>
    intro a pa hnd hlen call hcall
    rw [FindSubgraphImplTraced_succ] at hcall
    have hself : call = (a, pa) → call.1.Nodup ∧ call.1.length ≤ sg.length := by
      intro he; rw [he]; exact ⟨hnd, hlen⟩
    rcases hv : DoAssignedEdgesExist g sg a with _ | b
    · rw [hv] at hcall; exact hself (List.mem_singleton.1 hcall)
    · cases b with
      | false => rw [hv] at hcall; exact hself (List.mem_singleton.1 hcall)
      | true =>
        rw [hv] at hcall
        simp only [] at hcall
        by_cases hfull : a.length = sg.length
        · rw [if_pos hfull] at hcall; exact hself (List.mem_singleton.1 hcall)
        · rw [if_neg hfull] at hcall
          rcases hu : UpdatePossibleAssignments g sg pa with _ | ⟨pa1, b1⟩
          · rw [hu] at hcall; exact hself (List.mem_singleton.1 hcall)
          · rw [hu] at hcall
            simp only [] at hcall
            rcases List.mem_cons.1 hcall with h1 | h1
            · exact hself h1
            · refine searchLoopTraced_calls (FindSubgraphImplTraced_fail_restores g sg depth)
                (fun c pa2 hc => ih (a ++ [c]) pa2 ?_ ?_) _ pa1 call h1
              · rw [List.nodup_append]
                refine ⟨hnd, List.nodup_singleton c, ?_⟩
                intro x hx hx'
                rw [List.mem_singleton] at hx'
                subst hx'
                exact hc hx
              · rw [List.length_append, List.length_singleton]; omega

/-- The candidates committed by the loop form a sublist of the members of domain(next) at
loop entry that do not appear in the assignment. -/
theorem searchLoopTraced_commits_sublist {g sg : Graph} {next : Nat}
    {recurse : List Nat → Table → Outcome (Bool × List Nat) × List Call} {a : List Nat}
    (hrecR : ∀ a2 pa2 a1, (recurse a2 pa2).1 = Outcome.ret (false, a1) → a1 = a2) :
    ∀ (fuel : Nat) (pa : Table),
      (searchLoopTraced recurse g sg next fuel a pa).2.1.Sublist
        ((domain pa next).filter (fun c => !a.contains c)) := by
  intro fuel
  induction fuel with
  | zero =>
    intro pa
    rcases hd : pa[next]? with _ | d
    · rw [searchLoopTraced_none hd]; exact List.nil_sublist _
    · cases d with
      | nil => rw [searchLoopTraced_nil hd]; exact List.nil_sublist _
      | cons c rest => rw [searchLoopTraced_zero hd]; exact List.nil_sublist _
  | succ fuel ih =>
    intro pa
    rcases hd : pa[next]? with _ | d
    · rw [searchLoopTraced_none hd]; exact List.nil_sublist _
    · cases d with
      | nil => rw [searchLoopTraced_nil hd]; exact List.nil_sublist _
      | cons c rest =>
        have hx : next < pa.length := lt_length_of_getElem? hd
        have hdom : domain pa next = c :: rest := domain_of_getElem? hd
        -- the run after the erasure of the first candidate
        have hlater : ∀ pa2 b, UpdatePossibleAssignments g sg (pa.set next rest) = some (pa2, b) →
            (searchLoopTraced recurse g sg next fuel a pa2).2.1.Sublist
              (rest.filter (fun c => !a.contains c)) := by
          intro pa2 b hu
          obtain ⟨_, hsub, _⟩ := Update_shape hu
          have h1 := hsub next
          rw [domain_set_self hx] at h1
          exact (ih pa2).trans (h1.filter _)
        rw [searchLoopTraced_succ recurse hd, hdom]
        by_cases hca : a.contains c = true
        · simp only [if_pos hca, List.eraseIdx_cons_zero]
          rw [List.filter_cons_of_neg (by simpa using hca)]
          rcases hu : UpdatePossibleAssignments g sg (pa.set next rest) with _ | ⟨pa2, b⟩
          · exact List.nil_sublist _
          · exact hlater pa2 b hu
        · simp only [if_neg hca]
          rw [List.filter_cons_of_pos (by simpa using hca)]
          have hsingle : [c].Sublist (c :: rest.filter (fun c => !a.contains c)) :=
            (List.nil_sublist _).cons₂ c
          match hr : recurse (a ++ [c]) (pa.set next [c]) with
          | (Outcome.fault, calls) => exact hsingle
          | (Outcome.outOfFuel, calls) => exact hsingle
          | (Outcome.ret (true, a1), calls) => exact hsingle
          | (Outcome.ret (false, a1), calls) =>
            simp only []
            have ha1 : a1 = a ++ [c] := hrecR _ _ a1 (by rw [hr])
            have hrestore : (pa.set next [c]).set next (c :: rest) = pa := by
              rw [List.set_set]; exact set_eq_self hd
            rw [hrestore, hdom, ha1, List.dropLast_concat, List.eraseIdx_cons_zero]
            apply List.Sublist.cons₂
            rcases hu : UpdatePossibleAssignments g sg (pa.set next rest) with _ | ⟨pa2, b⟩
            · exact List.nil_sublist _
            · exact hlater pa2 b hu

theorem FindSubgraphImplTraced_self_mem (g sg : Graph) (depth : Nat) (a : List Nat)
    (pa : Table) : (a, pa) ∈ (FindSubgraphImplTraced g sg depth a pa).2 := by
  cases depth with
  | zero => rw [FindSubgraphImplTraced]; exact List.mem_singleton_self _
  | succ depth =>
    rw [FindSubgraphImplTraced_succ]
    rcases hv : DoAssignedEdgesExist g sg a with _ | b
    · exact List.mem_singleton_self _
    · cases b with
      | false => exact List.mem_singleton_self _
      | true =>
        simp only []
        by_cases hfull : a.length = sg.length
        · rw [if_pos hfull]; exact List.mem_singleton_self _
        · rw [if_neg hfull]
          rcases hu : UpdatePossibleAssignments g sg pa with _ | ⟨pa1, b1⟩
          · exact List.mem_singleton_self _
          · exact List.mem_cons_self _ _

/-- C18: in every call of the search made during a run of `FindSubgraph` (the record
`FindSubgraphCalls` of the run, whose outcome is the outcome of the search, and which starts
with the initial call on the empty assignment and the full domains), the assignment passed
in has pairwise distinct entries and length at most the pattern vertex count. -/
theorem FindSubgraph_calls_assignment_injective (graph subgraph : Graph) :
    (FindSubgraphImplTraced graph subgraph (subgraph.length + 1) []
        (List.replicate subgraph.length (allVerticesInGraph graph.length))).1 =
      FindSubgraphImpl graph subgraph (subgraph.length + 1) []
        (List.replicate subgraph.length (allVerticesInGraph graph.length)) ∧
    (([] : List Nat), List.replicate subgraph.length (allVerticesInGraph graph.length)) ∈
      FindSubgraphCalls graph subgraph ∧
    ∀ call ∈ FindSubgraphCalls graph subgraph,
      call.1.Nodup ∧ call.1.length ≤ subgraph.length ∧
        ∀ i j, i < j → j < call.1.length → call.1.getD i 0 ≠ call.1.getD j 0 := by
  refine ⟨FindSubgraphImplTraced_fst graph subgraph _ _ _,
    FindSubgraphImplTraced_self_mem graph subgraph _ _ _, ?_⟩
  intro call hcall
  obtain ⟨hnd, hlen⟩ := FindSubgraphImplTraced_calls graph subgraph _ [] _ List.nodup_nil
    (Nat.zero_le _) call hcall
  exact ⟨hnd, hlen, fun i j hij hj => nodup_getD_ne hnd hij hj⟩

/-! ## The candidates of a frame (C13) -/

theorem searchLoopErased_none
    {recurse : List Nat → Table → Outcome (Bool × List Nat) × List Call}
    {g sg : Graph} {next fuel : Nat} {a : List Nat} {pa : Table} (h : pa[next]? = none) :
    searchLoopErased recurse g sg next fuel a pa = [] := by
  cases fuel <;> simp [searchLoopErased, h]

theorem searchLoopErased_nil
    {recurse : List Nat → Table → Outcome (Bool × List Nat) × List Call}
    {g sg : Graph} {next fuel : Nat} {a : List Nat} {pa : Table} (h : pa[next]? = some []) :
    searchLoopErased recurse g sg next fuel a pa = [] := by
  cases fuel <;> simp [searchLoopErased, h]

theorem searchLoopErased_zero
    {recurse : List Nat → Table → Outcome (Bool × List Nat) × List Call}
    {g sg : Graph} {next : Nat} {a : List Nat} {pa : Table} {c : Nat} {rest : List Nat}
    (h : pa[next]? = some (c :: rest)) :
    searchLoopErased recurse g sg next 0 a pa = [] := by
  simp [searchLoopErased, h]

theorem searchLoopErased_succ
    (recurse : List Nat → Table → Outcome (Bool × List Nat) × List Call)
    {g sg : Graph} {next fuel : Nat} {a : List Nat} {pa : Table} {c : Nat} {rest : List Nat}
    (h : pa[next]? = some (c :: rest)) :
    searchLoopErased recurse g sg next (fuel + 1) a pa =
      if a.contains c then
        match UpdatePossibleAssignments g sg (pa.set next ((domain pa next).eraseIdx 0)) with
        | none => []
        | some (pa2, _) =>
          ((domain pa next).eraseIdx 0).diff (domain pa2 next) ++
            searchLoopErased recurse g sg next fuel a pa2
      else
        match recurse (a ++ [c]) (pa.set next [c]) with
        | (Outcome.fault, _) => []
        | (Outcome.outOfFuel, _) => []
        | (Outcome.ret (true, _), _) => []
        | (Outcome.ret (false, a1), _) =>
          match UpdatePossibleAssignments g sg
              (((pa.set next [c]).set next (c :: rest)).set next
                ((domain ((pa.set next [c]).set next (c :: rest)) next).eraseIdx 0)) with
          | none => []
          | some (pa2, _) =>
            ((domain ((pa.set next [c]).set next (c :: rest)) next).eraseIdx 0).diff
                (domain pa2 next) ++
              searchLoopErased recurse g sg next fuel a1.dropLast pa2 := by
  rw [searchLoopErased]
  simp only [h]

/-- In a duplicate-free list, the members that belong to a sublist are that sublist. -/
theorem filter_contains_of_sublist {d l : List Nat} (hsub : d.Sublist l) (hnd : l.Nodup) :
    l.filter (fun x => d.contains x) = d := by
  induction hsub with
  | slnil => rfl
  | @cons d l x hsub ih =>
    obtain ⟨hx, hl⟩ := List.nodup_cons.1 hnd
    have hxd : x ∉ d := fun h => hx (hsub.subset h)
    rw [List.filter_cons_of_neg (by simpa using hxd)]
    exact ih hl
  | @cons₂ d l x hsub ih =>
    obtain ⟨hx, hl⟩ := List.nodup_cons.1 hnd
    rw [List.filter_cons_of_pos (by simp)]
    have hcongr : l.filter (fun y => (x :: d).contains y) =
        l.filter (fun y => d.contains y) := by
      apply List.filter_congr
      intro y hy
      have hyx : y ≠ x := fun h => hx (h ▸ hy)
      simp [hyx]
    rw [hcongr, ih hl]

/-- The members of a duplicate-free list that the pass has not removed are the output of the
pass. -/
theorem filter_not_removed {d l : List Nat} (hsub : d.Sublist l) (hnd : l.Nodup) :
    l.filter (fun x => !(l.filter (fun y => !d.contains y)).contains x) = d := by
  rw [← filter_contains_of_sublist hsub hnd]
  apply List.filter_congr
  intro x hx
  have : x ∈ l.filter (fun x => d.contains x) ↔ x ∈ d := by
    rw [filter_contains_of_sublist hsub hnd]
  by_cases hxd : x ∈ d
  · simp [hxd, hx, this]
  · simp [hxd, hx, this]

/-- The members of a duplicate-free list that are not in its difference with a sublist are
that sublist. -/
theorem filter_not_diff {d l : List Nat} (hsub : d.Sublist l) (hnd : l.Nodup) :
    l.filter (fun x => !(l.diff d).contains x) = d := by
  have hdiff : l.diff d = l.filter (fun y => !d.contains y) := by
    rw [hnd.diff_eq_filter]
    apply List.filter_congr
    intro x _
    simp
  rw [hdiff]
  exact filter_not_removed hsub hnd

/-- The candidates removed by the re-run passes are members of domain(next) at loop entry
other than the first. -/
theorem searchLoopErased_subset {g sg : Graph} {next : Nat}
    {recurse : List Nat → Table → Outcome (Bool × List Nat) × List Call} :
    ∀ (fuel : Nat) (a : List Nat) (pa : Table),
      ∀ x ∈ searchLoopErased recurse g sg next fuel a pa,
        x ∈ (domain pa next).eraseIdx 0 := by
  intro fuel
  induction fuel with
  | zero =>
    intro a pa x hxE
    rcases hd : pa[next]? with _ | d
    · rw [searchLoopErased_none hd] at hxE; cases hxE
    · cases d with
      | nil => rw [searchLoopErased_nil hd] at hxE; cases hxE
      | cons c rest => rw [searchLoopErased_zero hd] at hxE; cases hxE
  | succ fuel ih =>
    intro a pa x hxE
    rcases hd : pa[next]? with _ | d
    · rw [searchLoopErased_none hd] at hxE; cases hxE
    · cases d with
      | nil => rw [searchLoopErased_nil hd] at hxE; cases hxE
      | cons c rest =>
        have hx : next < pa.length := lt_length_of_getElem? hd
        have hdom : domain pa next = c :: rest := domain_of_getElem? hd
        have hK : ∀ a2 pa2 b, UpdatePossibleAssignments g sg (pa.set next rest) =
              some (pa2, b) →
            x ∈ rest.diff (domain pa2 next) ++
                searchLoopErased recurse g sg next fuel a2 pa2 → x ∈ rest := by
          intro a2 pa2 b hu hmem
          obtain ⟨_, hsub, _⟩ := Update_shape hu
          have hsub1 : (domain pa2 next).Sublist rest := by
            have := hsub next
            rwa [domain_set_self hx] at this
          rcases List.mem_append.1 hmem with h1 | h1
          · exact List.diff_subset _ _ h1
          · exact hsub1.subset (List.mem_of_mem_eraseIdx (ih a2 pa2 x h1))
        rw [searchLoopErased_succ recurse hd, hdom] at hxE
        rw [hdom, List.eraseIdx_cons_zero]
        by_cases hca : a.contains c = true
        · simp only [if_pos hca, List.eraseIdx_cons_zero] at hxE
          rcases hu : UpdatePossibleAssignments g sg (pa.set next rest) with _ | ⟨pa2, b⟩
          · rw [hu] at hxE; cases hxE
          · rw [hu] at hxE; exact hK a pa2 b hu hxE
        · simp only [if_neg hca] at hxE
          match hr : recurse (a ++ [c]) (pa.set next [c]) with
          | (Outcome.fault, calls) => rw [hr] at hxE; cases hxE
          | (Outcome.outOfFuel, calls) => rw [hr] at hxE; cases hxE
          | (Outcome.ret (true, a1), calls) => rw [hr] at hxE; cases hxE
          | (Outcome.ret (false, a1), calls) =>
            rw [hr] at hxE
            simp only [] at hxE
            have hrestore : (pa.set next [c]).set next (c :: rest) = pa := by
              rw [List.set_set]; exact set_eq_self hd
            rw [hrestore, hdom] at hxE
            simp only [List.eraseIdx_cons_zero] at hxE
            rcases hu : UpdatePossibleAssignments g sg (pa.set next rest) with _ | ⟨pa2, b⟩
            · rw [hu] at hxE; cases hxE
            · rw [hu] at hxE; exact hK a1.dropLast pa2 b hu hxE

/-- The record of the loop, for a duplicate-free domain(next) at loop entry: the committed
candidates are the first members of domain(next) that are neither in the assignment nor
removed by a re-run pass, and they are all of them when the loop returns failure. -/
theorem searchLoop_record {g sg : Graph} {next : Nat}
    {recurse : List Nat → Table → Outcome (Bool × List Nat) × List Call} {a : List Nat}
    (hrecR : ∀ a2 pa2 a1, (recurse a2 pa2).1 = Outcome.ret (false, a1) → a1 = a2) :
    ∀ (fuel : Nat) (pa : Table), (domain pa next).Nodup →
      (searchLoopTraced recurse g sg next fuel a pa).2.1 <+:
        (domain pa next).filter (fun x => !a.contains x &&
          !(searchLoopErased recurse g sg next fuel a pa).contains x) ∧
      ∀ a', (searchLoopTraced recurse g sg next fuel a pa).1 = Outcome.ret (false, a') →
        (searchLoopTraced recurse g sg next fuel a pa).2.1 =
          (domain pa next).filter (fun x => !a.contains x &&
            !(searchLoopErased recurse g sg next fuel a pa).contains x) := by
  intro fuel
  induction fuel with
  | zero =>
    intro pa _
    rcases hd : pa[next]? with _ | d
    · rw [searchLoopTraced_none hd, searchLoopErased_none hd]
      have hdom : domain pa next = [] := by
        simp [domain, List.getD_eq_getElem?_getD, hd]
      rw [hdom]
      exact ⟨List.prefix_refl _, fun _ _ => rfl⟩
    · cases d with
      | nil =>
        rw [searchLoopTraced_nil hd, searchLoopErased_nil hd, domain_of_getElem? hd]
        exact ⟨List.prefix_refl _, fun _ _ => rfl⟩
      | cons c rest =>
        rw [searchLoopTraced_zero hd, searchLoopErased_zero hd]
        exact ⟨List.nil_prefix, fun _ h => by cases h⟩
  | succ fuel ih =>
    intro pa hnd
    rcases hd : pa[next]? with _ | d
    · rw [searchLoopTraced_none hd, searchLoopErased_none hd]
      have hdom : domain pa next = [] := by
        simp [domain, List.getD_eq_getElem?_getD, hd]
      rw [hdom]
      exact ⟨List.prefix_refl _, fun _ _ => rfl⟩
    · cases d with
      | nil =>
        rw [searchLoopTraced_nil hd, searchLoopErased_nil hd, domain_of_getElem? hd]
        exact ⟨List.prefix_refl _, fun _ _ => rfl⟩
      | cons c rest =>
        have hx : next < pa.length := lt_length_of_getElem? hd
        have hdom : domain pa next = c :: rest := domain_of_getElem? hd
        rw [hdom] at hnd
        obtain ⟨hcrest, hrestnd⟩ := List.nodup_cons.1 hnd
        -- the run after the erasure of the first candidate
        have hK : ∀ pa2 b, UpdatePossibleAssignments g sg (pa.set next rest) = some (pa2, b) →
            c ∉ searchLoopErased recurse g sg next fuel a pa2 ∧
            (searchLoopTraced recurse g sg next fuel a pa2).2.1 <+:
              rest.filter (fun x => !a.contains x &&
                !(rest.diff (domain pa2 next) ++
                  searchLoopErased recurse g sg next fuel a pa2).contains x) ∧
            ∀ a', (searchLoopTraced recurse g sg next fuel a pa2).1 =
                Outcome.ret (false, a') →
              (searchLoopTraced recurse g sg next fuel a pa2).2.1 =
                rest.filter (fun x => !a.contains x &&
                  !(rest.diff (domain pa2 next) ++
                    searchLoopErased recurse g sg next fuel a pa2).contains x) := by
          intro pa2 b hu
          obtain ⟨_, hsub, _⟩ := Update_shape hu
          have hsub1 : (domain pa2 next).Sublist rest := by
            have := hsub next
            rwa [domain_set_self hx] at this
          obtain ⟨hpre, heq⟩ := ih pa2 (hrestnd.sublist hsub1)
          have hfilter : rest.filter (fun x => !a.contains x &&
                !(rest.diff (domain pa2 next) ++
                  searchLoopErased recurse g sg next fuel a pa2).contains x) =
              (domain pa2 next).filter (fun x => !a.contains x &&
                !(searchLoopErased recurse g sg next fuel a pa2).contains x) := by
            conv_rhs => rw [← filter_not_diff hsub1 hrestnd, List.filter_filter]
            apply List.filter_congr
            intro x _
            simp only [List.contains_eq_any_beq, List.any_append, Bool.not_or]
            rw [Bool.and_assoc]
            congr 1
            exact Bool.and_comm _ _
          refine ⟨?_, by rw [hfilter]; exact hpre, fun a' h => by rw [hfilter]; exact heq a' h⟩
          intro hcE
          exact hcrest (hsub1.subset (List.mem_of_mem_eraseIdx
            (searchLoopErased_subset fuel a pa2 c hcE)))
        rw [searchLoopTraced_succ recurse hd, searchLoopErased_succ recurse hd, hdom]
        by_cases hca : a.contains c = true
        · simp only [if_pos hca, List.eraseIdx_cons_zero]
          have hF : ∀ E : List Nat, (c :: rest).filter (fun x => !a.contains x &&
              !E.contains x) = rest.filter (fun x => !a.contains x && !E.contains x) := by
            intro E
            have hmem : c ∈ a := by simpa using hca
            rw [List.filter_cons_of_neg (by simp [hmem])]
          rcases hu : UpdatePossibleAssignments g sg (pa.set next rest) with _ | ⟨pa2, b⟩
          · exact ⟨List.nil_prefix, fun _ h => by cases h⟩
          · simp only []
            rw [hF]
            exact (hK pa2 b hu).2
        · simp only [if_neg hca]
          have hnmem : c ∉ a := by simpa using hca
          match hr : recurse (a ++ [c]) (pa.set next [c]) with
          | (Outcome.fault, calls) =>
            refine ⟨?_, fun _ h => by cases h⟩
            rw [List.filter_cons_of_pos (by simpa using hnmem)]
            exact ⟨_, rfl⟩
          | (Outcome.outOfFuel, calls) =>
            refine ⟨?_, fun _ h => by cases h⟩
            rw [List.filter_cons_of_pos (by simpa using hnmem)]
            exact ⟨_, rfl⟩
          | (Outcome.ret (true, a1), calls) =>
            refine ⟨?_, fun _ h => by cases h⟩
            rw [List.filter_cons_of_pos (by simpa using hnmem)]
            exact ⟨_, rfl⟩
          | (Outcome.ret (false, a1), calls) =>
            simp only []
            have ha1 : a1 = a ++ [c] := hrecR _ _ a1 (by rw [hr])
            have hrestore : (pa.set next [c]).set next (c :: rest) = pa := by
              rw [List.set_set]; exact set_eq_self hd
            rw [hrestore, hdom, ha1, List.dropLast_concat]
            simp only [List.eraseIdx_cons_zero]
            rcases hu : UpdatePossibleAssignments g sg (pa.set next rest) with _ | ⟨pa2, b⟩
            · refine ⟨?_, fun _ h => by cases h⟩
              simp only []
              rw [List.filter_cons_of_pos (by simpa using hnmem)]
              exact ⟨_, rfl⟩
            · simp only []
              obtain ⟨hcE1, hpre, heq⟩ := hK pa2 b hu
              have hcE0 : c ∉ rest.diff (domain pa2 next) :=
                fun h => hcrest (List.diff_subset _ _ h)
              rw [List.filter_cons_of_pos (by simp [hnmem, hcE0, hcE1])]
              refine ⟨?_, fun a' h => by rw [heq a' h]⟩
              obtain ⟨t, ht⟩ := hpre
              exact ⟨t, by rw [List.cons_append, ht]⟩

/-- The record of the loop, counted with multiplicity: the committed candidates and the
candidates removed by the re-run passes that are not in the assignment are, together,
distinct occurrences of members of domain(next) at loop entry that are not in the
assignment, and all of these occurrences when the loop returns failure. -/
theorem searchLoop_record_perm {g sg : Graph} {next : Nat}
    {recurse : List Nat → Table → Outcome (Bool × List Nat) × List Call} {a : List Nat}
    (hrecR : ∀ a2 pa2 a1, (recurse a2 pa2).1 = Outcome.ret (false, a1) → a1 = a2) :
    ∀ (fuel : Nat) (pa : Table),
      ((searchLoopTraced recurse g sg next fuel a pa).2.1 ++
          (searchLoopErased recurse g sg next fuel a pa).filter
            (fun x => !a.contains x)).Subperm
        ((domain pa next).filter (fun x => !a.contains x)) ∧
      ∀ a', (searchLoopTraced recurse g sg next fuel a pa).1 = Outcome.ret (false, a') →
        ((searchLoopTraced recurse g sg next fuel a pa).2.1 ++
            (searchLoopErased recurse g sg next fuel a pa).filter
              (fun x => !a.contains x)).Perm
          ((domain pa next).filter (fun x => !a.contains x)) := by
  intro fuel
  induction fuel with
  | zero =>
    intro pa
    rcases hd : pa[next]? with _ | d
    · rw [searchLoopTraced_none hd, searchLoopErased_none hd]
      exact ⟨List.nil_subperm, fun _ h => by cases h⟩
    · cases d with
      | nil =>
        rw [searchLoopTraced_nil hd, searchLoopErased_nil hd, domain_of_getElem? hd]
        exact ⟨List.nil_subperm, fun _ _ => List.Perm.refl _⟩
      | cons c rest =>
        rw [searchLoopTraced_zero hd, searchLoopErased_zero hd]
        exact ⟨List.nil_subperm, fun _ h => by cases h⟩
  | succ fuel ih =>
    intro pa
    rcases hd : pa[next]? with _ | d
    · rw [searchLoopTraced_none hd, searchLoopErased_none hd]
      exact ⟨List.nil_subperm, fun _ h => by cases h⟩
    · cases d with
      | nil =>
        rw [searchLoopTraced_nil hd, searchLoopErased_nil hd, domain_of_getElem? hd]
        exact ⟨List.nil_subperm, fun _ _ => List.Perm.refl _⟩
      | cons c rest =>
        have hx : next < pa.length := lt_length_of_getElem? hd
        have hdom : domain pa next = c :: rest := domain_of_getElem? hd
        -- the run after the erasure of the first candidate
        have hK : ∀ pa2 b, UpdatePossibleAssignments g sg (pa.set next rest) = some (pa2, b) →
            ((searchLoopTraced recurse g sg next fuel a pa2).2.1 ++
                (rest.diff (domain pa2 next) ++
                  searchLoopErased recurse g sg next fuel a pa2).filter
                  (fun x => !a.contains x)).Subperm
              (rest.filter (fun x => !a.contains x)) ∧
            ∀ a', (searchLoopTraced recurse g sg next fuel a pa2).1 =
                Outcome.ret (false, a') →
              ((searchLoopTraced recurse g sg next fuel a pa2).2.1 ++
                  (rest.diff (domain pa2 next) ++
                    searchLoopErased recurse g sg next fuel a pa2).filter
                    (fun x => !a.contains x)).Perm
                (rest.filter (fun x => !a.contains x)) := by
          intro pa2 b hu
          obtain ⟨_, hsub, _⟩ := Update_shape hu
          have hsub1 : (domain pa2 next).Sublist rest := by
            have := hsub next
            rwa [domain_set_self hx] at this
          obtain ⟨hsp, hpm⟩ := ih pa2
          have hsplit : ((domain pa2 next).filter (fun x => !a.contains x) ++
              (rest.diff (domain pa2 next)).filter (fun x => !a.contains x)).Perm
              (rest.filter (fun x => !a.contains x)) := by
            rw [← List.filter_append]
            exact (List.subperm_append_diff_self_of_count_le
              (fun x _ => hsub1.count_le x)).filter _
          have hshuffle : ((searchLoopTraced recurse g sg next fuel a pa2).2.1 ++
                (rest.diff (domain pa2 next) ++
                  searchLoopErased recurse g sg next fuel a pa2).filter
                  (fun x => !a.contains x)).Perm
              (((searchLoopTraced recurse g sg next fuel a pa2).2.1 ++
                  (searchLoopErased recurse g sg next fuel a pa2).filter
                    (fun x => !a.contains x)) ++
                (rest.diff (domain pa2 next)).filter (fun x => !a.contains x)) := by
            rw [List.filter_append, List.append_assoc]
            exact List.Perm.append_left _ List.perm_append_comm
          refine ⟨?_, fun a' h => ?_⟩
          · exact (hshuffle.subperm.trans ((List.subperm_append_right _).2 hsp)).trans
              hsplit.subperm
          · exact (hshuffle.trans ((hpm a' h).append_right _)).trans hsplit
        rw [searchLoopTraced_succ recurse hd, searchLoopErased_succ recurse hd, hdom]
        by_cases hca : a.contains c = true
        · simp only [if_pos hca, List.eraseIdx_cons_zero]
          have hmem : c ∈ a := by simpa using hca
          rw [List.filter_cons_of_neg (by simp [hmem])]
          rcases hu : UpdatePossibleAssignments g sg (pa.set next rest) with _ | ⟨pa2, b⟩
          · exact ⟨List.nil_subperm, fun _ h => by cases h⟩
          · simp only []
            exact hK pa2 b hu
        · simp only [if_neg hca]
          have hnmem : c ∉ a := by simpa using hca
          rw [List.filter_cons_of_pos (by simpa using hnmem)]
          have hone : ([c] ++ ([] : List Nat).filter (fun x => !a.contains x)).Subperm
              (c :: rest.filter (fun x => !a.contains x)) :=
            (List.subperm_cons c).2 List.nil_subperm
          match hr : recurse (a ++ [c]) (pa.set next [c]) with
          | (Outcome.fault, calls) => exact ⟨hone, fun _ h => by cases h⟩
          | (Outcome.outOfFuel, calls) => exact ⟨hone, fun _ h => by cases h⟩
          | (Outcome.ret (true, a1), calls) => exact ⟨hone, fun _ h => by cases h⟩
          | (Outcome.ret (false, a1), calls) =>
            simp only []
            have ha1 : a1 = a ++ [c] := hrecR _ _ a1 (by rw [hr])
            have hrestore : (pa.set next [c]).set next (c :: rest) = pa := by
              rw [List.set_set]; exact set_eq_self hd
            rw [hrestore, hdom, ha1, List.dropLast_concat]
            simp only [List.eraseIdx_cons_zero]
            rcases hu : UpdatePossibleAssignments g sg (pa.set next rest) with _ | ⟨pa2, b⟩
            · exact ⟨hone, fun _ h => by cases h⟩
            · simp only []
              obtain ⟨hsp, hpm⟩ := hK pa2 b hu
              rw [List.cons_append]
              exact ⟨(List.subperm_cons c).2 hsp, fun a' h => (hpm a' h).cons c⟩

/-- A run of the loop that returns success has committed a candidate last whose commit the
returned assignment extends, when the recursive call hands back the assignment it was given
on failure and an extension of it on success. -/
theorem searchLoopTraced_success {g sg : Graph} {next : Nat}
    {recurse : List Nat → Table → Outcome (Bool × List Nat) × List Call}
    (hrecR : ∀ a2 pa2 a1, (recurse a2 pa2).1 = Outcome.ret (false, a1) → a1 = a2)
    (hrecS : ∀ a2 pa2 m, (recurse a2 pa2).1 = Outcome.ret (true, m) → a2 <+: m) :
    ∀ (fuel : Nat) (a : List Nat) (pa : Table) (m : List Nat),
      (searchLoopTraced recurse g sg next fuel a pa).1 = Outcome.ret (true, m) →
      ∃ c, (searchLoopTraced recurse g sg next fuel a pa).2.1.getLast? = some c ∧
        (a ++ [c]) <+: m := by
  intro fuel
  induction fuel with
  | zero =>
    intro a pa m h
    rcases hd : pa[next]? with _ | d
    · rw [searchLoopTraced_none hd] at h; cases h
    · cases d with
      | nil => rw [searchLoopTraced_nil hd] at h; cases h
      | cons c rest => rw [searchLoopTraced_zero hd] at h; cases h
  | succ fuel ih =>
    intro a pa m h
    rcases hd : pa[next]? with _ | d
    · rw [searchLoopTraced_none hd] at h; cases h
    · cases d with
      | nil => rw [searchLoopTraced_nil hd] at h; cases h
      | cons c rest =>
        rw [searchLoopTraced_succ recurse hd] at h ⊢
        by_cases hca : a.contains c = true
        · simp only [if_pos hca] at h ⊢
          rcases hu : UpdatePossibleAssignments g sg
              (pa.set next ((domain pa next).eraseIdx 0)) with _ | ⟨pa2, b⟩
          · rw [hu] at h; cases h
          · rw [hu] at h
            simp only [] at h ⊢
            exact ih a pa2 m h
        · simp only [if_neg hca] at h ⊢
          match hr : recurse (a ++ [c]) (pa.set next [c]) with
          | (Outcome.fault, calls) => rw [hr] at h; cases h
          | (Outcome.outOfFuel, calls) => rw [hr] at h; cases h
          | (Outcome.ret (true, a1), calls) =>
            rw [hr] at h
            simp only [] at h
            refine ⟨c, rfl, ?_⟩
            have := hrecS (a ++ [c]) (pa.set next [c]) a1 (by rw [hr])
            cases h
            exact this
          | (Outcome.ret (false, a1), calls) =>
            rw [hr] at h
            simp only [] at h ⊢
            have ha1 : a1 = a ++ [c] := hrecR _ _ a1 (by rw [hr])
            rcases hu : UpdatePossibleAssignments g sg
                (((pa.set next [c]).set next (c :: rest)).set next
                  ((domain ((pa.set next [c]).set next (c :: rest)) next).eraseIdx 0))
              with _ | ⟨pa2, b⟩
            · rw [hu] at h; cases h
            · rw [hu] at h
              simp only [] at h ⊢
              obtain ⟨c', hlast, hpre⟩ := ih a1.dropLast pa2 m h
              rw [ha1, List.dropLast_concat] at hpre
              refine ⟨c', ?_, hpre⟩
              rw [List.getLast?_cons, hlast]
              rfl

/-- A call of the search that returns success hands back an extension of the assignment it
was given. -/
theorem FindSubgraphImplTraced_success_extends (g sg : Graph) : ∀ (depth : Nat)
    (a : List Nat) (pa : Table) (m : List Nat),
      (FindSubgraphImplTraced g sg depth a pa).1 = Outcome.ret (true, m) → a <+: m := by
  intro depth
  induction depth with
  | zero => intro a pa m h; rw [FindSubgraphImplTraced] at h; cases h
  | succ depth ih =>
    intro a pa m h
    rw [FindSubgraphImplTraced_succ] at h
    rcases hv : DoAssignedEdgesExist g sg a with _ | b
    · rw [hv] at h; cases h
    · cases b with
      | false => rw [hv] at h; cases h
      | true =>
        rw [hv] at h
        simp only [] at h
        by_cases hfull : a.length = sg.length
        · rw [if_pos hfull] at h; cases h; exact List.prefix_refl _
        · rw [if_neg hfull] at h
          rcases hu : UpdatePossibleAssignments g sg pa with _ | ⟨pa1, b1⟩
          · rw [hu] at h; cases h
          · rw [hu] at h
            simp only [] at h
            obtain ⟨c, _, hpre⟩ := searchLoopTraced_success
              (FindSubgraphImplTraced_fail_restores g sg depth) ih _ a pa1 m h
            exact (List.prefix_append a [c]).trans hpre

/-- Every call made during the loop is made with an ascending table, when the loop is
entered with one and the calls made during the recursive calls on ascending tables are. -/
theorem searchLoopTraced_calls_ascending {g sg : Graph} {next : Nat}
    {recurse : List Nat → Table → Outcome (Bool × List Nat) × List Call}
    (hrecC : ∀ a2 pa2, Ascending pa2 → ∀ call ∈ (recurse a2 pa2).2, Ascending call.2) :
    ∀ (fuel : Nat) (a : List Nat) (pa : Table), Ascending pa →
      ∀ call ∈ (searchLoopTraced recurse g sg next fuel a pa).2.2, Ascending call.2 := by
  intro fuel
  induction fuel with
  | zero =>
    intro a pa _ call hcall
    rcases hd : pa[next]? with _ | d
    · rw [searchLoopTraced_none hd] at hcall; cases hcall
    · cases d with
      | nil => rw [searchLoopTraced_nil hd] at hcall; cases hcall
      | cons c rest => rw [searchLoopTraced_zero hd] at hcall; cases hcall
  | succ fuel ih =>
    intro a pa hasc call hcall
    rcases hd : pa[next]? with _ | d
    · rw [searchLoopTraced_none hd] at hcall; cases hcall
    · cases d with
      | nil => rw [searchLoopTraced_nil hd] at hcall; cases hcall
      | cons c rest =>
        have hdom : domain pa next = c :: rest := domain_of_getElem? hd
        have hrest : rest.Pairwise (· < ·) := by
          have := hasc next
          rw [hdom] at this
          exact (List.pairwise_cons.1 this).2
        have hK : ∀ pa2 b, UpdatePossibleAssignments g sg (pa.set next rest) = some (pa2, b) →
            Ascending pa2 :=
          fun pa2 b hu => Ascending_update (Ascending_set hasc next hrest) hu
        rw [searchLoopTraced_succ recurse hd] at hcall
        by_cases hca : a.contains c = true
        · simp only [if_pos hca] at hcall
          rw [hdom, List.eraseIdx_cons_zero] at hcall
          rcases hu : UpdatePossibleAssignments g sg (pa.set next rest) with _ | ⟨pa2, b⟩
          · rw [hu] at hcall; cases hcall
          · rw [hu] at hcall; exact ih a pa2 (hK pa2 b hu) call hcall
        · simp only [if_neg hca] at hcall
          have hC := hrecC (a ++ [c]) (pa.set next [c])
            (Ascending_set hasc next (List.pairwise_singleton _ c))
          match hr : recurse (a ++ [c]) (pa.set next [c]) with
          | (Outcome.fault, calls) =>
            rw [hr] at hcall hC; exact hC call hcall
          | (Outcome.outOfFuel, calls) =>
            rw [hr] at hcall hC; exact hC call hcall
          | (Outcome.ret (true, a1), calls) =>
            rw [hr] at hcall hC; exact hC call hcall
          | (Outcome.ret (false, a1), calls) =>
            rw [hr] at hcall hC
            simp only [] at hcall
            have hrestore : (pa.set next [c]).set next (c :: rest) = pa := by
              rw [List.set_set]; exact set_eq_self hd
            rw [hrestore, hdom, List.eraseIdx_cons_zero] at hcall
            rcases List.mem_append.1 hcall with h1 | h1
            · exact hC call h1
            · rcases hu : UpdatePossibleAssignments g sg (pa.set next rest) with _ | ⟨pa2, b⟩
              · rw [hu] at h1; cases h1
              · rw [hu] at h1
                exact ih a1.dropLast pa2 (hK pa2 b hu) call h1

/-- Every call made during a run of the search that is entered with an ascending table is
made with an ascending table. -/
theorem FindSubgraphImplTraced_calls_ascending (g sg : Graph) : ∀ (depth : Nat)
    (a : List Nat) (pa : Table), Ascending pa →
      ∀ call ∈ (FindSubgraphImplTraced g sg depth a pa).2, Ascending call.2 := by
  intro depth
  induction depth with
  | zero =>
    intro a pa hasc call hcall
    rw [FindSubgraphImplTraced] at hcall
    rw [List.mem_singleton.1 hcall]
    exact hasc
  | succ depth ih =>
    intro a pa hasc call hcall
    rw [FindSubgraphImplTraced_succ] at hcall
    have hself : call = (a, pa) → Ascending call.2 := by
      intro he; rw [he]; exact hasc
    rcases hv : DoAssignedEdgesExist g sg a with _ | b
    · rw [hv] at hcall; exact hself (List.mem_singleton.1 hcall)
    · cases b with
      | false => rw [hv] at hcall; exact hself (List.mem_singleton.1 hcall)
      | true =>
        rw [hv] at hcall
        simp only [] at hcall
        by_cases hfull : a.length = sg.length
        · rw [if_pos hfull] at hcall; exact hself (List.mem_singleton.1 hcall)
        · rw [if_neg hfull] at hcall
          rcases hu : UpdatePossibleAssignments g sg pa with _ | ⟨pa1, b1⟩
          · rw [hu] at hcall; exact hself (List.mem_singleton.1 hcall)
          · rw [hu] at hcall
            simp only [] at hcall
            rcases List.mem_cons.1 hcall with h1 | h1
            · exact hself h1
            · exact searchLoopTraced_calls_ascending ih _ a pa1 (Ascending_update hasc hu)
                call h1

/-- C13, at an input where it fails: host line `0 -> 1 -> 2`, pattern line
`0 -> 1 -> 2 -> 3`, the frame of the initial call.  Right after the initial propagation
domain(0) is `[0, 1]` and the assignment is empty; the frame commits the candidate `0`
only and returns failure: when the branch of `0` has failed, the propagator run after the
erasure of `0` removes `1` from domain(0), and `1` is never tried.  The run of
`FindSubgraph` makes two calls in all, the initial one and the one on `[0]`. -/
theorem searchLoop_snapshot_not_stable :
    FindSubgraph line3 line4 = Outcome.ret none ∧
      FindSubgraphCalls line3 line4 =
        [([], List.replicate 4 [0, 1, 2]), ([0], [[0], [0, 1], [0, 1], [0, 1, 2]])] ∧
      UpdatePossibleAssignments line3 line4 (List.replicate 4 [0, 1, 2]) =
        some ([[0, 1], [0, 1], [0, 1], [0, 1, 2]], true) ∧
      searchLoopTraced (FindSubgraphImplTraced line3 line4 4) line3 line4 0 2 []
          [[0, 1], [0, 1], [0, 1], [0, 1, 2]] =
        (Outcome.ret (false, []), [0], [([0], [[0], [0, 1], [0, 1], [0, 1, 2]])]) ∧
      (domain [[0, 1], [0, 1], [0, 1], [0, 1, 2]] 0).filter
          (fun c => !([] : List Nat).contains c) = [0, 1] ∧
      ¬ (searchLoopTraced (FindSubgraphImplTraced line3 line4 4) line3 line4 0 2 []
          [[0, 1], [0, 1], [0, 1], [0, 1, 2]]).2.1 =
        (domain [[0, 1], [0, 1], [0, 1], [0, 1, 2]] 0).filter
          (fun c => !([] : List Nat).contains c) := by
  decide

/-- C13, amended: the candidates that a frame commits and recurses on are taken from the
live domain(next), each being its first member at that iteration, and a propagator pass
re-run inside the frame after the erasure of a candidate can remove members of domain(next),
which are then never tried; these removed members (`searchLoopErased`) are the only
exception to the claim.  With domain(next) as it stood right after the frame's initial
propagation (the table the loop is entered with):

* the outcome of the loop with the record is the outcome of the loop;
* the committed candidates form, in the order of that domain, a sublist of its members that
  do not appear in the assignment;
* when the loop returns success, the candidate committed last is the one whose branch
  succeeded: the returned mapping extends the assignment with it;
* the members removed by re-run passes are members of that domain other than its first;
* the committed candidates and the removed members that do not appear in the assignment
  are, together and counted with multiplicity, among the members of that domain that do not
  appear in the assignment, and they are all of them when the loop returns failure: then
  every such member that is not committed has been removed by a re-run pass;
* when that domain has no duplicate, the committed candidates are, in the order of that
  domain and up to the first success, exactly its members that neither appear in the
  assignment nor are removed by a re-run pass: they form an initial segment of these
  members, and all of them when the loop returns failure;
* the committed candidates are in ascending order when that domain is;
* in a run of `FindSubgraph` on a host of at most `2 ^ 32` vertices every call is made
  with a table whose domains are ascending, hence without duplicates, and so is the table
  after the call's initial propagation. -/
theorem searchLoop_commits_all_but_erased (graph subgraph : Graph)
    (depth fuel nextVertex : Nat) (assignments : List Nat) (possibleAssignments : Table) :
    (searchLoopTraced (FindSubgraphImplTraced graph subgraph depth) graph subgraph nextVertex
        fuel assignments possibleAssignments).1 =
      searchLoop (FindSubgraphImpl graph subgraph depth) graph subgraph nextVertex fuel
        assignments possibleAssignments ∧
    (searchLoopTraced (FindSubgraphImplTraced graph subgraph depth) graph subgraph nextVertex
        fuel assignments possibleAssignments).2.1.Sublist
      ((domain possibleAssignments nextVertex).filter (fun c => !assignments.contains c)) ∧
    (∀ m, (searchLoopTraced (FindSubgraphImplTraced graph subgraph depth) graph subgraph
          nextVertex fuel assignments possibleAssignments).1 = Outcome.ret (true, m) →
      ∃ c, (searchLoopTraced (FindSubgraphImplTraced graph subgraph depth) graph subgraph
          nextVertex fuel assignments possibleAssignments).2.1.getLast? = some c ∧
        (assignments ++ [c]) <+: m) ∧
    (∀ c ∈ searchLoopErased (FindSubgraphImplTraced graph subgraph depth) graph subgraph
          nextVertex fuel assignments possibleAssignments,
      c ∈ (domain possibleAssignments nextVertex).tail) ∧
    (((searchLoopTraced (FindSubgraphImplTraced graph subgraph depth) graph subgraph
          nextVertex fuel assignments possibleAssignments).2.1 ++
        (searchLoopErased (FindSubgraphImplTraced graph subgraph depth) graph subgraph
          nextVertex fuel assignments possibleAssignments).filter
          (fun c => !assignments.contains c)).Subperm
        ((domain possibleAssignments nextVertex).filter (fun c => !assignments.contains c)) ∧
      ∀ a', (searchLoopTraced (FindSubgraphImplTraced graph subgraph depth) graph subgraph
            nextVertex fuel assignments possibleAssignments).1 = Outcome.ret (false, a') →
        ((searchLoopTraced (FindSubgraphImplTraced graph subgraph depth) graph subgraph
            nextVertex fuel assignments possibleAssignments).2.1 ++
          (searchLoopErased (FindSubgraphImplTraced graph subgraph depth) graph subgraph
            nextVertex fuel assignments possibleAssignments).filter
            (fun c => !assignments.contains c)).Perm
          ((domain possibleAssignments nextVertex).filter
            (fun c => !assignments.contains c))) ∧
    ((domain possibleAssignments nextVertex).Nodup →
      (searchLoopTraced (FindSubgraphImplTraced graph subgraph depth) graph subgraph
          nextVertex fuel assignments possibleAssignments).2.1 <+:
        (domain possibleAssignments nextVertex).filter (fun c => !assignments.contains c &&
          !(searchLoopErased (FindSubgraphImplTraced graph subgraph depth) graph subgraph
            nextVertex fuel assignments possibleAssignments).contains c) ∧
      ∀ a', (searchLoopTraced (FindSubgraphImplTraced graph subgraph depth) graph subgraph
            nextVertex fuel assignments possibleAssignments).1 = Outcome.ret (false, a') →
        (searchLoopTraced (FindSubgraphImplTraced graph subgraph depth) graph subgraph
            nextVertex fuel assignments possibleAssignments).2.1 =
          (domain possibleAssignments nextVertex).filter (fun c => !assignments.contains c &&
            !(searchLoopErased (FindSubgraphImplTraced graph subgraph depth) graph subgraph
              nextVertex fuel assignments possibleAssignments).contains c)) ∧
    ((domain possibleAssignments nextVertex).Pairwise (· < ·) →
      (searchLoopTraced (FindSubgraphImplTraced graph subgraph depth) graph subgraph nextVertex
        fuel assignments possibleAssignments).2.1.Pairwise (· < ·)) ∧
    (graph.length ≤ 2 ^ UINT_BITS → ∀ call ∈ FindSubgraphCalls graph subgraph,
      Ascending call.2 ∧ ∀ possibleAssignments1 isUpdate,
        UpdatePossibleAssignments graph subgraph call.2 =
            some (possibleAssignments1, isUpdate) →
          Ascending possibleAssignments1 ∧
            (domain possibleAssignments1 call.1.length).Nodup) := by
  have hR := FindSubgraphImplTraced_fail_restores graph subgraph depth
  have hsub := @searchLoopTraced_commits_sublist graph subgraph nextVertex _ assignments hR
    fuel possibleAssignments
  refine ⟨?_, hsub, ?_, ?_, ?_, ?_,
    fun hp => (hp.sublist (List.filter_sublist _)).sublist hsub, ?_⟩
  · rw [searchLoopTraced_fst]
    have hfun : (fun a2 pa2 => (FindSubgraphImplTraced graph subgraph depth a2 pa2).1) =
        FindSubgraphImpl graph subgraph depth := by
      funext a2 pa2
      exact FindSubgraphImplTraced_fst graph subgraph depth a2 pa2
    rw [hfun]
  · exact searchLoopTraced_success hR
      (FindSubgraphImplTraced_success_extends graph subgraph depth) fuel assignments
      possibleAssignments
  · intro c hc
    rw [← List.eraseIdx_zero]
    exact searchLoopErased_subset fuel assignments possibleAssignments c hc
  · exact @searchLoop_record_perm graph subgraph nextVertex _ assignments hR fuel
      possibleAssignments
  · intro hnd
    exact @searchLoop_record graph subgraph nextVertex _ assignments hR fuel
      possibleAssignments hnd
  · intro hsmall call hcall
    have hasc : Ascending call.2 :=
      FindSubgraphImplTraced_calls_ascending graph subgraph _ [] _
        (Ascending_initial hsmall) call hcall
    refine ⟨hasc, fun pa1 b hu => ?_⟩
    have hasc1 : Ascending pa1 := Ascending_update hasc hu
    exact ⟨hasc1, (hasc1 call.1.length).imp (fun h => Nat.ne_of_lt h)⟩

/-- Witness of the amended C13.  At the frame of the initial call on the host line
`0 -> 1 -> 2` and the pattern line `0 -> 1 -> 2 -> 3`, domain(0) is `[0, 1]` right after the
initial propagation, the loop returns failure, the re-run pass removes `1`, and the committed
candidates `[0]` are all the members of `[0, 1]` that are neither in the (empty) assignment
nor removed; with the removed `1` they make up `[0, 1]`.  At the frame of the initial call
on the host line of six vertices and the same pattern the loop returns the mapping
`[0, 1, 2, 3]`, and the candidate committed last is `0`.  The initial call of the first run
is made with an ascending table. -/
theorem searchLoop_commits_all_but_erased_witness :
    ((domain [[0, 1], [0, 1], [0, 1], [0, 1, 2]] 0).Nodup ∧
      (searchLoopTraced (FindSubgraphImplTraced line3 line4 4) line3 line4 0 2 []
        [[0, 1], [0, 1], [0, 1], [0, 1, 2]]).1 = Outcome.ret (false, []) ∧
      searchLoopErased (FindSubgraphImplTraced line3 line4 4) line3 line4 0 2 []
        [[0, 1], [0, 1], [0, 1], [0, 1, 2]] = [1] ∧
      (domain [[0, 1], [0, 1], [0, 1], [0, 1, 2]] 0).filter
        (fun c => !([] : List Nat).contains c && !([1] : List Nat).contains c) = [0] ∧
      (searchLoopTraced (FindSubgraphImplTraced line3 line4 4) line3 line4 0 2 []
          [[0, 1], [0, 1], [0, 1], [0, 1, 2]]).2.1 =
        (domain [[0, 1], [0, 1], [0, 1], [0, 1, 2]] 0).filter
          (fun c => !([] : List Nat).contains c &&
            !(searchLoopErased (FindSubgraphImplTraced line3 line4 4) line3 line4 0 2 []
              [[0, 1], [0, 1], [0, 1], [0, 1, 2]]).contains c) ∧
      ((searchLoopTraced (FindSubgraphImplTraced line3 line4 4) line3 line4 0 2 []
          [[0, 1], [0, 1], [0, 1], [0, 1, 2]]).2.1 ++
        (searchLoopErased (FindSubgraphImplTraced line3 line4 4) line3 line4 0 2 []
          [[0, 1], [0, 1], [0, 1], [0, 1, 2]]).filter
          (fun c => !([] : List Nat).contains c)).Perm
        ((domain [[0, 1], [0, 1], [0, 1], [0, 1, 2]] 0).filter
          (fun c => !([] : List Nat).contains c))) ∧
    ((domain [[0, 1], [0, 1], [0, 1], [0, 1, 2]] 0).Pairwise (· < ·) ∧
      (searchLoopTraced (FindSubgraphImplTraced line3 line4 4) line3 line4 0 2 []
        [[0, 1], [0, 1], [0, 1], [0, 1, 2]]).2.1.Pairwise (· < ·)) ∧
    ((searchLoopTraced (FindSubgraphImplTraced line6 line4 4) line6 line4 0 5 []
        [[0, 1, 2, 3, 4], [0, 1, 2, 3, 4], [0, 1, 2, 3, 4], [0, 1, 2, 3, 4, 5]]).1 =
        Outcome.ret (true, [0, 1, 2, 3]) ∧
      ∃ c, (searchLoopTraced (FindSubgraphImplTraced line6 line4 4) line6 line4 0 5 []
          [[0, 1, 2, 3, 4], [0, 1, 2, 3, 4], [0, 1, 2, 3, 4], [0, 1, 2, 3, 4, 5]]).2.1.getLast? =
          some c ∧ (([] : List Nat) ++ [c]) <+: [0, 1, 2, 3]) ∧
    (line3.length ≤ 2 ^ UINT_BITS ∧
      ([], List.replicate 4 [0, 1, 2]) ∈ FindSubgraphCalls line3 line4 ∧
      Ascending (([], List.replicate 4 [0, 1, 2]) : Call).2) :=
  ⟨⟨by decide, by decide, by decide, by decide,
      ((searchLoop_commits_all_but_erased line3 line4 4 2 0 []
        [[0, 1], [0, 1], [0, 1], [0, 1, 2]]).2.2.2.2.2.1 (by decide)).2 [] (by decide),
      (searchLoop_commits_all_but_erased line3 line4 4 2 0 []
        [[0, 1], [0, 1], [0, 1], [0, 1, 2]]).2.2.2.2.1.2 [] (by decide)⟩,
    ⟨by decide,
      (searchLoop_commits_all_but_erased line3 line4 4 2 0 []
        [[0, 1], [0, 1], [0, 1], [0, 1, 2]]).2.2.2.2.2.2.1 (by decide)⟩,
    ⟨by decide,
      (searchLoop_commits_all_but_erased line6 line4 4 5 0 []
        [[0, 1, 2, 3, 4], [0, 1, 2, 3, 4], [0, 1, 2, 3, 4], [0, 1, 2, 3, 4, 5]]).2.2.1
        [0, 1, 2, 3] (by decide)⟩,
    ⟨by decide, by decide,
      ((searchLoop_commits_all_but_erased line3 line4 4 2 0 []
        [[0, 1], [0, 1], [0, 1], [0, 1, 2]]).2.2.2.2.2.2.2 (by decide)
        ([], List.replicate 4 [0, 1, 2]) (by decide)).1⟩⟩

/-! ## The propagator (C14 to C17) and the range of the mapping (C19) -/

/-- C14: the propagator only shrinks domains.  After one pass the table has the same number
of domains and each output domain(x) is an order-preserving sublist of the input domain(x).
The pass does return a table when the pattern is well formed, the table has one domain per
pattern vertex and the candidates are host vertices. -/
theorem UpdatePossibleAssignments_only_shrinks (graph subgraph : Graph)
    (possibleAssignments : Table) :
    (Graph.WF subgraph → possibleAssignments.length = subgraph.length →
        (∀ y, ∀ c ∈ domain possibleAssignments y, c < graph.length) →
        ∃ r, UpdatePossibleAssignments graph subgraph possibleAssignments = some r) ∧
      ∀ pa' b, UpdatePossibleAssignments graph subgraph possibleAssignments = some (pa', b) →
        pa'.length = possibleAssignments.length ∧
          ∀ x, (domain pa' x).Sublist (domain possibleAssignments x) :=
  ⟨fun hwf hlen hc => Update_isSome hwf hlen hc,
    fun _ _ hu => ⟨(Update_shape hu).1, (Update_shape hu).2.1⟩⟩

/-- Witness of C14: host line `0 -> 1 -> 2`, pattern line `0 -> 1 -> 2 -> 3`, full domains:
the output domain `[0, 1]` of the pattern vertex `0` is a sublist of the input domain
`[0, 1, 2]`. -/
theorem UpdatePossibleAssignments_only_shrinks_witness :
    UpdatePossibleAssignments line3 line4 (List.replicate 4 [0, 1, 2]) =
        some ([[0, 1], [0, 1], [0, 1], [0, 1, 2]], true) ∧
      (domain [[0, 1], [0, 1], [0, 1], [0, 1, 2]] 0).Sublist
        (domain (List.replicate 4 [0, 1, 2]) 0) :=
  ⟨by decide,
    ((UpdatePossibleAssignments_only_shrinks line3 line4 (List.replicate 4 [0, 1, 2])).2
      [[0, 1], [0, 1], [0, 1], [0, 1, 2]] true (by decide)).2 0⟩

/-- C15: for a pattern vertex `x` that has no pattern-successor, one pass of the propagator
leaves domain(x) exactly unchanged, whatever the other domains contain.  The pass does return
a table when the pattern is well formed, the table has one domain per pattern vertex and the
candidates are host vertices. -/
theorem UpdatePossibleAssignments_leaf_unchanged (graph subgraph : Graph)
    (possibleAssignments : Table) (x : Nat) (hx : subgraph[x]? = some []) :
    (Graph.WF subgraph → possibleAssignments.length = subgraph.length →
        (∀ y, ∀ c ∈ domain possibleAssignments y, c < graph.length) →
        ∃ r, UpdatePossibleAssignments graph subgraph possibleAssignments = some r) ∧
      ∀ pa' b, UpdatePossibleAssignments graph subgraph possibleAssignments = some (pa', b) →
        domain pa' x = domain possibleAssignments x :=
  ⟨fun hwf hlen hc => Update_isSome hwf hlen hc,
    fun _ _ hu => (Update_shape hu).2.2 x hx⟩

/-- Witness of C15: host line `0 -> 1 -> 2`, pattern line `0 -> 1 -> 2 -> 3`, full domains:
the pattern vertex `3` has no successor and keeps its domain `[0, 1, 2]`, while the other
domains lose a candidate. -/
theorem UpdatePossibleAssignments_leaf_unchanged_witness :
    line4[3]? = some [] ∧
      UpdatePossibleAssignments line3 line4 (List.replicate 4 [0, 1, 2]) =
        some ([[0, 1], [0, 1], [0, 1], [0, 1, 2]], true) ∧
      domain [[0, 1], [0, 1], [0, 1], [0, 1, 2]] 3 = domain (List.replicate 4 [0, 1, 2]) 3 :=
  ⟨by decide, by decide,
    (UpdatePossibleAssignments_leaf_unchanged line3 line4 (List.replicate 4 [0, 1, 2]) 3
      (by decide)).2 [[0, 1], [0, 1], [0, 1], [0, 1, 2]] true (by decide)⟩

/-- C17: a single pass of the propagator does not reach a fixpoint.  On the host line
`0 -> 1 -> 2`, the pattern line `0 -> 1 -> 2 -> 3` and full domains, the first pass removes
the candidate `2` from the domains of the pattern vertices `0`, `1`, `2`, and a second pass
on its output removes the candidate `1` from the domains of `0` and `1`: the pass is not
idempotent. -/
theorem UpdatePossibleAssignments_not_idempotent :
    UpdatePossibleAssignments line3 line4 (List.replicate 4 [0, 1, 2]) =
        some ([[0, 1], [0, 1], [0, 1], [0, 1, 2]], true) ∧
      UpdatePossibleAssignments line3 line4 [[0, 1], [0, 1], [0, 1], [0, 1, 2]] =
        some ([[0], [0], [0, 1], [0, 1, 2]], true) ∧
      ∃ (graph subgraph : Graph) (pa pa1 pa2 : Table) (b1 b2 : Bool),
        UpdatePossibleAssignments graph subgraph pa = some (pa1, b1) ∧
        UpdatePossibleAssignments graph subgraph pa1 = some (pa2, b2) ∧ pa2 ≠ pa1 :=
  ⟨by decide, by decide,
    ⟨line3, line4, List.replicate 4 [0, 1, 2], [[0, 1], [0, 1], [0, 1], [0, 1, 2]],
      [[0], [0], [0, 1], [0, 1, 2]], true, true, by decide, by decide, by decide⟩⟩

/-- C19: if `FindSubgraph` returns a mapping `m`, then every entry of `m` is a host vertex
id: `m[i]` is less than the host vertex count for every pattern vertex `i`. -/
theorem FindSubgraph_entries_are_host_vertices (graph subgraph : Graph) (m : List Nat)
    (h : FindSubgraph graph subgraph = Outcome.ret (some m)) :
    (∀ c ∈ m, c < graph.length) ∧ ∀ i < subgraph.length, m.getD i 0 < graph.length := by
  obtain ⟨_, hlen, _, _, hP, _⟩ := FindSubgraph_good h
  have hall : ∀ c ∈ m, c < graph.length := fun c hc => (mem_allVerticesInGraph (hP c hc)).1
  refine ⟨hall, fun i hi => ?_⟩
  apply hall
  have hi' : i < m.length := by rw [hlen]; exact hi
  simp [List.getD_eq_getElem?_getD, List.getElem?_eq_getElem hi']

/-- Witness of C19 on the test `FindGraph1D`: the entry of the pattern vertex `3` is the host
vertex `3`, below the host vertex count `6`. -/
theorem FindSubgraph_entries_are_host_vertices_witness :
    FindSubgraph line6 line4 = Outcome.ret (some [0, 1, 2, 3]) ∧
      [0, 1, 2, 3].getD 3 0 < line6.length :=
  ⟨by decide,
    (FindSubgraph_entries_are_host_vertices line6 line4 [0, 1, 2, 3] (by decide)).2 3
      (by decide)⟩

/-- Two tables with the same number of domains and the same domain at every vertex are
equal. -/
theorem table_ext {pa pa' : Table} (hlen : pa'.length = pa.length)
    (hdom : ∀ y, domain pa' y = domain pa y) : pa' = pa := by
  apply List.ext_getElem?
  intro i
  by_cases hi : i < pa.length
  · have hi' : i < pa'.length := by rw [hlen]; exact hi
    have h1 : pa[i]? = some (domain pa i) := by
      rw [List.getElem?_eq_getElem hi]; simp [domain, hi]
    have h2 : pa'[i]? = some (domain pa' i) := by
      rw [List.getElem?_eq_getElem hi']; simp [domain, hi']
    rw [h1, h2, hdom i]
  · rw [List.getElem?_eq_none (by omega), List.getElem?_eq_none (by omega)]

/-- The flag `isUpdate` after the loop over the vertices: it is raised exactly when the table
has changed. -/
theorem updateLoop_flag (g sg : Graph) : ∀ (xs : List Nat) (pa : Table) (upd : Bool)
    (pa' : Table) (upd' : Bool), updateLoop g sg xs pa upd = some (pa', upd') →
      upd' = (upd || decide (pa' ≠ pa)) := by
  intro xs
  induction xs with
  | nil =>
    intro pa upd pa' upd' h
    rw [updateLoop] at h
    simp only [Option.some.injEq, Prod.mk.injEq] at h
    obtain ⟨rfl, rfl⟩ := h
    simp
  | cons x more ih =>
    intro pa upd pa' upd' h
    rw [updateLoop_cons] at h
    rcases hv : updateVertex g sg x pa upd with _ | ⟨pa1, upd1⟩
    · simp [hv] at h
    · simp only [hv] at h
      obtain ⟨d', hsub, hpa1, hupd1, _⟩ := updateVertex_shape hv
      obtain ⟨hlen, hsh, _, _⟩ := updateLoop_shape g sg more pa1 upd1 pa' upd' h
      have hstep : ∀ y, (domain pa1 y).Sublist (domain pa y) := by
        intro y
        rw [hpa1, domain_set]
        split
        · next hc => rw [← hc.1]; exact hsub
        · exact List.Sublist.refl _
      have hiff : pa' = pa ↔ (d' = domain pa x ∧ pa' = pa1) := by
        constructor
        · intro he
          have h1 : ∀ y, domain pa1 y = domain pa y := by
            intro y
            apply List.Sublist.antisymm (hstep y)
            have := hsh y
            rwa [he] at this
          have hp : pa1 = pa := table_ext (by rw [hpa1, List.length_set]) h1
          refine ⟨?_, by rw [he, hp]⟩
          by_cases hx : x < pa.length
          · have := h1 x
            rwa [hpa1, domain_set_self hx] at this
          · have hnil : domain pa x = [] := by
              simp [domain, List.getD_eq_getElem?_getD,
                List.getElem?_eq_none (Nat.le_of_not_lt hx)]
            rw [hnil] at hsub ⊢
            exact List.eq_nil_of_sublist_nil hsub
        · rintro ⟨hd, hp⟩
          rw [hp, hpa1, hd]
          exact set_domain_self pa x
      rw [ih pa1 upd1 pa' upd' h, hupd1, Bool.or_assoc]
      congr 1
      by_cases hd : d' = domain pa x
      · by_cases hp : pa' = pa1
        · have : pa' = pa := hiff.2 ⟨hd, hp⟩
          simp [hd, hp, this]
          rw [← hp]; exact this
        · have : pa' ≠ pa := fun he => hp (hiff.1 he).2
          simp [hd, hp, this]
      · have : pa' ≠ pa := fun he => hd (hiff.1 he).1
        simp [hd, this]

/-- The Boolean returned by the propagator is true exactly when the table has changed. -/
theorem Update_flag {g sg : Graph} {pa pa' : Table} {b : Bool}
    (h : UpdatePossibleAssignments g sg pa = some (pa', b)) : b = decide (pa' ≠ pa) := by
  have := updateLoop_flag g sg _ pa false pa' b h
  simpa using this

/-- A table that a pass of the propagator has changed has a strictly shorter domain. -/
theorem Update_ne_iff {g sg : Graph} {pa pa' : Table} {b : Bool}
    (h : UpdatePossibleAssignments g sg pa = some (pa', b)) :
    pa' ≠ pa ↔ ∃ x, (domain pa' x).length < (domain pa x).length := by
  obtain ⟨hlen, hsub, _⟩ := Update_shape h
  constructor
  · intro hne
    by_contra hno
    apply hne
    apply table_ext hlen
    intro y
    apply (hsub y).eq_of_length_le
    by_contra hlt
    exact hno ⟨y, by omega⟩
  · rintro ⟨x, hx⟩ he
    rw [he] at hx
    exact Nat.lt_irrefl _ hx

/-- C16: the Boolean result of the propagator is true if and only if at least one candidate
was removed from some domain during the pass, and false exactly when the output table equals
the input table.  The pass does return when the pattern is well formed, the table has one
domain per pattern vertex and the candidates are host vertices. -/
theorem UpdatePossibleAssignments_result_iff_removed (graph subgraph : Graph)
    (possibleAssignments : Table) :
    (Graph.WF subgraph → possibleAssignments.length = subgraph.length →
        (∀ y, ∀ c ∈ domain possibleAssignments y, c < graph.length) →
        ∃ r, UpdatePossibleAssignments graph subgraph possibleAssignments = some r) ∧
      ∀ pa' b, UpdatePossibleAssignments graph subgraph possibleAssignments = some (pa', b) →
        (b = true ↔
          ∃ x, (domain pa' x).length < (domain possibleAssignments x).length) ∧
        (b = false ↔ pa' = possibleAssignments) := by
  refine ⟨fun hwf hlen hc => Update_isSome hwf hlen hc, fun pa' b hu => ?_⟩
  have hb := Update_flag hu
  have hne := Update_ne_iff hu
  constructor
  · rw [← hne, hb]; simp
  · rw [hb]; simp

/-- Witness of C16: on the host line `0 -> 1 -> 2` and the pattern line `0 -> 1 -> 2 -> 3`
the pass on the full table returns true and its output differs from its input. -/
theorem UpdatePossibleAssignments_result_iff_removed_witness :
    UpdatePossibleAssignments line3 line4 (List.replicate 4 [0, 1, 2]) =
        some ([[0, 1], [0, 1], [0, 1], [0, 1, 2]], true) ∧
      ∃ x, (domain [[0, 1], [0, 1], [0, 1], [0, 1, 2]] x).length <
        (domain (List.replicate 4 [0, 1, 2]) x).length :=
  ⟨by decide,
    (((UpdatePossibleAssignments_result_iff_removed line3 line4
      (List.replicate 4 [0, 1, 2])).2 [[0, 1], [0, 1], [0, 1], [0, 1, 2]] true
      (by decide)).1).1 rfl⟩

end GraphAlgos
